import Mathlib

/-!
NEMU simple debugger: the expression evaluator of `nemu/src/monitor/sdb/expr.c`.

A shallow embedding of the lexer (`make_token`), the parenthesis check
(`check_parentheses`), the main operator search (`find_mainop`), the recursive
evaluator (`eval`) and the entry point (`expr`), followed by theorems about them.

Conventions of the embedding.

* A C string is a `List Char` (one `Char` per byte, no NUL inside).
* `word_t` is an unsigned integer of `wordBits` bits, held as a `Nat` below
  `2 ^ wordBits`; `unsigned long` has `ulongBits` bits.
* The global `tokens[0 .. nr_token-1]` is a `List Token`; a slot that was never
  written reads as the zero-filled static value.
* `Assert(cond, ...)` with a false condition ends the process: outcome `abort`.
* Undefined behaviour of C (division by zero, a store behind `tokens[4095]`) is an
  outcome of its own, never a value.
-/

namespace Nemu

/-! ## Token kinds (the anonymous `enum`) -/

abbrev TK_NOTYPE : Nat := 255
abbrev TK_EQ : Nat := 0
abbrev TK_NEQ : Nat := 1
abbrev TK_AND : Nat := 2
abbrev TK_OR : Nat := 3
abbrev TK_DEC : Nat := 4
abbrev TK_HEX : Nat := 5
abbrev TK_REG : Nat := 6
abbrev TK_DEREF : Nat := 7
abbrev TK_LBRA : Nat := 40
abbrev TK_RBRA : Nat := 41
abbrev TK_ADD : Nat := 43
abbrev TK_MUL : Nat := 42
abbrev TK_SUB : Nat := 45
abbrev TK_DIV : Nat := 47
abbrev TK_MOD : Nat := 37

/-- The five shapes of regular expression that occur in `rules`. -/
inductive Regex
  | spaces
  | lit (s : List Char)
  | dec
  | hex
  | reg
  deriving DecidableEq, Repr

/-- One entry of `rules`: `struct rule`. -/
structure Rule where
  regex : Regex
  token_type : Nat
  deriving DecidableEq, Repr

/-- The table `rules[]`, in the order of the source. -/
def rules : List Rule :=
  [ ⟨.spaces, TK_NOTYPE⟩,
    ⟨.lit ['+'], TK_ADD⟩,
    ⟨.lit ['-'], TK_SUB⟩,
    ⟨.lit ['*'], TK_MUL⟩,
    ⟨.lit ['/'], TK_DIV⟩,
    ⟨.lit ['%'], TK_MOD⟩,
    ⟨.lit ['('], TK_LBRA⟩,
    ⟨.lit [')'], TK_RBRA⟩,
    ⟨.lit ['=', '='], TK_EQ⟩,
    ⟨.lit ['!', '='], TK_NEQ⟩,
    ⟨.lit ['&', '&'], TK_AND⟩,
    ⟨.lit ['|', '|'], TK_OR⟩,
    ⟨.dec, TK_DEC⟩,
    ⟨.hex, TK_HEX⟩,
    ⟨.reg, TK_REG⟩ ]

/-- The table `op_priority[256]`; entries not listed in the initializer are zero. -/
def op_priority (ty : Nat) : Int :=
  if ty = TK_MUL then 1
  else if ty = TK_DIV then 1
  else if ty = TK_MOD then 1
  else if ty = TK_ADD then 2
  else if ty = TK_SUB then 2
  else if ty = TK_EQ then 3
  else if ty = TK_NEQ then 3
  else if ty = TK_AND then 4
  else if ty = TK_OR then 4
  else 0

/-! ## POSIX `regexec`, for the patterns of `rules`

`regexec r e = some n` stands for `regexec(&re[i], e, 1, &pmatch, 0) == 0 &&
pmatch.rm_so == 0` with `pmatch.rm_eo == n`: the leftmost match starts at offset 0
and, being the longest one there, has length `n`. -/

/-- Length of the longest initial run of characters satisfying `p`. -/
def spanLen (p : Char → Bool) : List Char → Nat
  | [] => 0
  | c :: cs => if p c then spanLen p cs + 1 else 0

/-- The literal pattern `s` matches at offset 0 of the input. -/
def litMatch : List Char → List Char → Bool
  | [], _ => true
  | _ :: _, [] => false
  | p :: ps, c :: cs => p == c && litMatch ps cs

/-- Bracket expression `[0-9a-fA-F]`. -/
def isHexDigit (c : Char) : Bool :=
  c.isDigit || (97 ≤ c.toNat && c.toNat ≤ 102) || (65 ≤ c.toNat && c.toNat ≤ 70)

/-- Bracket expression `[a-z0-9]` (C locale). -/
def isRegChar (c : Char) : Bool :=
  c.isLower || c.isDigit

/-- The anchored match of one pattern: the length of the match at offset 0, if any. -/
def regexec (r : Regex) (e : List Char) : Option Nat :=
  match r with
  | .spaces =>
    let k := spanLen (fun c => c == ' ') e
    if 0 < k then some k else none
  | .lit s => if litMatch s e then some s.length else none
  | .dec =>
    let k := spanLen Char.isDigit e
    if 0 < k then (if (e.drop k).head? = some 'u' then some (k + 1) else some k) else none
  | .hex =>
    if litMatch ['0', 'x'] e then
      let k := min 8 (spanLen isHexDigit (e.drop 2))
      if 0 < k then some (2 + k) else none
    else none
  | .reg =>
    if litMatch ['$'] e then
      let k := spanLen isRegChar (e.drop 1)
      if 0 < k then some (1 + k) else none
    else none

/-! ## The lexer -/

/-- The `struct token`: the kind and the lexeme. `str` is written by `make_token` only for
`TK_DEC` and `TK_REG`; for every other kind the buffer is left as it was, which the
embedding records as the empty string of the zero-filled array. -/
structure Token where
  type : Nat
  str : List Char
  deriving DecidableEq, Repr

/-- A slot of the static array `tokens` that was never written. -/
instance : Inhabited Token := ⟨⟨0, []⟩⟩

/-- Outcome of one pass of the `for` loop over the rules in `make_token`. -/
inductive ForResult
  | noMatch
  | abort
  | overflow
  | tok (rest : List Char) (t : Token)
  deriving DecidableEq, Repr

/-- The `for (i = 0; i < NR_REGEX; i ++)` loop of `make_token`, entered with the rules
still to try, with `nr_token` tokens stored and with `e` the input from `position` on.
A whitespace match advances `position` and, through `continue`, goes on with the NEXT
rule at the new position. Any other match stores a token (`break`); `Assert(substr_len
< 32)` guards the copy of a `TK_DEC`/`TK_REG` lexeme, and a store into `tokens[4096]`
or beyond is outside the array. -/
def tryRules (nr_token : Nat) : List Rule → List Char → ForResult
  | [], _ => .noMatch
  | r :: rs, e =>
    match regexec r.regex e with
    | none => tryRules nr_token rs e
    | some substr_len =>
      if r.token_type = TK_NOTYPE then tryRules nr_token rs (e.drop substr_len)
      else if 4096 ≤ nr_token then .overflow
      else if r.token_type = TK_DEC ∨ r.token_type = TK_DEC ∨ r.token_type = TK_REG then
        if substr_len < 32 then .tok (e.drop substr_len) ⟨r.token_type, e.take substr_len⟩
        else .abort
      else .tok (e.drop substr_len) ⟨r.token_type, []⟩

/-- Outcome of `make_token`. -/
inductive LexResult
  | ok (tokens : List Token)
  | fail
  | abort
  | overflow
  | nofuel
  deriving DecidableEq, Repr

/-- Put a token in front of the tokens of the rest of the input. -/
def LexResult.cons (t : Token) : LexResult → LexResult
  | .ok ts => .ok (t :: ts)
  | r => r

/-- The `while (e[position] != 0)` loop of `make_token`: the tokens stored from
`position` on, when `nr_token` tokens are stored already. Every pass consumes at least
one character, so `fuel` equal to the length of the input is never used up. -/
def make_tokenLoop : Nat → Nat → List Char → LexResult
  | _, _, [] => .ok []
  | 0, _, _ :: _ => .nofuel
  | fuel + 1, nr_token, c :: cs =>
    match tryRules nr_token rules (c :: cs) with
    | .noMatch => .fail
    | .abort => .abort
    | .overflow => .overflow
    | .tok rest t => (make_tokenLoop fuel (nr_token + 1) rest).cons t

/-- The function `make_token(e)`: it starts from `nr_token = 0`. -/
def make_token (e : List Char) : LexResult :=
  make_tokenLoop e.length 0 e

/-! ## `strtoul(s, NULL, 0)` of the C library -/

/-- The predicate `isspace` in the C locale. -/
def isSpace (c : Char) : Bool :=
  c.toNat = 32 || (9 ≤ c.toNat && c.toNat ≤ 13)

/-- Value of a character as a digit; 36 when it is a digit in no base. -/
def digitVal (c : Char) : Nat :=
  if c.isDigit then c.toNat - 48
  else if c.isLower then c.toNat - 97 + 10
  else if c.isUpper then c.toNat - 65 + 10
  else 36

/-- The exact value of the longest initial run of digits valid in `base`. -/
def strtoulDigits (base : Nat) : Nat → List Char → Nat
  | acc, [] => acc
  | acc, c :: cs =>
    if digitVal c < base then strtoulDigits base (acc * base + digitVal c) cs else acc

/-- Optional sign of the subject sequence. -/
def strtoulSign : List Char → Bool × List Char
  | [] => (false, [])
  | c :: cs => if c = '-' then (true, cs) else if c = '+' then (false, cs) else (false, c :: cs)

/-- Base detection for `base == 0`: `0x`/`0X` before a hex digit is base 16, any other
leading `0` is base 8, everything else is base 10. -/
def strtoulBase : List Char → Nat × List Char
  | [] => (10, [])
  | [c] => if c = '0' then (8, [c]) else (10, [c])
  | [c, x] => if c = '0' then (8, [c, x]) else (10, [c, x])
  | c :: x :: h :: r =>
    if c = '0' then
      (if (x = 'x' ∨ x = 'X') ∧ digitVal h < 16 then (16, h :: r) else (8, c :: x :: h :: r))
    else (10, c :: x :: h :: r)

/-- The call `strtoul(s, NULL, 0)` for an `unsigned long` of `L` bits: a value that does not fit
gives `ULONG_MAX`; a leading minus sign negates within the type. -/
def strtoul (L : Nat) (s : List Char) : Nat :=
  let sg := strtoulSign (s.dropWhile isSpace)
  let bs := strtoulBase sg.2
  let v := strtoulDigits bs.1 0 bs.2
  if 2 ^ L ≤ v then 2 ^ L - 1
  else if sg.1 then (2 ^ L - v) % 2 ^ L
  else v

/-! ## The evaluator -/

/-- What the evaluator takes from its surroundings: the width of `word_t`, the width of
`unsigned long` of the host, and the register file access `isa_reg_str2val(name,
success)`, which gives a value and the flag it stores through `success`. -/
structure Machine where
  wordBits : Nat
  ulongBits : Nat
  isa_reg_str2val : List Char → Nat × Bool

/-- Outcome of `eval` and of `expr`: a return with the value and the flag left in
`*success`, an `Assert` that ended the process, or undefined behaviour. `nofuel` is the
recursion bound of the embedding and is shown not to occur. -/
inductive Result
  | ret (val : Nat) (success : Bool)
  | abort
  | undefined
  | nofuel
  deriving DecidableEq, Repr

/-- The array access `tokens[i]`. -/
def tokenAt (tokens : List Token) (i : Int) : Token :=
  if i < 0 then default else tokens.getD i.toNat default

/-- The loop of `check_parentheses` with `n` passes left, at index `cur`, the counter
being `stn`; after the loop the result is `stn == 0`. `pop_stack` decrements and
reports whether the counter stayed non-negative. -/
def check_parenthesesLoop (tokens : List Token) : Nat → Int → Int → Bool
  | 0, _, stn => decide (stn = 0)
  | n + 1, cur, stn =>
    if (tokenAt tokens cur).type = TK_LBRA then
      check_parenthesesLoop tokens n (cur + 1) (stn + 1)
    else if (tokenAt tokens cur).type = TK_RBRA then
      (if stn - 1 < 0 then false else check_parenthesesLoop tokens n (cur + 1) (stn - 1))
    else check_parenthesesLoop tokens n (cur + 1) stn

/-- The function `check_parentheses(st, ed)`: both ends are brackets and the counter,
walked over the tokens strictly between them, stays non-negative and ends at zero. -/
def check_parentheses (tokens : List Token) (st ed : Int) : Bool :=
  if (tokenAt tokens st).type ≠ TK_LBRA ∨ (tokenAt tokens ed).type ≠ TK_RBRA then false
  else check_parenthesesLoop tokens (ed - (st + 1)).toNat (st + 1) 0

/-- The loop of `find_mainop` with `n` passes left, at index `i`. -/
def find_mainopLoop (tokens : List Token) : Nat → Int → Int → Int → Int → Int
  | 0, _, mop, _, _ => mop
  | n + 1, i, mop, mop_pr, stn =>
    if (tokenAt tokens i).type = TK_LBRA then
      find_mainopLoop tokens n (i + 1) mop mop_pr (stn + 1)
    else if (tokenAt tokens i).type = TK_RBRA then
      (if stn - 1 < 0 then -1 else find_mainopLoop tokens n (i + 1) mop mop_pr (stn - 1))
    else if (tokenAt tokens i).type = TK_HEX ∨ (tokenAt tokens i).type = TK_DEC
        ∨ (tokenAt tokens i).type = TK_REG then
      find_mainopLoop tokens n (i + 1) mop mop_pr stn
    else if stn = 0 ∧ op_priority (tokenAt tokens i).type ≥ mop_pr then
      find_mainopLoop tokens n (i + 1) i (op_priority (tokenAt tokens i).type) stn
    else find_mainopLoop tokens n (i + 1) mop mop_pr stn

/-- The function `find_mainop(st, ed)`: the scan starts with `mop = -1`, `mop_pr = 0`
and `stn = 0`. -/
def find_mainop (tokens : List Token) (st ed : Int) : Int :=
  find_mainopLoop tokens (ed + 1 - st).toNat st (-1) 0 0

/-- The end of `eval`: `*success = true; return ret;`. The flag is set whatever it was
before, also when `isa_reg_str2val` has just stored `false` there. -/
def eval_return (ret : Nat) (_success : Bool) : Result :=
  .ret ret true

/-- Subtraction of `word_t`. -/
def wsub (w a b : Nat) : Nat :=
  (a + (2 ^ w - b % 2 ^ w)) % 2 ^ w

/-- The `switch (tokens[st].type)` of `eval` for a range of one token: a number is read
by `strtoul(str, NULL, 0)`, a register by `isa_reg_str2val(str + 1, success)`, anything
else fails the `Assert`. -/
def eval_single (M : Machine) (t : Token) : Result :=
  if t.type = TK_DEC ∨ t.type = TK_HEX then
    eval_return (strtoul M.ulongBits t.str % 2 ^ M.wordBits) true
  else if t.type = TK_REG then
    eval_return ((M.isa_reg_str2val (t.str.drop 1)).1 % 2 ^ M.wordBits)
      (M.isa_reg_str2val (t.str.drop 1)).2
  else .abort

/-- The `switch (tokens[mop].type)` of `eval`: the five arithmetic operators have a
case; `default` is `Assert(0)`. Division and remainder by zero are undefined. -/
def eval_binary (w : Nat) (ty : Nat) (lval rval : Nat) : Result :=
  if ty = TK_ADD then eval_return ((lval + rval) % 2 ^ w) true
  else if ty = TK_SUB then eval_return (wsub w lval rval) true
  else if ty = TK_MUL then eval_return ((lval * rval) % 2 ^ w) true
  else if ty = TK_DIV then (if rval = 0 then .undefined else eval_return (lval / rval) true)
  else if ty = TK_MOD then (if rval = 0 then .undefined else eval_return (lval % rval) true)
  else .abort

/-- The body of `eval(st, ed, success)`, with a bound on the depth of the recursion. -/
def evalF (M : Machine) (tokens : List Token) : Nat → Int → Int → Result
  | 0, _, _ => .nofuel
  | fuel + 1, st, ed =>
    if st > ed then .abort
    else if st = ed then eval_single M (tokenAt tokens st)
    else if check_parentheses tokens st ed = true then
      match evalF M tokens fuel (st + 1) (ed - 1) with
      | .ret v s => eval_return v s
      | r => r
    else if ¬ (find_mainop tokens st ed > 0) then .abort
    else
      match evalF M tokens fuel st (find_mainop tokens st ed - 1) with
      | .ret lval lexpr =>
        match evalF M tokens fuel (find_mainop tokens st ed + 1) ed with
        | .ret rval rexpr =>
          if ¬ (lexpr && rexpr) = true then .abort
          else eval_binary M.wordBits (tokenAt tokens (find_mainop tokens st ed)).type lval rval
        | r => r
      | r => r

/-- The function `eval(st, ed, success)`. A call on a range of `k` tokens recurses to depth at most
`k`, so the bound given here is never reached. -/
def eval (M : Machine) (tokens : List Token) (st ed : Int) : Result :=
  evalF M tokens ((ed + 1 - st).toNat + 1) st ed

/-- The entry point `expr(e, success)`: a lexer failure returns 0 with `*success = false`; otherwise
the whole token range is evaluated. -/
def expr (M : Machine) (e : List Char) : Result :=
  match make_token e with
  | .ok tokens => eval M tokens 0 ((tokens.length : Int) - 1)
  | .fail => .ret 0 false
  | .abort => .abort
  | .overflow => .undefined
  | .nofuel => .nofuel

/-! ## Vocabulary of the statements -/

/-- A non-empty string of decimal digits. -/
def isDecimalLiteral (d : List Char) : Bool :=
  !d.isEmpty && d.all Char.isDigit

/-- The digit string is `0` itself or does not begin with `0`. -/
def noLeadingZero (d : List Char) : Bool :=
  d == ['0'] || d.head? != some '0'

/-- The number a digit string denotes in base 10. -/
def decimalValue (d : List Char) : Nat :=
  d.foldl (fun acc c => acc * 10 + (c.toNat - 48)) 0

/-- A register file access that knows no register: it always stores `false`. -/
def failingResolver : List Char → Nat × Bool :=
  fun _ => (0, false)

/-- A 32-bit guest (`word_t = uint32_t`) on a host with 64-bit `unsigned long`. -/
def machine32 (reg : List Char → Nat × Bool) : Machine :=
  ⟨32, 64, reg⟩

/-- A 64-bit guest (`word_t = uint64_t`) on a host with 64-bit `unsigned long`. -/
def machine64 (reg : List Char → Nat × Bool) : Machine :=
  ⟨64, 64, reg⟩

/-! ## Expression trees and their renderings -/

/-- The binary operators that `eval` computes. -/
inductive BinOp
  | add
  | sub
  | mul
  | div
  | mod
  deriving DecidableEq, Repr

/-- The token kind of an operator. -/
def BinOp.token : BinOp → Nat
  | .add => TK_ADD
  | .sub => TK_SUB
  | .mul => TK_MUL
  | .div => TK_DIV
  | .mod => TK_MOD

/-- Binding class of an operator: `* / %` (class 1) bind tighter than `+ -` (class 2). -/
def BinOp.prio : BinOp → Int
  | .add => 2
  | .sub => 2
  | .mul => 1
  | .div => 1
  | .mod => 1

/-- The operation on machine words of `w` bits. -/
def BinOp.apply (w : Nat) : BinOp → Nat → Nat → Nat
  | .add, a, b => (a + b) % 2 ^ w
  | .sub, a, b => (((a : Int) - (b : Int)) % (2 : Int) ^ w).toNat
  | .mul, a, b => (a * b) % 2 ^ w
  | .div, a, b => a / b
  | .mod, a, b => a % b

/-- An expression tree over decimal literals; a literal is given by its digits. -/
inductive Tree
  | lit (digits : List Char)
  | bin (op : BinOp) (l r : Tree)
  deriving DecidableEq, Repr

/-- The value of a tree in arithmetic modulo `2 ^ w`. -/
def Tree.value (w : Nat) : Tree → Nat
  | .lit d => decimalValue d % 2 ^ w
  | .bin op l r => op.apply w (l.value w) (r.value w)

/-- No `/` and no `%` of the tree has a right operand of value zero. -/
def Tree.divisorsNonzero (w : Nat) : Tree → Bool
  | .lit _ => true
  | .bin op l r =>
    l.divisorsNonzero w && r.divisorsNonzero w
      && !((op = .div || op = .mod) && r.value w = 0)

/-- Every literal of the tree is a digit string without a leading zero whose value is
below `bound`. -/
def Tree.litsOK (bound : Nat) : Tree → Bool
  | .lit d => isDecimalLiteral d && noLeadingZero d && decide (decimalValue d < bound)
  | .bin _ l r => l.litsOK bound && r.litsOK bound

/-- A rendering of a tree in infix form: the tree together with the places of its
parentheses and, for each literal, whether it carries the suffix `u`. -/
inductive PExpr
  | lit (digits : List Char) (u : Bool)
  | paren (e : PExpr)
  | bin (op : BinOp) (l r : PExpr)
  deriving DecidableEq, Repr

/-- The tree that is rendered. -/
def PExpr.tree : PExpr → Tree
  | .lit d _ => .lit d
  | .paren e => e.tree
  | .bin op l r => .bin op l.tree r.tree

/-- The token sequence of the rendering, as `make_token` stores it. -/
def PExpr.tokens : PExpr → List Token
  | .lit d u => [⟨TK_DEC, if u then d ++ ['u'] else d⟩]
  | .paren e => ⟨TK_LBRA, []⟩ :: (e.tokens ++ [⟨TK_RBRA, []⟩])
  | .bin op l r => l.tokens ++ ⟨op.token, []⟩ :: r.tokens

/-- Binding class of the operator that stands outside all parentheses; 0 for a literal
and for a parenthesized rendering. -/
def PExpr.exposed : PExpr → Int
  | .lit _ _ => 0
  | .paren _ => 0
  | .bin op _ _ => op.prio

/-- Parentheses stand wherever they are required: a left operand shows no operator
that binds looser than its parent, a right operand shows only operators that bind
tighter than its parent (left-associativity). More parentheses are allowed anywhere. -/
def PExpr.parensOK : PExpr → Bool
  | .lit _ _ => true
  | .paren e => e.parensOK
  | .bin op l r =>
    l.parensOK && r.parensOK && decide (l.exposed ≤ op.prio) && decide (r.exposed < op.prio)

/-! ## Walks over a token list, used to reason about the loops -/

/-- The bracket counter after a list of tokens, `none` once `pop_stack` has failed. -/
def depthWalk : List Token → Int → Option Int
  | [], d => some d
  | t :: ts, d =>
    if t.type = TK_LBRA then depthWalk ts (d + 1)
    else if t.type = TK_RBRA then (if d - 1 < 0 then none else depthWalk ts (d - 1))
    else depthWalk ts d

/-- The state `(mop, mop_pr, stn)` of `find_mainop` after a list of tokens whose first
index is `i`; `none` once the function has returned -1 from inside the loop. -/
def scanWalk : List Token → Int → Int × Int × Int → Option (Int × Int × Int)
  | [], _, s => some s
  | t :: ts, i, (mop, mop_pr, stn) =>
    if t.type = TK_LBRA then scanWalk ts (i + 1) (mop, mop_pr, stn + 1)
    else if t.type = TK_RBRA then
      (if stn - 1 < 0 then none else scanWalk ts (i + 1) (mop, mop_pr, stn - 1))
    else if t.type = TK_HEX ∨ t.type = TK_DEC ∨ t.type = TK_REG then
      scanWalk ts (i + 1) (mop, mop_pr, stn)
    else if stn = 0 ∧ op_priority t.type ≥ mop_pr then
      scanWalk ts (i + 1) (i, op_priority t.type, stn)
    else scanWalk ts (i + 1) (mop, mop_pr, stn)

/-- The state of `find_mainop` after the tokens of a rendering that starts at index `i`:
only an operator outside all parentheses can become the candidate, and in a rendering
with the required parentheses this is the root operator. -/
def scanAfter (e : PExpr) (i : Int) (s : Int × Int × Int) : Int × Int × Int :=
  match e with
  | .bin op l _ =>
    if s.2.2 = 0 ∧ s.2.1 ≤ op.prio then (i + l.tokens.length, op.prio, s.2.2) else s
  | _ => s

/-- The outcome of `eval` on a rendering of the tree `t`: the value, unless a division
or remainder by zero is met (undefined behaviour in C). -/
def treeOutcome (w : Nat) (t : Tree) : Result :=
  if t.divisorsNonzero w then .ret (t.value w) true else .undefined

/-- The rendering `9u-3-((8)/(2u*2))`, with required and with optional parentheses. -/
def sampleRendering : PExpr :=
  .bin .sub (.bin .sub (.lit ['9'] true) (.lit ['3'] false))
    (.paren (.bin .div (.paren (.lit ['8'] false))
      (.paren (.bin .mul (.lit ['2'] true) (.lit ['2'] false)))))

/-- The word operation that the `switch` of `eval` performs for an operator. -/
def BinOp.exec (w : Nat) : BinOp → Nat → Nat → Nat
  | .add, a, b => (a + b) % 2 ^ w
  | .sub, a, b => wsub w a b
  | .mul, a, b => (a * b) % 2 ^ w
  | .div, a, b => a / b
  | .mod, a, b => a % b

/-- The input `((...(1)...))` with `k` pairs of brackets. -/
def nestInput (k : Nat) : List Char :=
  List.replicate k '(' ++ '1' :: List.replicate k ')'

/-- The tokens of `nestInput k`. -/
def nestTokens (k : Nat) : List Token :=
  List.replicate k ⟨TK_LBRA, []⟩ ++ ⟨TK_DEC, ['1']⟩ :: List.replicate k ⟨TK_RBRA, []⟩

/-- The rendering of the literal `1` inside `k` pairs of brackets. -/
def nestRendering : Nat → PExpr
  | 0 => .lit ['1'] false
  | k + 1 => .paren (nestRendering k)

/-! ## Vocabulary of the statements on brackets and operators -/

/-- The tokens `tokens[i]`, `tokens[i+1]`, ..., `tokens[i+n-1]`. -/
def slice (toks : List Token) : Int → Nat → List Token
  | _, 0 => []
  | i, n + 1 => tokenAt toks i :: slice toks (i + 1) n

/-- The change of the bracket depth at a token: plus one on `(`, minus one on `)`. -/
def bracketStep (t : Token) : Int :=
  if t.type = TK_LBRA then 1 else if t.type = TK_RBRA then -1 else 0

/-- The bracket depth after a list of tokens, counted from zero. -/
def depthOf : List Token → Int
  | [] => 0
  | t :: ts => bracketStep t + depthOf ts

/-- The depth counter never becomes negative while the tokens are walked. -/
def neverNegative (ts : List Token) : Prop :=
  ∀ k, k ≤ ts.length → 0 ≤ depthOf (ts.take k)

/-- An operator token in the sense of `find_mainop`: the `default` branch of its
`switch`, that is, neither a bracket nor a number nor a register. -/
def isOperator (t : Token) : Bool :=
  t.type != TK_LBRA && t.type != TK_RBRA && t.type != TK_HEX && t.type != TK_DEC
    && t.type != TK_REG

/-- The brackets of a token sequence are unbalanced: some initial part holds more `)`
than `(`, or the numbers of `(` and `)` differ. -/
def unbalanced (ts : List Token) : Prop :=
  (∃ k, k ≤ ts.length ∧ depthOf (ts.take k) < 0) ∨ depthOf ts ≠ 0

/-- Position `k` of `ts` holds an operator at bracket depth zero, `d0` being the depth
before the first token of `ts`. -/
def candAt (ts : List Token) (d0 : Int) (k : Nat) : Prop :=
  isOperator (ts.getD k default) = true ∧ d0 + depthOf (ts.take k) = 0

/-- What the scan of `find_mainop` has done over `ts`, entered at index `i0` with the
candidate `m0` of priority `p0` at depth `d0` and left with `m` of priority `p`: `p` is
at least `p0` and at least the priority of every depth-zero operator of `ts`; either
nothing changed and every depth-zero operator ranks below `p0`, or `m` is the last
depth-zero operator of priority `p`. -/
def scanSpec (ts : List Token) (i0 m0 p0 d0 m p : Int) : Prop :=
  p0 ≤ p
    ∧ (∀ k, k < ts.length → candAt ts d0 k → op_priority (ts.getD k default).type ≤ p)
    ∧ ((m = m0 ∧ p = p0
          ∧ ∀ k, k < ts.length → candAt ts d0 k → op_priority (ts.getD k default).type < p0)
        ∨ (∃ k, k < ts.length ∧ m = i0 + k ∧ candAt ts d0 k
            ∧ op_priority (ts.getD k default).type = p
            ∧ ∀ j, j < ts.length → candAt ts d0 j →
                op_priority (ts.getD j default).type = p → j ≤ k))

/-- The token at index `i` is an operator at bracket depth zero of the range that starts
at `st`: as many `(` as `)` among the tokens from `st` up to `i - 1`. -/
def depthZeroOperator (toks : List Token) (st i : Int) : Prop :=
  isOperator (tokenAt toks i) = true ∧ depthOf (slice toks st (i - st).toNat) = 0

/-! ## Vocabulary of the statements on missing operands -/

/-- A number or register token: what `eval` accepts on a range of one token. -/
def isNumber (t : Token) : Bool :=
  t.type == TK_DEC || t.type == TK_HEX || t.type == TK_REG

/-- A token of one of the five operators that the `switch` of `eval` computes. -/
def isArith (t : Token) : Bool :=
  t.type == TK_ADD || t.type == TK_SUB || t.type == TK_MUL || t.type == TK_DIV
    || t.type == TK_MOD

/-- A binary operator token of the lexer: one of `+ - * / % == != && ||`. -/
def isBinaryOperator (t : Token) : Bool :=
  isArith t || t.type == TK_EQ || t.type == TK_NEQ || t.type == TK_AND || t.type == TK_OR

/-- The token sequences on which `eval` can return: a number or register, a bracketed
sequence of this kind, or two of them joined by an arithmetic operator. -/
inductive WellFormed : List Token → Prop
  | leaf (t : Token) : isNumber t = true → WellFormed [t]
  | paren (t1 t2 : Token) (x : List Token) : t1.type = TK_LBRA → t2.type = TK_RBRA →
      WellFormed x → WellFormed (t1 :: (x ++ [t2]))
  | bin (sl : List Token) (top : Token) (sr : List Token) : WellFormed sl →
      isArith top = true → WellFormed sr → WellFormed (sl ++ top :: sr)

/-- A token that can end an operand: a number, a register or `)`. -/
def endsOperand (t : Token) : Bool :=
  isNumber t || t.type == TK_RBRA

/-- A token that can start an operand: a number, a register or `(`. -/
def startsOperand (t : Token) : Bool :=
  isNumber t || t.type == TK_LBRA

/-- Some binary operator of the sequence lacks an operand on one side: nothing stands
to its left, or a token that cannot end an operand; or nothing stands to its right, or a
token that cannot start an operand. -/
def missingOperand (toks : List Token) : Prop :=
  ∃ l op r, toks = l ++ op :: r ∧ isBinaryOperator op = true
    ∧ ((∀ t, l.getLast? = some t → endsOperand t = false)
      ∨ (∀ t, r.head? = some t → startsOperand t = false))

/-! ## Vocabulary of the round trip of the lexer -/

/-- A token as the round trip of the lexer speaks of it: its kind and its text. -/
structure Lexeme where
  kind : Nat
  text : List Char
  deriving DecidableEq, Repr

/-- The operators and brackets `+ - * / % ( ) == != && ||`, with their kinds. -/
def operatorLexemes : List Lexeme :=
  [⟨TK_ADD, ['+']⟩, ⟨TK_SUB, ['-']⟩, ⟨TK_MUL, ['*']⟩, ⟨TK_DIV, ['/']⟩, ⟨TK_MOD, ['%']⟩,
    ⟨TK_LBRA, ['(']⟩, ⟨TK_RBRA, [')']⟩, ⟨TK_EQ, ['=', '=']⟩, ⟨TK_NEQ, ['!', '=']⟩,
    ⟨TK_AND, ['&', '&']⟩, ⟨TK_OR, ['|', '|']⟩]

/-- The text of a decimal literal: digits with an optional `u` suffix. -/
def isDecimalText (s : List Char) : Bool :=
  isDecimalLiteral s || (s.getLast? == some 'u' && isDecimalLiteral s.dropLast)

/-- The text of a register reference: `$` followed by one or more characters of a-z or
0-9. -/
def isRegisterText : List Char → Bool
  | [] => false
  | c :: r => c == '$' && !r.isEmpty && r.all isRegChar

/-- A decimal literal or a register reference of at most 31 characters, or one of the
operators and brackets. -/
def Lexeme.valid (t : Lexeme) : Bool :=
  (t.kind == TK_DEC && isDecimalText t.text && decide (t.text.length ≤ 31))
    || (t.kind == TK_REG && isRegisterText t.text && decide (t.text.length ≤ 31))
    || decide (t ∈ operatorLexemes)

/-- The token that `make_token` stores for a lexeme: the kind, and the text for a number
or a register. -/
def Lexeme.stored (t : Lexeme) : Token :=
  ⟨t.kind, if t.kind = TK_DEC ∨ t.kind = TK_REG then t.text else []⟩

/-- The texts of the lexemes, separated by single spaces. -/
def joinTexts : List Lexeme → List Char
  | [] => []
  | [t] => t.text
  | t :: t2 :: ts => t.text ++ ' ' :: joinTexts (t2 :: ts)

/-! ## Facts about the patterns -/

theorem spanLen_le (p : Char → Bool) (e : List Char) : spanLen p e ≤ e.length := by
  induction e with
  | nil => simp [spanLen]
  | cons c cs ih =>
    simp only [spanLen]
    split
    · simp; omega
    · simp

theorem spanLen_append_all (p : Char → Bool) (d rest : List Char)
    (h : ∀ c ∈ d, p c = true) : spanLen p (d ++ rest) = d.length + spanLen p rest := by
  induction d with
  | nil => simp
  | cons c cs ih =>
    have hc : p c = true := h c (by simp)
    have := ih (fun x hx => h x (by simp [hx]))
    simp [spanLen, hc, this]; omega

theorem spanLen_stop (p : Char → Bool) (rest : List Char)
    (h : ∀ c, rest.head? = some c → p c = false) : spanLen p rest = 0 := by
  cases rest with
  | nil => rfl
  | cons c cs => simp [spanLen, h c (by simp)]

theorem digit_ne (c : Char) (h : c.isDigit = true) :
    c ≠ ' ' ∧ c ≠ '+' ∧ c ≠ '-' ∧ c ≠ '*' ∧ c ≠ '/' ∧ c ≠ '%' ∧ c ≠ '(' ∧ c ≠ ')'
      ∧ c ≠ '=' ∧ c ≠ '!' ∧ c ≠ '&' ∧ c ≠ '|' ∧ c ≠ '$' ∧ c ≠ 'u' := by
  refine ⟨?_, ?_, ?_, ?_, ?_, ?_, ?_, ?_, ?_, ?_, ?_, ?_, ?_, ?_⟩ <;>
    (rintro rfl; exact absurd h (by decide))

theorem regexec_spaces_none (c : Char) (cs : List Char) (h : c ≠ ' ') :
    regexec .spaces (c :: cs) = none := by
  simp [regexec, spanLen, h]

theorem regexec_lit_none (p c : Char) (ps cs : List Char) (h : c ≠ p) :
    regexec (.lit (p :: ps)) (c :: cs) = none := by
  have : (p == c) = false := by simpa using fun h2 => h h2.symm
  simp [regexec, litMatch, this]

theorem regexec_lit_one (c : Char) (cs : List Char) :
    regexec (.lit [c]) (c :: cs) = some 1 := by
  simp [regexec, litMatch]

theorem regexec_dec_none (c : Char) (cs : List Char) (h : c.isDigit = false) :
    regexec .dec (c :: cs) = none := by
  simp [regexec, spanLen, h]

theorem regexec_hex_none (c : Char) (cs : List Char) (h : c ≠ '0') :
    regexec .hex (c :: cs) = none := by
  have : ('0' == c) = false := by simpa using fun h2 => h h2.symm
  simp [regexec, litMatch, this]

theorem regexec_reg_none (c : Char) (cs : List Char) (h : c ≠ '$') :
    regexec .reg (c :: cs) = none := by
  have : ('$' == c) = false := by simpa using fun h2 => h h2.symm
  simp [regexec, litMatch, this]

/-- A run of digits that is not followed by a digit or by `u` is matched whole by
`[0-9]+u?`. -/
theorem regexec_dec_digits (d rest : List Char) (hd : d ≠ [])
    (hall : ∀ c ∈ d, c.isDigit = true)
    (hrest : ∀ c, rest.head? = some c → c.isDigit = false ∧ c ≠ 'u') :
    regexec .dec (d ++ rest) = some d.length := by
  have h1 : spanLen Char.isDigit (d ++ rest) = d.length := by
    rw [spanLen_append_all _ _ _ hall, spanLen_stop _ _ (fun c hc => (hrest c hc).1)]; rfl
  have h2 : 0 < d.length := List.length_pos.mpr hd
  have h3 : rest.head? ≠ some 'u' := fun h => (hrest _ h).2 rfl
  simp [regexec, h1, h2, h3]

/-- A run of digits followed by `u` is matched together with the `u`. -/
theorem regexec_dec_digits_u (d rest : List Char) (hd : d ≠ [])
    (hall : ∀ c ∈ d, c.isDigit = true) :
    regexec .dec (d ++ 'u' :: rest) = some (d.length + 1) := by
  have h1 : spanLen Char.isDigit (d ++ 'u' :: rest) = d.length := by
    rw [spanLen_append_all _ _ _ hall, spanLen_stop _ _ (fun c hc => ?_)]; rfl
    simp at hc; subst hc; decide
  have h2 : 0 < d.length := List.length_pos.mpr hd
  simp [regexec, h1, h2]

theorem litMatch_length (s e : List Char) (h : litMatch s e = true) : s.length ≤ e.length := by
  induction s generalizing e with
  | nil => simp
  | cons p ps ih =>
    cases e with
    | nil => simp [litMatch] at h
    | cons c cs =>
      simp only [litMatch, Bool.and_eq_true] at h
      have := ih cs h.2
      simp; omega

theorem head?_drop_some_lt (e : List Char) (k : Nat) (c : Char)
    (h : (e.drop k).head? = some c) : k < e.length := by
  by_contra hk
  have : e.drop k = [] := List.drop_eq_nil_of_le (by omega)
  simp [this] at h

/-- Every pattern of `rules` matches at least one character, inside the input. -/
theorem regexec_bounds (r : Regex) (hr : r ≠ .lit []) (e : List Char) (k : Nat)
    (h : regexec r e = some k) : 0 < k ∧ k ≤ e.length := by
  cases r with
  | spaces =>
    simp only [regexec] at h
    split at h
    · injection h with h; subst h
      exact ⟨by assumption, spanLen_le _ _⟩
    · exact absurd h (by simp)
  | lit s =>
    simp only [regexec] at h
    split at h
    · rename_i hm
      injection h with h; subst h
      refine ⟨?_, litMatch_length _ _ hm⟩
      cases s with
      | nil => exact absurd rfl hr
      | cons p ps => simp
    · exact absurd h (by simp)
  | dec =>
    simp only [regexec] at h
    have hle := spanLen_le Char.isDigit e
    split at h
    · split at h
      · rename_i hu
        have := head?_drop_some_lt _ _ _ hu
        injection h with h; omega
      · injection h with h; omega
    · exact absurd h (by simp)
  | hex =>
    simp only [regexec] at h
    split at h
    · rename_i hm
      have h2 := litMatch_length _ _ hm
      have hle := spanLen_le isHexDigit (e.drop 2)
      simp only [List.length_drop, List.length_cons, List.length_nil] at hle h2
      split at h
      · injection h with h; omega
      · exact absurd h (by simp)
    · exact absurd h (by simp)
  | reg =>
    simp only [regexec] at h
    split at h
    · rename_i hm
      have h2 := litMatch_length _ _ hm
      have hle := spanLen_le isRegChar (e.drop 1)
      simp only [List.length_drop, List.length_cons, List.length_nil] at hle h2
      split at h
      · injection h with h; omega
      · exact absurd h (by simp)
    · exact absurd h (by simp)

theorem rules_ne_lit_nil : ∀ r ∈ rules, r.regex ≠ .lit [] := by
  decide

/-- A token found by the `for` loop is cut from the front of the input: what is left
is strictly shorter. -/
theorem tryRules_rest_lt (n : Nat) (rs : List Rule) (hrs : ∀ r ∈ rs, r.regex ≠ .lit [])
    (e rest : List Char) (t : Token) (h : tryRules n rs e = .tok rest t) :
    rest.length < e.length := by
  induction rs generalizing e with
  | nil => simp [tryRules] at h
  | cons r rs ih =>
    have ih2 := ih (fun x hx => hrs x (by simp [hx]))
    simp only [tryRules] at h
    split at h
    · exact ih2 e h
    · rename_i k hk
      have hb := regexec_bounds r.regex (hrs r (by simp)) e k hk
      split at h
      · have := ih2 _ h
        simp only [List.length_drop] at this
        omega
      · split at h
        · exact absurd h (by simp)
        · split at h
          · split at h
            · injection h with h1 h2
              subst h1
              simp only [List.length_drop]
              omega
            · exact absurd h (by simp)
          · injection h with h1 h2
            subst h1
            simp only [List.length_drop]
            omega

/-- Two amounts of fuel that both cover the length of the input give the same result. -/
theorem make_tokenLoop_fuel2 (f g n : Nat) (e : List Char) (hf : e.length ≤ f)
    (hg : e.length ≤ g) : make_tokenLoop f n e = make_tokenLoop g n e := by
  induction f generalizing g n e with
  | zero =>
    have : e = [] := List.length_eq_zero.mp (by omega)
    subst this
    cases g <;> rfl
  | succ f ih =>
    cases e with
    | nil => cases g <;> rfl
    | cons c cs =>
      cases g with
      | zero => simp at hg
      | succ g =>
        simp only [make_tokenLoop]
        cases hr : tryRules n rules (c :: cs) with
        | noMatch => rfl
        | abort => rfl
        | overflow => rfl
        | tok rest t =>
          have hlt := tryRules_rest_lt n rules rules_ne_lit_nil _ _ _ hr
          simp only [List.length_cons] at hlt hf hg
          show (make_tokenLoop f (n + 1) rest).cons t = (make_tokenLoop g (n + 1) rest).cons t
          rw [ih g (n + 1) rest (by omega) (by omega)]

/-- One pass of the `while` loop that stores a token, with fuel to spare. -/
theorem make_tokenLoop_tok (f n : Nat) (e rest : List Char) (t : Token)
    (hf : e.length ≤ f) (h : tryRules n rules e = .tok rest t) :
    make_tokenLoop f n e = (make_tokenLoop rest.length (n + 1) rest).cons t := by
  have hlt := tryRules_rest_lt n rules rules_ne_lit_nil _ _ _ h
  cases e with
  | nil => simp at hlt
  | cons c cs =>
    cases f with
    | zero => simp at hf
    | succ f =>
      simp only [List.length_cons] at hlt hf
      simp only [make_tokenLoop, h]
      rw [make_tokenLoop_fuel2 f rest.length (n + 1) rest (by omega) (le_refl _)]

/-- The lexer never runs out of fuel. -/
theorem make_tokenLoop_ne_nofuel (f n : Nat) (e : List Char) (hf : e.length ≤ f) :
    make_tokenLoop f n e ≠ .nofuel := by
  induction f generalizing n e with
  | zero =>
    have : e = [] := List.length_eq_zero.mp (by omega)
    subst this
    simp [make_tokenLoop]
  | succ f ih =>
    cases e with
    | nil => simp [make_tokenLoop]
    | cons c cs =>
      simp only [make_tokenLoop]
      cases hr : tryRules n rules (c :: cs) with
      | noMatch => simp
      | abort => simp
      | overflow => simp
      | tok rest t =>
        have hlt := tryRules_rest_lt n rules rules_ne_lit_nil _ _ _ hr
        simp only [List.length_cons] at hlt hf
        have := ih (n + 1) rest (by omega)
        show (make_tokenLoop f (n + 1) rest).cons t ≠ .nofuel
        cases hm : make_tokenLoop f (n + 1) rest <;> simp_all [LexResult.cons]

/-! ### Single steps of the `for` loop -/

theorem tryRules_dec (n : Nat) (d rest : List Char) (hn : n < 4096) (hd : d ≠ [])
    (hall : ∀ c ∈ d, c.isDigit = true) (hlen : d.length < 32)
    (hrest : ∀ c, rest.head? = some c → c.isDigit = false ∧ c ≠ 'u') :
    tryRules n rules (d ++ rest) = .tok rest ⟨TK_DEC, d⟩ := by
  have hm := regexec_dec_digits d rest hd hall hrest
  obtain ⟨c, d1, rfl⟩ := List.exists_cons_of_ne_nil hd
  obtain ⟨h1, h2, h3, h4, h5, h6, h7, h8, h9, h10, h11, h12, h13, h14⟩ :=
    digit_ne c (hall c (by simp))
  simp only [List.cons_append] at hm ⊢
  simp only [rules, tryRules, regexec_spaces_none _ _ h1, regexec_lit_none _ _ _ _ h2,
    regexec_lit_none _ _ _ _ h3, regexec_lit_none _ _ _ _ h4, regexec_lit_none _ _ _ _ h5,
    regexec_lit_none _ _ _ _ h6, regexec_lit_none _ _ _ _ h7, regexec_lit_none _ _ _ _ h8,
    regexec_lit_none _ _ _ _ h9, regexec_lit_none _ _ _ _ h10, regexec_lit_none _ _ _ _ h11,
    regexec_lit_none _ _ _ _ h12, hm]
  have e1 : (c :: (d1 ++ rest)).drop (c :: d1).length = rest := by
    rw [← List.cons_append]; exact List.drop_left _ _
  have e2 : (c :: (d1 ++ rest)).take (c :: d1).length = c :: d1 := by
    rw [← List.cons_append]; exact List.take_left _ _
  simp only [List.length_cons] at hlen e1 e2
  have hlen2 : d1.length < 31 := by omega
  simp [e1, e2, hlen2, Nat.not_le.mpr hn]

theorem tryRules_dec_u (n : Nat) (d rest : List Char) (hn : n < 4096) (hd : d ≠ [])
    (hall : ∀ c ∈ d, c.isDigit = true) (hlen : d.length + 1 < 32) :
    tryRules n rules (d ++ 'u' :: rest) = .tok rest ⟨TK_DEC, d ++ ['u']⟩ := by
  have hm := regexec_dec_digits_u d rest hd hall
  obtain ⟨c, d1, rfl⟩ := List.exists_cons_of_ne_nil hd
  obtain ⟨h1, h2, h3, h4, h5, h6, h7, h8, h9, h10, h11, h12, h13, h14⟩ :=
    digit_ne c (hall c (by simp))
  simp only [List.cons_append] at hm ⊢
  simp only [rules, tryRules, regexec_spaces_none _ _ h1, regexec_lit_none _ _ _ _ h2,
    regexec_lit_none _ _ _ _ h3, regexec_lit_none _ _ _ _ h4, regexec_lit_none _ _ _ _ h5,
    regexec_lit_none _ _ _ _ h6, regexec_lit_none _ _ _ _ h7, regexec_lit_none _ _ _ _ h8,
    regexec_lit_none _ _ _ _ h9, regexec_lit_none _ _ _ _ h10, regexec_lit_none _ _ _ _ h11,
    regexec_lit_none _ _ _ _ h12, hm]
  have e0 : c :: (d1 ++ 'u' :: rest) = ((c :: d1) ++ ['u']) ++ rest := by simp
  have e1 : (c :: (d1 ++ 'u' :: rest)).drop ((c :: d1).length + 1) = rest := by
    rw [e0]
    have : (c :: d1).length + 1 = ((c :: d1) ++ ['u']).length := by simp
    rw [this]; exact List.drop_left _ _
  have e2 : (c :: (d1 ++ 'u' :: rest)).take ((c :: d1).length + 1) = (c :: d1) ++ ['u'] := by
    rw [e0]
    have : (c :: d1).length + 1 = ((c :: d1) ++ ['u']).length := by simp
    rw [this]; exact List.take_left _ _
  rw [e1, e2]
  simp only [List.length_cons] at hlen
  have hlen2 : d1.length < 30 := by omega
  simp [hlen2, Nat.not_le.mpr hn]

theorem tryRules_add (n : Nat) (rest : List Char) (hn : n < 4096) :
    tryRules n rules ('+' :: rest) = .tok rest ⟨TK_ADD, []⟩ := by
  simp [rules, tryRules, regexec, spanLen, litMatch, Nat.not_le.mpr hn]

theorem tryRules_sub (n : Nat) (rest : List Char) (hn : n < 4096) :
    tryRules n rules ('-' :: rest) = .tok rest ⟨TK_SUB, []⟩ := by
  simp [rules, tryRules, regexec, spanLen, litMatch, Nat.not_le.mpr hn]

theorem tryRules_mul (n : Nat) (rest : List Char) (hn : n < 4096) :
    tryRules n rules ('*' :: rest) = .tok rest ⟨TK_MUL, []⟩ := by
  simp [rules, tryRules, regexec, spanLen, litMatch, Nat.not_le.mpr hn]

theorem tryRules_lbra (n : Nat) (rest : List Char) (hn : n < 4096) :
    tryRules n rules ('(' :: rest) = .tok rest ⟨TK_LBRA, []⟩ := by
  simp [rules, tryRules, regexec, spanLen, litMatch, Nat.not_le.mpr hn]

theorem tryRules_rbra (n : Nat) (rest : List Char) (hn : n < 4096) :
    tryRules n rules (')' :: rest) = .tok rest ⟨TK_RBRA, []⟩ := by
  simp [rules, tryRules, regexec, spanLen, litMatch, Nat.not_le.mpr hn]

/-! ## `strtoul` on the lexemes of `TK_DEC` -/

theorem isDecimalLiteral_iff (d : List Char) :
    isDecimalLiteral d = true ↔ d ≠ [] ∧ ∀ c ∈ d, c.isDigit = true := by
  cases d <;> simp [isDecimalLiteral]

theorem digit_toNat (c : Char) (h : c.isDigit = true) : 48 ≤ c.toNat ∧ c.toNat ≤ 57 := by
  simp only [Char.isDigit, Bool.and_eq_true, decide_eq_true_eq] at h
  exact ⟨h.1, h.2⟩

theorem digitVal_digit (c : Char) (h : c.isDigit = true) : digitVal c = c.toNat - 48 := by
  simp [digitVal, h]

theorem digit_not_space (c : Char) (h : c.isDigit = true) : isSpace c = false := by
  have := digit_toNat c h
  simp only [isSpace, Bool.or_eq_false_iff, decide_eq_false_iff_not, Bool.and_eq_false_imp,
    decide_eq_true_eq]
  omega

/-- Appending a character that is no digit of the base does not change the value. -/
theorem strtoulDigits_append_stop (base acc : Nat) (d : List Char) (c : Char)
    (rest : List Char) (hc : ¬ digitVal c < base) :
    strtoulDigits base acc (d ++ c :: rest) = strtoulDigits base acc d := by
  induction d generalizing acc with
  | nil => simp [strtoulDigits, hc]
  | cons x xs ih =>
    simp only [List.cons_append, strtoulDigits]
    split
    · exact ih _
    · rfl

theorem strtoulDigits_ten (acc : Nat) (d : List Char) (h : ∀ c ∈ d, c.isDigit = true) :
    strtoulDigits 10 acc d = d.foldl (fun acc c => acc * 10 + (c.toNat - 48)) acc := by
  induction d generalizing acc with
  | nil => rfl
  | cons x xs ih =>
    have hx := h x (by simp)
    have hv := digit_toNat x hx
    have : digitVal x < 10 := by rw [digitVal_digit x hx]; omega
    simp only [strtoulDigits, this, if_true, List.foldl_cons]
    rw [digitVal_digit x hx]
    exact ih _ (fun c hc => h c (by simp [hc]))

/-- Base detection on a string of digits: only the first digit matters, and nothing is
skipped. -/
theorem strtoulBase_digits (c : Char) (d rest : List Char)
    (hr : ∀ x, (d ++ rest).head? = some x → x ≠ 'x' ∧ x ≠ 'X') :
    strtoulBase (c :: (d ++ rest)) = (if c = '0' then 8 else 10, c :: (d ++ rest)) := by
  generalize d ++ rest = s at hr
  match s, hr with
  | [], _ => simp only [strtoulBase]; split <;> rfl
  | [x], _ => simp only [strtoulBase]; split <;> rfl
  | x :: h :: r, hr =>
    have := hr x (by simp)
    simp only [strtoulBase, this.1, this.2, false_or, false_and, if_false]
    split <;> rfl

theorem strtoul_digits_prefix (L : Nat) (c : Char) (d rest : List Char)
    (hc : c.isDigit = true)
    (hr : ∀ x, (d ++ rest).head? = some x → x ≠ 'x' ∧ x ≠ 'X') :
    strtoul L (c :: (d ++ rest)) =
      (if 2 ^ L ≤ strtoulDigits (if c = '0' then 8 else 10) 0 (c :: (d ++ rest)) then 2 ^ L - 1
       else strtoulDigits (if c = '0' then 8 else 10) 0 (c :: (d ++ rest))) := by
  obtain ⟨h1, h2, h3, -⟩ := digit_ne c hc
  have hsp : (c :: (d ++ rest)).dropWhile isSpace = c :: (d ++ rest) := by
    simp [List.dropWhile, digit_not_space c hc]
  have hsg : strtoulSign (c :: (d ++ rest)) = (false, c :: (d ++ rest)) := by
    simp [strtoulSign, h2, h3]
  simp only [strtoul, hsp, hsg, strtoulBase_digits c d rest hr]
  simp


theorem digit_ne_x (c : Char) (h : c.isDigit = true) : c ≠ 'x' ∧ c ≠ 'X' := by
  constructor <;> (rintro rfl; exact absurd h (by decide))

theorem head?_digits_ne_x (d rest : List Char) (hall : ∀ c ∈ d, c.isDigit = true)
    (hrest : ∀ x, rest.head? = some x → x ≠ 'x' ∧ x ≠ 'X') :
    ∀ x, (d ++ rest).head? = some x → x ≠ 'x' ∧ x ≠ 'X' := by
  intro x hx
  cases d with
  | nil => exact hrest x (by simpa using hx)
  | cons c cs =>
    simp only [List.cons_append, List.head?_cons, Option.some.injEq] at hx
    subst hx
    exact digit_ne_x _ (hall _ (by simp))

/-- The suffix `u` is not read by `strtoul`. -/
theorem strtoul_append_u (L : Nat) (d : List Char) (hd : isDecimalLiteral d = true) :
    strtoul L (d ++ ['u']) = strtoul L d := by
  obtain ⟨hne, hall⟩ := (isDecimalLiteral_iff d).mp hd
  obtain ⟨c, d1, rfl⟩ := List.exists_cons_of_ne_nil hne
  have hc := hall c (by simp)
  have hall1 : ∀ x ∈ d1, x.isDigit = true := fun x hx => hall x (by simp [hx])
  have h1 := strtoul_digits_prefix L c d1 ['u'] hc
    (head?_digits_ne_x d1 ['u'] hall1 (by intro x hx; simp at hx; subst hx; decide))
  have h2 := strtoul_digits_prefix L c d1 [] hc
    (head?_digits_ne_x d1 [] hall1 (by intro x hx; simp at hx))
  simp only [List.append_nil] at h2
  have hstop : ∀ b, (b = 8 ∨ b = 10) →
      strtoulDigits b 0 (c :: (d1 ++ ['u'])) = strtoulDigits b 0 (c :: d1) := by
    intro b hb
    have := strtoulDigits_append_stop b 0 (c :: d1) 'u' []
      (by rcases hb with rfl | rfl <;> decide)
    simpa using this
  have hb : (if c = '0' then 8 else 10) = 8 ∨ (if c = '0' then 8 else 10) = 10 := by
    split <;> simp
  rw [List.cons_append, h1, h2, hstop _ hb]

/-- A decimal literal without a leading zero is read in base 10; a value that does not
fit `unsigned long` gives `ULONG_MAX`. -/
theorem strtoul_decimal (L : Nat) (d : List Char) (hd : isDecimalLiteral d = true)
    (hz : noLeadingZero d = true) :
    strtoul L d = if 2 ^ L ≤ decimalValue d then 2 ^ L - 1 else decimalValue d := by
  obtain ⟨hne, hall⟩ := (isDecimalLiteral_iff d).mp hd
  obtain ⟨c, d1, rfl⟩ := List.exists_cons_of_ne_nil hne
  have hc := hall c (by simp)
  have hall1 : ∀ x ∈ d1, x.isDigit = true := fun x hx => hall x (by simp [hx])
  have h2 := strtoul_digits_prefix L c d1 [] hc
    (head?_digits_ne_x d1 [] hall1 (by intro x hx; simp at hx))
  simp only [List.append_nil] at h2
  rw [h2]
  by_cases h0 : c = '0'
  · subst h0
    have : d1 = [] := by
      simp only [noLeadingZero, Bool.or_eq_true, beq_iff_eq, List.cons.injEq, true_and,
        List.head?_cons, bne_self_eq_false, or_false] at hz
      simpa using hz
    subst this
    rfl
  · simp only [h0, if_false]
    rw [strtoulDigits_ten 0 _ hall]
    rfl

/-! ### The lexer on a literal standing alone -/

theorem make_token_literal (d : List Char) (hd : isDecimalLiteral d = true)
    (hlen : d.length ≤ 31) : make_token d = .ok [⟨TK_DEC, d⟩] := by
  obtain ⟨hne, hall⟩ := (isDecimalLiteral_iff d).mp hd
  have h := tryRules_dec 0 d [] (by omega) hne hall (by omega) (by intro c hc; simp at hc)
  simp only [List.append_nil] at h
  rw [make_token, make_tokenLoop_tok _ _ _ _ _ (le_refl _) h]
  rfl

theorem make_token_literal_u (d : List Char) (hd : isDecimalLiteral d = true)
    (hlen : d.length ≤ 30) : make_token (d ++ ['u']) = .ok [⟨TK_DEC, d ++ ['u']⟩] := by
  obtain ⟨hne, hall⟩ := (isDecimalLiteral_iff d).mp hd
  have h := tryRules_dec_u 0 d [] (by omega) hne hall (by omega)
  rw [make_token, make_tokenLoop_tok _ _ _ _ _ (le_refl _) h]
  rfl

theorem expr_single_dec (M : Machine) (e s : List Char)
    (h : make_token e = .ok [⟨TK_DEC, s⟩]) :
    expr M e = .ret (strtoul M.ulongBits s % 2 ^ M.wordBits) true := by
  simp only [expr, h]
  rfl


theorem wsub_int (w a b : Nat) (hb : b < 2 ^ w) :
    ((wsub w a b : Nat) : Int) = ((a : Int) - (b : Int)) % (2 : Int) ^ w := by
  unfold wsub
  rw [Nat.mod_eq_of_lt hb]
  have h1 : ((a + (2 ^ w - b) : Nat) : Int) = (a : Int) - b + (2 : Int) ^ w := by
    rw [Nat.cast_add, Nat.cast_sub (le_of_lt hb)]
    push_cast
    ring
  rw [Int.natCast_mod, h1]
  push_cast
  rw [Int.add_emod_self]

theorem make_token_a_op_b_op_c (a b c : List Char) (o1 o2 : Char) (t1 t2 : Nat)
    (ha : isDecimalLiteral a = true) (hb : isDecimalLiteral b = true)
    (hc : isDecimalLiteral c = true) (hla : a.length ≤ 31) (hlb : b.length ≤ 31)
    (hlc : c.length ≤ 31) (ho1 : o1.isDigit = false ∧ o1 ≠ 'u')
    (ho2 : o2.isDigit = false ∧ o2 ≠ 'u')
    (h1 : ∀ n rest, n < 4096 → tryRules n rules (o1 :: rest) = .tok rest ⟨t1, []⟩)
    (h2 : ∀ n rest, n < 4096 → tryRules n rules (o2 :: rest) = .tok rest ⟨t2, []⟩) :
    make_token (a ++ o1 :: (b ++ o2 :: c)) =
      .ok [⟨TK_DEC, a⟩, ⟨t1, []⟩, ⟨TK_DEC, b⟩, ⟨t2, []⟩, ⟨TK_DEC, c⟩] := by
  obtain ⟨hna, halla⟩ := (isDecimalLiteral_iff a).mp ha
  obtain ⟨hnb, hallb⟩ := (isDecimalLiteral_iff b).mp hb
  obtain ⟨hnc, hallc⟩ := (isDecimalLiteral_iff c).mp hc
  have s1 := tryRules_dec 0 a (o1 :: (b ++ o2 :: c)) (by omega) hna halla (by omega)
    (by intro x hx; simp at hx; subst hx; exact ho1)
  have s3 := tryRules_dec 2 b (o2 :: c) (by omega) hnb hallb (by omega)
    (by intro x hx; simp at hx; subst hx; exact ho2)
  have s5 := tryRules_dec 4 c [] (by omega) hnc hallc (by omega) (by intro x hx; simp at hx)
  simp only [List.append_nil] at s5
  rw [make_token, make_tokenLoop_tok _ _ _ _ _ (le_refl _) s1,
    make_tokenLoop_tok _ _ _ _ _ (le_refl _) (h1 1 _ (by omega)),
    make_tokenLoop_tok _ _ _ _ _ (le_refl _) s3,
    make_tokenLoop_tok _ _ _ _ _ (le_refl _) (h2 3 _ (by omega)),
    make_tokenLoop_tok _ _ _ _ _ (le_refl _) s5]
  rfl

theorem eval_a_sub_b_sub_c (M : Machine) (a b c : List Char) :
    eval M [⟨TK_DEC, a⟩, ⟨TK_SUB, []⟩, ⟨TK_DEC, b⟩, ⟨TK_SUB, []⟩, ⟨TK_DEC, c⟩] 0 4 =
      .ret (wsub M.wordBits (wsub M.wordBits (strtoul M.ulongBits a % 2 ^ M.wordBits)
        (strtoul M.ulongBits b % 2 ^ M.wordBits)) (strtoul M.ulongBits c % 2 ^ M.wordBits))
        true := by
  simp [eval, evalF, eval_single, eval_binary, check_parentheses, check_parenthesesLoop,
    find_mainop, find_mainopLoop, tokenAt, eval_return, op_priority]

theorem eval_a_add_b_mul_c (M : Machine) (a b c : List Char) :
    eval M [⟨TK_DEC, a⟩, ⟨TK_ADD, []⟩, ⟨TK_DEC, b⟩, ⟨TK_MUL, []⟩, ⟨TK_DEC, c⟩] 0 4 =
      .ret ((strtoul M.ulongBits a % 2 ^ M.wordBits +
        (strtoul M.ulongBits b % 2 ^ M.wordBits) * (strtoul M.ulongBits c % 2 ^ M.wordBits)
          % 2 ^ M.wordBits) % 2 ^ M.wordBits) true := by
  simp [eval, evalF, eval_single, eval_binary, check_parentheses, check_parenthesesLoop,
    find_mainop, find_mainopLoop, tokenAt, eval_return, op_priority]

theorem make_token_pa_add_b_mul_c (a b c : List Char)
    (ha : isDecimalLiteral a = true) (hb : isDecimalLiteral b = true)
    (hc : isDecimalLiteral c = true) (hla : a.length ≤ 31) (hlb : b.length ≤ 31)
    (hlc : c.length ≤ 31) :
    make_token ('(' :: (a ++ '+' :: (b ++ ')' :: '*' :: c))) =
      .ok [⟨TK_LBRA, []⟩, ⟨TK_DEC, a⟩, ⟨TK_ADD, []⟩, ⟨TK_DEC, b⟩, ⟨TK_RBRA, []⟩,
        ⟨TK_MUL, []⟩, ⟨TK_DEC, c⟩] := by
  obtain ⟨hna, halla⟩ := (isDecimalLiteral_iff a).mp ha
  obtain ⟨hnb, hallb⟩ := (isDecimalLiteral_iff b).mp hb
  obtain ⟨hnc, hallc⟩ := (isDecimalLiteral_iff c).mp hc
  have s1 := tryRules_dec 1 a ('+' :: (b ++ ')' :: '*' :: c)) (by omega) hna halla (by omega)
    (by intro x hx; simp at hx; subst hx; decide)
  have s3 := tryRules_dec 3 b (')' :: '*' :: c) (by omega) hnb hallb (by omega)
    (by intro x hx; simp at hx; subst hx; decide)
  have s5 := tryRules_dec 6 c [] (by omega) hnc hallc (by omega) (by intro x hx; simp at hx)
  simp only [List.append_nil] at s5
  rw [make_token, make_tokenLoop_tok _ _ _ _ _ (le_refl _) (tryRules_lbra 0 _ (by omega)),
    make_tokenLoop_tok _ _ _ _ _ (le_refl _) s1,
    make_tokenLoop_tok _ _ _ _ _ (le_refl _) (tryRules_add 2 _ (by omega)),
    make_tokenLoop_tok _ _ _ _ _ (le_refl _) s3,
    make_tokenLoop_tok _ _ _ _ _ (le_refl _) (tryRules_rbra 4 _ (by omega)),
    make_tokenLoop_tok _ _ _ _ _ (le_refl _) (tryRules_mul 5 _ (by omega)),
    make_tokenLoop_tok _ _ _ _ _ (le_refl _) s5]
  rfl

theorem eval_pa_add_b_mul_c (M : Machine) (a b c : List Char) :
    eval M [⟨TK_LBRA, []⟩, ⟨TK_DEC, a⟩, ⟨TK_ADD, []⟩, ⟨TK_DEC, b⟩, ⟨TK_RBRA, []⟩,
        ⟨TK_MUL, []⟩, ⟨TK_DEC, c⟩] 0 6 =
      .ret (((strtoul M.ulongBits a % 2 ^ M.wordBits + strtoul M.ulongBits b % 2 ^ M.wordBits)
        % 2 ^ M.wordBits * (strtoul M.ulongBits c % 2 ^ M.wordBits)) % 2 ^ M.wordBits)
        true := by
  simp [eval, evalF, eval_single, eval_binary, check_parentheses, check_parenthesesLoop,
    find_mainop, find_mainopLoop, tokenAt, eval_return, op_priority]

theorem eval_a_add_b (M : Machine) (a b : List Char) :
    eval M [⟨TK_DEC, a⟩, ⟨TK_ADD, []⟩, ⟨TK_DEC, b⟩] 0 2 =
      .ret ((strtoul M.ulongBits a % 2 ^ M.wordBits + strtoul M.ulongBits b % 2 ^ M.wordBits)
        % 2 ^ M.wordBits) true := by
  simp [eval, evalF, eval_single, eval_binary, check_parentheses, check_parenthesesLoop,
    find_mainop, find_mainopLoop, tokenAt, eval_return, op_priority]

/-! ### The examples of the specification, on both word sizes -/

theorem expr_5_sub_3_sub_1 (reg : List Char → Nat × Bool) :
    expr (machine32 reg) ['5', '-', '3', '-', '1'] = .ret 1 true
      ∧ expr (machine64 reg) ['5', '-', '3', '-', '1'] = .ret 1 true := by
  have hm : make_token ['5', '-', '3', '-', '1'] =
      .ok [⟨TK_DEC, ['5']⟩, ⟨TK_SUB, []⟩, ⟨TK_DEC, ['3']⟩, ⟨TK_SUB, []⟩, ⟨TK_DEC, ['1']⟩] := by
    decide
  constructor <;>
  · simp only [expr, hm]
    rw [show (([⟨TK_DEC, ['5']⟩, ⟨TK_SUB, []⟩, ⟨TK_DEC, ['3']⟩, ⟨TK_SUB, []⟩,
      ⟨TK_DEC, ['1']⟩] : List Token).length : Int) - 1 = 4 from rfl, eval_a_sub_b_sub_c]
    simp only [machine32, machine64]
    decide

theorem expr_2_add_3_mul_4 (reg : List Char → Nat × Bool) :
    expr (machine32 reg) ['2', '+', '3', '*', '4'] = .ret 14 true
      ∧ expr (machine64 reg) ['2', '+', '3', '*', '4'] = .ret 14 true := by
  have hm : make_token ['2', '+', '3', '*', '4'] =
      .ok [⟨TK_DEC, ['2']⟩, ⟨TK_ADD, []⟩, ⟨TK_DEC, ['3']⟩, ⟨TK_MUL, []⟩, ⟨TK_DEC, ['4']⟩] := by
    decide
  constructor <;>
  · simp only [expr, hm]
    rw [show (([⟨TK_DEC, ['2']⟩, ⟨TK_ADD, []⟩, ⟨TK_DEC, ['3']⟩, ⟨TK_MUL, []⟩,
      ⟨TK_DEC, ['4']⟩] : List Token).length : Int) - 1 = 4 from rfl, eval_a_add_b_mul_c]
    simp only [machine32, machine64]
    decide

theorem expr_p2_add_3p_mul_4 (reg : List Char → Nat × Bool) :
    expr (machine32 reg) ['(', '2', '+', '3', ')', '*', '4'] = .ret 20 true
      ∧ expr (machine64 reg) ['(', '2', '+', '3', ')', '*', '4'] = .ret 20 true := by
  have hm : make_token ['(', '2', '+', '3', ')', '*', '4'] =
      .ok [⟨TK_LBRA, []⟩, ⟨TK_DEC, ['2']⟩, ⟨TK_ADD, []⟩, ⟨TK_DEC, ['3']⟩, ⟨TK_RBRA, []⟩,
        ⟨TK_MUL, []⟩, ⟨TK_DEC, ['4']⟩] := by
    decide
  constructor <;>
  · simp only [expr, hm]
    rw [show (([⟨TK_LBRA, []⟩, ⟨TK_DEC, ['2']⟩, ⟨TK_ADD, []⟩, ⟨TK_DEC, ['3']⟩, ⟨TK_RBRA, []⟩,
      ⟨TK_MUL, []⟩, ⟨TK_DEC, ['4']⟩] : List Token).length : Int) - 1 = 6 from rfl,
      eval_pa_add_b_mul_c]
    simp only [machine32, machine64]
    decide

theorem expr_5u_add_3 (reg : List Char → Nat × Bool) :
    expr (machine32 reg) ['5', 'u', '+', '3'] = .ret 8 true
      ∧ expr (machine32 reg) ['5', '+', '3'] = .ret 8 true
      ∧ expr (machine64 reg) ['5', 'u', '+', '3'] = .ret 8 true
      ∧ expr (machine64 reg) ['5', '+', '3'] = .ret 8 true := by
  have hm1 : make_token ['5', 'u', '+', '3'] =
      .ok [⟨TK_DEC, ['5', 'u']⟩, ⟨TK_ADD, []⟩, ⟨TK_DEC, ['3']⟩] := by decide
  have hm2 : make_token ['5', '+', '3'] =
      .ok [⟨TK_DEC, ['5']⟩, ⟨TK_ADD, []⟩, ⟨TK_DEC, ['3']⟩] := by decide
  have hl : ∀ x : List Char, (([⟨TK_DEC, x⟩, ⟨TK_ADD, []⟩, ⟨TK_DEC, ['3']⟩] :
      List Token).length : Int) - 1 = 2 := fun _ => rfl
  refine ⟨?_, ?_, ?_, ?_⟩
  · simp only [expr, hm1]; rw [hl, eval_a_add_b]; simp only [machine32, machine64]; decide
  · simp only [expr, hm2]; rw [hl, eval_a_add_b]; simp only [machine32, machine64]; decide
  · simp only [expr, hm1]; rw [hl, eval_a_add_b]; simp only [machine32, machine64]; decide
  · simp only [expr, hm2]; rw [hl, eval_a_add_b]; simp only [machine32, machine64]; decide

theorem strtoul_canonical (L : Nat) (d : List Char) (hd : isDecimalLiteral d = true)
    (hz : noLeadingZero d = true) (hv : decimalValue d < 2 ^ L) :
    strtoul L d = decimalValue d := by
  rw [strtoul_decimal L d hd hz, if_neg (by omega)]

/-! ## The loops of `check_parentheses` and `find_mainop` on a segment of the array -/

theorem getD_append_length (pre post : List Token) (t d : Token) :
    (pre ++ t :: post).getD pre.length d = t := by
  induction pre with
  | nil => rfl
  | cons x xs ih => simpa using ih

theorem tokenAt_append (pre post : List Token) (t : Token) :
    tokenAt (pre ++ t :: post) (pre.length : Int) = t := by
  have h : ¬ ((pre.length : Int) < 0) := by omega
  simp only [tokenAt, h, if_false, Int.toNat_ofNat]
  exact getD_append_length _ _ _ _

theorem tokenAt_append_add (pre post : List Token) (t : Token) (i : Int)
    (hi : i = pre.length) : tokenAt (pre ++ t :: post) i = t := by
  subst hi; exact tokenAt_append pre post t

theorem check_parenthesesLoop_eq (pre seg post : List Token) (stn : Int) :
    check_parenthesesLoop (pre ++ seg ++ post) seg.length (pre.length : Int) stn =
      match depthWalk seg stn with
      | some d => decide (d = 0)
      | none => false := by
  induction seg generalizing pre stn with
  | nil => simp [check_parenthesesLoop, depthWalk]
  | cons t ts ih =>
    have ht : tokenAt (pre ++ t :: ts ++ post) (pre.length : Int) = t := by
      rw [List.append_assoc, List.cons_append]; exact tokenAt_append _ _ _
    have hnext : ∀ s, check_parenthesesLoop (pre ++ t :: ts ++ post) ts.length
        ((pre.length : Int) + 1) s = match depthWalk ts s with
          | some d => decide (d = 0)
          | none => false := by
      intro s
      have := ih (pre ++ [t]) s
      simpa using this
    simp only [List.length_cons, check_parenthesesLoop, ht, depthWalk, hnext]
    split
    · rfl
    · split
      · split <;> rfl
      · rfl

theorem find_mainopLoop_eq (pre seg post : List Token) (mop pr stn : Int) :
    find_mainopLoop (pre ++ seg ++ post) seg.length (pre.length : Int) mop pr stn =
      match scanWalk seg (pre.length : Int) (mop, pr, stn) with
      | some s => s.1
      | none => -1 := by
  induction seg generalizing pre mop pr stn with
  | nil => simp [find_mainopLoop, scanWalk]
  | cons t ts ih =>
    have ht : tokenAt (pre ++ t :: ts ++ post) (pre.length : Int) = t := by
      rw [List.append_assoc, List.cons_append]; exact tokenAt_append _ _ _
    have hnext : ∀ a b c, find_mainopLoop (pre ++ t :: ts ++ post) ts.length
        ((pre.length : Int) + 1) a b c =
          match scanWalk ts ((pre.length : Int) + 1) (a, b, c) with
          | some s => s.1
          | none => -1 := by
      intro a b c
      have := ih (pre ++ [t]) a b c
      simpa using this
    simp only [List.length_cons, find_mainopLoop, ht, scanWalk, hnext]
    split
    · rfl
    · split
      · split <;> rfl
      · split
        · rfl
        · split <;> rfl


/-! ## Renderings are balanced, and their root operator is the main operator -/

theorem depthWalk_append (x y : List Token) (d : Int) :
    depthWalk (x ++ y) d = (depthWalk x d).bind (depthWalk y) := by
  induction x generalizing d with
  | nil => rfl
  | cons t ts ih =>
    simp only [List.cons_append, depthWalk]
    split
    · exact ih _
    · split
      · split
        · rfl
        · exact ih _
      · exact ih _

theorem BinOp.token_facts (op : BinOp) :
    op.token ≠ TK_LBRA ∧ op.token ≠ TK_RBRA ∧ op.token ≠ TK_HEX ∧ op.token ≠ TK_DEC
      ∧ op.token ≠ TK_REG ∧ op_priority op.token = op.prio ∧ 1 ≤ op.prio := by
  cases op <;> decide

theorem PExpr.exposed_nonneg (e : PExpr) : 0 ≤ e.exposed := by
  cases e with
  | lit d u => simp [PExpr.exposed]
  | paren e => simp [PExpr.exposed]
  | bin op l r =>
    have := (BinOp.token_facts op).2.2.2.2.2.2
    simp only [PExpr.exposed]; omega

theorem PExpr.tokens_length_pos (e : PExpr) : 1 ≤ e.tokens.length := by
  cases e with
  | lit d u => simp [PExpr.tokens]
  | paren e => simp [PExpr.tokens]
  | bin op l r => simp [PExpr.tokens]; omega

/-- A rendering leaves the bracket counter where it was and never lets it go negative. -/
theorem depthWalk_tokens (e : PExpr) (d : Int) (hd : 0 ≤ d) :
    depthWalk e.tokens d = some d := by
  induction e generalizing d with
  | lit digits u => simp [PExpr.tokens, depthWalk]
  | paren e ih =>
    have h1 : ¬ (d + 1 - 1 < 0) := by omega
    have h2 : d + 1 - 1 = d := by omega
    simp [PExpr.tokens, depthWalk, depthWalk_append, ih (d + 1) (by omega), h1, h2, hd]
  | bin op l r ihl ihr =>
    obtain ⟨f1, f2, -⟩ := BinOp.token_facts op
    simp [PExpr.tokens, depthWalk, depthWalk_append, ihl d hd, ihr d hd, f1, f2]

/-- Starting one lower, a walk that came back to zero fails. -/
theorem depthWalk_shift (x : List Token) (d : Int) (hd : 0 ≤ d)
    (h : depthWalk x (d + 1) = some 0) : depthWalk x d = none := by
  induction x generalizing d with
  | nil =>
    simp only [depthWalk, Option.some.injEq] at h
    omega
  | cons t ts ih =>
    simp only [depthWalk] at h ⊢
    split
    · rename_i h1
      simp only [h1, if_true] at h
      exact ih (d + 1) (by omega) h
    · rename_i h1
      simp only [h1, if_false] at h
      split
      · rename_i h2
        simp only [h2, if_true] at h
        have hlt : ¬ (d + 1 - 1 < 0) := by omega
        simp only [hlt, if_false] at h
        by_cases h0 : d - 1 < 0
        · simp [h0]
        · simp only [h0, if_false]
          have : d + 1 - 1 = (d - 1) + 1 := by omega
          rw [this] at h
          exact ih (d - 1) (by omega) h
      · rename_i h2
        simp only [h2, if_false] at h
        exact ih d hd h

theorem scanWalk_append (x y : List Token) (i : Int) (s : Int × Int × Int) :
    scanWalk (x ++ y) i s = (scanWalk x i s).bind (scanWalk y (i + x.length)) := by
  induction x generalizing i s with
  | nil => simp [scanWalk]
  | cons t ts ih =>
    obtain ⟨mop, pr, stn⟩ := s
    have hi : i + ((ts.length : Int) + 1) = i + 1 + ts.length := by omega
    simp only [List.cons_append, scanWalk, List.length_cons, Nat.cast_add, Nat.cast_one, hi]
    split
    · exact ih _ _
    · split
      · split
        · rfl
        · exact ih _ _
      · split
        · exact ih _ _
        · split <;> exact ih _ _

theorem scanAfter_depth (e : PExpr) (i : Int) (s : Int × Int × Int) (h : s.2.2 ≠ 0) :
    scanAfter e i s = s := by
  cases e <;> simp [scanAfter, h]

theorem scanAfter_unchanged (e : PExpr) (i : Int) (s : Int × Int × Int)
    (h : e.exposed < s.2.1) : scanAfter e i s = s := by
  cases e with
  | lit d u => rfl
  | paren e => rfl
  | bin op l r =>
    simp only [PExpr.exposed] at h
    have : ¬ (s.2.1 ≤ op.prio) := by omega
    simp [scanAfter, this]

theorem scanAfter_bound (e : PExpr) (i : Int) (s : Int × Int × Int) (P : Int)
    (h1 : e.exposed ≤ P) (h2 : s.2.1 ≤ P) :
    (scanAfter e i s).2.1 ≤ P ∧ (scanAfter e i s).2.2 = s.2.2 := by
  cases e with
  | lit d u => exact ⟨h2, rfl⟩
  | paren e => exact ⟨h2, rfl⟩
  | bin op l r =>
    simp only [PExpr.exposed] at h1
    simp only [scanAfter]
    split
    · exact ⟨h1, rfl⟩
    · exact ⟨h2, rfl⟩

/-- The scan of `find_mainop` over a rendering with the required parentheses. -/
theorem scanWalk_tokens (e : PExpr) (hp : e.parensOK = true) (i : Int)
    (s : Int × Int × Int) (hs : 0 ≤ s.2.2) :
    scanWalk e.tokens i s = some (scanAfter e i s) := by
  induction e generalizing i s with
  | lit digits u =>
    obtain ⟨mop, pr, stn⟩ := s
    simp [PExpr.tokens, scanWalk, scanAfter]
  | paren e ih =>
    obtain ⟨mop, pr, stn⟩ := s
    simp only [PExpr.parensOK] at hp
    simp only at hs
    have h1 := ih hp (i + 1) (mop, pr, stn + 1) (by simp; omega)
    rw [scanAfter_depth _ _ _ (by simp; omega)] at h1
    have h2 : ¬ (stn + 1 - 1 < 0) := by omega
    have h3 : stn + 1 - 1 = stn := by omega
    simp [PExpr.tokens, scanWalk, scanWalk_append, h1, scanAfter, h2, h3, hs]
  | bin op l r ihl ihr =>
    obtain ⟨mop, pr, stn⟩ := s
    obtain ⟨f1, f2, f3, f4, f5, f6, f7⟩ := BinOp.token_facts op
    simp only [PExpr.parensOK, Bool.and_eq_true, decide_eq_true_eq] at hp
    obtain ⟨⟨⟨hpl, hpr⟩, hle⟩, hlt⟩ := hp
    simp only at hs
    have hl := ihl hpl i (mop, pr, stn) hs
    simp only [PExpr.tokens, scanWalk_append, hl, Option.some_bind, scanWalk, f1, f2, f3, f4,
      f5, f6, if_false, false_or]
    by_cases h0 : stn = 0
    · subst h0
      by_cases hpr2 : pr ≤ op.prio
      · obtain ⟨b1, b2⟩ := scanAfter_bound l i (mop, pr, 0) op.prio hle hpr2
        simp only at b2
        have hc : (scanAfter l i (mop, pr, 0)).2.2 = 0 ∧
            op.prio ≥ (scanAfter l i (mop, pr, 0)).2.1 := ⟨b2, b1⟩
        rw [if_pos hc, b2]
        rw [ihr hpr _ _ (by simp), scanAfter_unchanged r _ _ (by simpa using hlt)]
        simp [scanAfter, hpr2]
      · have hu : scanAfter l i (mop, pr, 0) = (mop, pr, 0) :=
          scanAfter_unchanged l i _ (by simp only; omega)
        have hn : ¬ (op.prio ≥ pr) := by omega
        rw [hu]
        simp only [hn, and_false, if_false]
        rw [ihr hpr _ _ (by simp), scanAfter_unchanged r _ _ (by simp only; omega)]
        simp [scanAfter, hpr2]
    · have hu : scanAfter l i (mop, pr, stn) = (mop, pr, stn) :=
        scanAfter_depth l i _ (by simpa using h0)
      rw [hu]
      simp only [h0, false_and, if_false]
      rw [ihr hpr _ _ (by simpa using hs), scanAfter_depth r _ _ (by simpa using h0)]
      simp [scanAfter, h0]

/-- The result of `check_parentheses` on a range of at least two tokens: the two ends are a pair of
brackets and the counter, walked over the tokens between them, never goes negative and
ends at zero. -/
theorem check_parentheses_wrap (pre x post : List Token) (t1 t2 : Token) (st ed : Int)
    (hst : st = pre.length) (hed : ed = pre.length + x.length + 1) :
    check_parentheses (pre ++ t1 :: (x ++ t2 :: post)) st ed =
      (if t1.type ≠ TK_LBRA ∨ t2.type ≠ TK_RBRA then false
       else match depthWalk x 0 with
         | some d => decide (d = 0)
         | none => false) := by
  have h1 : tokenAt (pre ++ t1 :: (x ++ t2 :: post)) st = t1 :=
    tokenAt_append_add _ _ _ _ hst
  have h2 : tokenAt (pre ++ t1 :: (x ++ t2 :: post)) ed = t2 := by
    have : pre ++ t1 :: (x ++ t2 :: post) = (pre ++ t1 :: x) ++ t2 :: post := by simp
    rw [this]
    exact tokenAt_append_add _ _ _ _ (by simp [hed]; omega)
  have h3 : (ed - (st + 1)).toNat = x.length := by omega
  have h4 : pre ++ t1 :: (x ++ t2 :: post) = (pre ++ [t1]) ++ x ++ (t2 :: post) := by simp
  have h5 : st + 1 = ((pre ++ [t1]).length : Int) := by simp [hst]
  simp only [check_parentheses, h1, h2, h3]
  split
  · rfl
  · rw [h4, h5, check_parenthesesLoop_eq]

theorem check_parentheses_paren (pre post : List Token) (e : PExpr) (st ed : Int)
    (hst : st = pre.length) (hed : ed = pre.length + (PExpr.paren e).tokens.length - 1) :
    check_parentheses (pre ++ (PExpr.paren e).tokens ++ post) st ed = true := by
  have h : pre ++ (PExpr.paren e).tokens ++ post =
      pre ++ ⟨TK_LBRA, []⟩ :: (e.tokens ++ ⟨TK_RBRA, []⟩ :: post) := by
    simp [PExpr.tokens]
  rw [h, check_parentheses_wrap pre e.tokens post _ _ st ed hst
    (by simp [PExpr.tokens] at hed; omega), depthWalk_tokens e 0 (le_refl _)]
  simp

theorem check_parentheses_bin (pre post : List Token) (op : BinOp) (l r : PExpr)
    (st ed : Int) (hst : st = pre.length)
    (hed : ed = pre.length + (PExpr.bin op l r).tokens.length - 1) :
    check_parentheses (pre ++ (PExpr.bin op l r).tokens ++ post) st ed = false := by
  have hl := PExpr.tokens_length_pos l
  have hr := PExpr.tokens_length_pos r
  obtain ⟨t1, xl, hxl⟩ : ∃ t1 xl, l.tokens = t1 :: xl := by
    cases h : l.tokens with
    | nil => simp [h] at hl
    | cons a b => exact ⟨a, b, rfl⟩
  obtain ⟨xr, t2, hxr⟩ : ∃ xr t2, r.tokens = xr ++ [t2] := by
    rcases List.eq_nil_or_concat r.tokens with h | ⟨L, b, h⟩
    · simp [h] at hr
    · exact ⟨L, b, by simpa using h⟩
  have h : pre ++ (PExpr.bin op l r).tokens ++ post =
      pre ++ t1 :: ((xl ++ ⟨op.token, []⟩ :: xr) ++ t2 :: post) := by
    simp [PExpr.tokens, hxl, hxr]
  rw [h, check_parentheses_wrap pre _ post t1 t2 st ed hst
    (by simp [PExpr.tokens, hxl, hxr] at hed ⊢; omega)]
  split
  · rfl
  · rename_i hne
    have ht1 : t1.type = TK_LBRA := by
      by_contra hc
      exact hne (Or.inl hc)
    have hb := depthWalk_tokens l 0 (le_refl _)
    rw [hxl] at hb
    simp only [depthWalk, ht1, if_true] at hb
    have hs := depthWalk_shift xl 0 (le_refl _) hb
    rw [depthWalk_append, hs]
    rfl

theorem find_mainop_bin (pre post : List Token) (op : BinOp) (l r : PExpr)
    (hp : (PExpr.bin op l r).parensOK = true) (st ed : Int) (hst : st = pre.length)
    (hed : ed = pre.length + (PExpr.bin op l r).tokens.length - 1) :
    find_mainop (pre ++ (PExpr.bin op l r).tokens ++ post) st ed = st + l.tokens.length := by
  have hlen := PExpr.tokens_length_pos (PExpr.bin op l r)
  have h1 : (ed + 1 - st).toNat = (PExpr.bin op l r).tokens.length := by omega
  have h7 := (BinOp.token_facts op).2.2.2.2.2.2
  have h0 : (0 : Int) ≤ op.prio := by omega
  subst hst
  rw [find_mainop, h1, find_mainopLoop_eq,
    scanWalk_tokens _ hp _ ((-1 : Int), (0 : Int), (0 : Int)) (le_refl _)]
  simp [scanAfter, h0]


/-! ## The evaluator on a rendering -/

theorem BinOp.apply_lt (w : Nat) (op : BinOp) (a b : Nat) (ha : a < 2 ^ w) :
    op.apply w a b < 2 ^ w := by
  have hpos : 0 < 2 ^ w := Nat.two_pow_pos w
  cases op with
  | add => exact Nat.mod_lt _ hpos
  | sub =>
    simp only [BinOp.apply]
    have h1 : (0 : Int) < (2 : Int) ^ w := by positivity
    have h2 := Int.emod_lt_of_pos ((a : Int) - (b : Int)) h1
    have h3 := Int.emod_nonneg ((a : Int) - (b : Int)) (ne_of_gt h1)
    have h4 : ((2 : Int) ^ w) = ((2 ^ w : Nat) : Int) := by push_cast; rfl
    omega
  | mul => exact Nat.mod_lt _ hpos
  | div => exact lt_of_le_of_lt (Nat.div_le_self a b) ha
  | mod => exact lt_of_le_of_lt (Nat.mod_le a b) ha

theorem Tree.value_lt (w : Nat) (t : Tree) : t.value w < 2 ^ w := by
  cases t with
  | lit d => exact Nat.mod_lt _ (Nat.two_pow_pos w)
  | bin op l r => exact BinOp.apply_lt w op _ _ (Tree.value_lt w l)

theorem wsub_apply (w a b : Nat) (hb : b < 2 ^ w) : wsub w a b = BinOp.apply w .sub a b := by
  have h := wsub_int w a b hb
  simp only [BinOp.apply]
  omega

/-- What `strtoul` reads from the lexeme of a literal without a leading zero whose value
fits `unsigned long`, with or without the suffix `u`. -/
theorem strtoul_lexeme (L : Nat) (d : List Char) (u : Bool)
    (h : (Tree.lit d).litsOK (2 ^ L) = true) :
    strtoul L (if u then d ++ ['u'] else d) = decimalValue d := by
  simp only [Tree.litsOK, Bool.and_eq_true, decide_eq_true_eq] at h
  obtain ⟨⟨hd, hz⟩, hv⟩ := h
  have h1 : strtoul L d = decimalValue d := by
    rw [strtoul_decimal L d hd hz, if_neg (by omega)]
  cases u with
  | true => simp only [if_true]; rw [strtoul_append_u L d hd, h1]
  | false => simpa using h1

theorem evalF_tokens (M : Machine) (e : PExpr)
    (hl : e.tree.litsOK (2 ^ M.ulongBits) = true) (hp : e.parensOK = true)
    (pre post : List Token) (fuel : Nat) (hf : e.tokens.length ≤ fuel) (st ed : Int)
    (hst : st = pre.length) (hed : ed = pre.length + e.tokens.length - 1) :
    evalF M (pre ++ e.tokens ++ post) fuel st ed = treeOutcome M.wordBits e.tree := by
  induction e generalizing pre post fuel st ed with
  | lit d u =>
    have hse : st = ed := by simp [PExpr.tokens] at hed; omega
    have h1 : ¬ (st > ed) := by omega
    have ht : tokenAt (pre ++ (PExpr.lit d u).tokens ++ post) st =
        ⟨TK_DEC, if u then d ++ ['u'] else d⟩ := by
      simp only [PExpr.tokens, List.append_assoc, List.singleton_append]
      exact tokenAt_append_add _ _ _ _ hst
    cases fuel with
    | zero => simp [PExpr.tokens] at hf
    | succ f =>
      simp only [evalF, eval_single, h1, if_false, hse ▸ ht, hse]
      simp only [if_true, true_or, eval_return, treeOutcome, PExpr.tree, Tree.divisorsNonzero,
        Tree.value]
      rw [strtoul_lexeme M.ulongBits d u hl]
      simp
  | paren e ih =>
    simp only [PExpr.parensOK] at hp
    simp only [PExpr.tree] at hl ⊢
    have hlen : (PExpr.paren e).tokens.length = e.tokens.length + 2 := by
      simp [PExpr.tokens]
    rw [hlen] at hf
    have hcp := check_parentheses_paren pre post e st ed hst hed
    rw [hlen] at hed
    have h1 : ¬ (st > ed) := by omega
    have h2 : ¬ (st = ed) := by omega
    cases fuel with
    | zero => omega
    | succ f =>
      have hT : pre ++ (PExpr.paren e).tokens ++ post =
          (pre ++ [⟨TK_LBRA, []⟩]) ++ e.tokens ++ (⟨TK_RBRA, []⟩ :: post) := by
        simp [PExpr.tokens]
      have hrec := ih hl hp (pre ++ [⟨TK_LBRA, []⟩]) (⟨TK_RBRA, []⟩ :: post) f (by omega)
        (st + 1) (ed - 1) (by simp [hst]) (by simp; omega)
      simp only [evalF, h1, h2, if_false, hcp, if_true]
      rw [hT, hrec]
      by_cases hd : e.tree.divisorsNonzero M.wordBits = true
      · simp [treeOutcome, hd, eval_return]
      · simp [treeOutcome, hd]
  | bin op l r ihl ihr =>
    have hp0 := hp
    simp only [PExpr.parensOK, Bool.and_eq_true, decide_eq_true_eq] at hp
    obtain ⟨⟨⟨hpl, hpr⟩, -⟩, -⟩ := hp
    simp only [PExpr.tree, Tree.litsOK, Bool.and_eq_true] at hl
    obtain ⟨hll, hlr⟩ := hl
    have hl1 := PExpr.tokens_length_pos l
    have hr1 := PExpr.tokens_length_pos r
    have hlen : (PExpr.bin op l r).tokens.length = l.tokens.length + 1 + r.tokens.length := by
      simp [PExpr.tokens]; omega
    have hcp := check_parentheses_bin pre post op l r st ed hst hed
    have hfm := find_mainop_bin pre post op l r hp0 st ed hst hed
    rw [hlen] at hf hed
    have h1 : ¬ (st > ed) := by omega
    have h2 : ¬ (st = ed) := by omega
    have h3 : st + (l.tokens.length : Int) > 0 := by omega
    cases fuel with
    | zero => omega
    | succ f =>
      have hT1 : pre ++ (PExpr.bin op l r).tokens ++ post =
          pre ++ l.tokens ++ (⟨op.token, []⟩ :: (r.tokens ++ post)) := by
        simp [PExpr.tokens]
      have hT2 : pre ++ (PExpr.bin op l r).tokens ++ post =
          (pre ++ l.tokens ++ [⟨op.token, []⟩]) ++ r.tokens ++ post := by
        simp [PExpr.tokens]
      have hT3 : pre ++ (PExpr.bin op l r).tokens ++ post =
          (pre ++ l.tokens) ++ ⟨op.token, []⟩ :: (r.tokens ++ post) := by
        simp [PExpr.tokens]
      have hrl := ihl hll hpl pre (⟨op.token, []⟩ :: (r.tokens ++ post)) f (by omega)
        st (st + l.tokens.length - 1) hst (by omega)
      have hrr := ihr hlr hpr (pre ++ l.tokens ++ [⟨op.token, []⟩]) post f (by omega)
        (st + l.tokens.length + 1) ed (by simp [hst]; omega) (by simp; omega)
      have hop : tokenAt (pre ++ (PExpr.bin op l r).tokens ++ post)
          (st + l.tokens.length) = ⟨op.token, []⟩ := by
        rw [hT3]; exact tokenAt_append_add _ _ _ _ (by simp [hst])
      rw [← hT1] at hrl
      rw [← hT2] at hrr
      simp only [evalF, eval_binary, h1, h2, if_false, hcp, hfm, h3, not_true_eq_false, hrl,
        hrr, hop, Bool.false_eq_true]
      have hvl := Tree.value_lt M.wordBits l.tree
      have hvr := Tree.value_lt M.wordBits r.tree
      simp only [treeOutcome, PExpr.tree, Tree.divisorsNonzero, Tree.value]
      by_cases hdl : l.tree.divisorsNonzero M.wordBits = true
      · by_cases hdr : r.tree.divisorsNonzero M.wordBits = true
        · simp only [hdl, hdr, if_true, Bool.and_self, Bool.true_and, Bool.not_true,
            Bool.false_eq_true, if_false, eval_return]
          cases op with
          | add => simp [BinOp.token, BinOp.apply]
          | sub => simp [BinOp.token, wsub_apply _ _ _ hvr]
          | mul => simp [BinOp.token, BinOp.apply]
          | div =>
            by_cases hz : r.tree.value M.wordBits = 0
            · simp [BinOp.token, hz]
            · simp [BinOp.token, hz, BinOp.apply]
          | mod =>
            by_cases hz : r.tree.value M.wordBits = 0
            · simp [BinOp.token, hz]
            · simp [BinOp.token, hz, BinOp.apply]
        · simp [hdl, hdr]
      · simp [hdl]


theorem Tree.litsOK_mono (a b : Nat) (h : a ≤ b) (t : Tree) (ht : t.litsOK a = true) :
    t.litsOK b = true := by
  induction t with
  | lit d =>
    simp only [Tree.litsOK, Bool.and_eq_true, decide_eq_true_eq] at ht ⊢
    exact ⟨ht.1, by omega⟩
  | bin op l r ihl ihr =>
    simp only [Tree.litsOK, Bool.and_eq_true] at ht ⊢
    exact ⟨ihl ht.1, ihr ht.2⟩

theorem eval_tokens (M : Machine) (e : PExpr)
    (hl : e.tree.litsOK (2 ^ M.ulongBits) = true) (hp : e.parensOK = true) :
    eval M e.tokens 0 ((e.tokens.length : Int) - 1) = treeOutcome M.wordBits e.tree := by
  have h := evalF_tokens M e hl hp [] [] (((e.tokens.length : Int) - 1 + 1 - 0).toNat + 1)
    (by omega) 0 ((e.tokens.length : Int) - 1) rfl (by simp)
  simpa [eval] using h


/-! ## One step of `eval`, read backwards -/

theorem eval_single_true (M : Machine) (t : Token) (v : Nat) (s : Bool)
    (h : eval_single M t = .ret v s) : s = true := by
  simp only [eval_single, eval_return] at h
  split at h
  · injection h with _ h2; exact h2.symm
  · split at h
    · injection h with _ h2; exact h2.symm
    · exact absurd h (by simp)

theorem eval_binary_true (w ty a b v : Nat) (s : Bool)
    (h : eval_binary w ty a b = .ret v s) : s = true := by
  simp only [eval_binary, eval_return] at h
  repeat' split at h
  all_goals first
    | (injection h with _ h2; exact h2.symm)
    | exact absurd h (by simp)

theorem evalF_succ (M : Machine) (toks : List Token) (f : Nat) (st ed : Int) :
    evalF M toks (f + 1) st ed =
      if st > ed then .abort
      else if st = ed then eval_single M (tokenAt toks st)
      else if check_parentheses toks st ed = true then
        match evalF M toks f (st + 1) (ed - 1) with
        | .ret v s => eval_return v s
        | r => r
      else if ¬ (find_mainop toks st ed > 0) then .abort
      else
        match evalF M toks f st (find_mainop toks st ed - 1) with
        | .ret lval lexpr =>
          match evalF M toks f (find_mainop toks st ed + 1) ed with
          | .ret rval rexpr =>
            if ¬ (lexpr && rexpr) = true then .abort
            else eval_binary M.wordBits (tokenAt toks (find_mainop toks st ed)).type lval rval
          | r => r
        | r => r := by
  rfl

/-- Every return of `eval` leaves `true` in `*success`. -/
theorem evalF_ret_true (M : Machine) (toks : List Token) (f : Nat) (st ed : Int) (v : Nat)
    (s : Bool) (h : evalF M toks f st ed = .ret v s) : s = true := by
  cases f with
  | zero => simp [evalF] at h
  | succ f =>
    rw [evalF_succ] at h
    by_cases h1 : st > ed
    · rw [if_pos h1] at h; exact absurd h (by simp)
    rw [if_neg h1] at h
    by_cases h2 : st = ed
    · rw [if_pos h2] at h; exact eval_single_true M _ v s h
    rw [if_neg h2] at h
    by_cases h3 : check_parentheses toks st ed = true
    · rw [if_pos h3] at h
      cases hr : evalF M toks f (st + 1) (ed - 1) <;> rw [hr] at h
      · simp only [eval_return] at h; injection h with _ h2; exact h2.symm
      all_goals exact absurd h (by simp)
    rw [if_neg h3] at h
    by_cases h4 : ¬ (find_mainop toks st ed > 0)
    · rw [if_pos h4] at h; exact absurd h (by simp)
    rw [if_neg h4] at h
    cases hl : evalF M toks f st (find_mainop toks st ed - 1) <;> rw [hl] at h
    · cases hr : evalF M toks f (find_mainop toks st ed + 1) ed <;> rw [hr] at h
      · simp only at h
        split at h
        · exact absurd h (by simp)
        · exact eval_binary_true _ _ _ _ v s h
      all_goals exact absurd h (by simp)
    all_goals exact absurd h (by simp)

/-- The three ways in which `eval` returns. -/
theorem evalF_inv (M : Machine) (toks : List Token) (f : Nat) (st ed : Int) (v : Nat)
    (s : Bool) (h : evalF M toks (f + 1) st ed = .ret v s) :
    (st = ed ∧ eval_single M (tokenAt toks st) = .ret v true)
    ∨ (st < ed ∧ check_parentheses toks st ed = true
        ∧ evalF M toks f (st + 1) (ed - 1) = .ret v true)
    ∨ (st < ed ∧ check_parentheses toks st ed = false ∧ find_mainop toks st ed > 0
        ∧ ∃ lval rval, evalF M toks f st (find_mainop toks st ed - 1) = .ret lval true
          ∧ evalF M toks f (find_mainop toks st ed + 1) ed = .ret rval true
          ∧ eval_binary M.wordBits (tokenAt toks (find_mainop toks st ed)).type lval rval
              = .ret v true) := by
  have hs := evalF_ret_true M toks (f + 1) st ed v s h
  subst hs
  rw [evalF_succ] at h
  by_cases h1 : st > ed
  · rw [if_pos h1] at h; exact absurd h (by simp)
  rw [if_neg h1] at h
  by_cases h2 : st = ed
  · rw [if_pos h2] at h; exact Or.inl ⟨h2, h⟩
  rw [if_neg h2] at h
  have hlt : st < ed := by omega
  by_cases h3 : check_parentheses toks st ed = true
  · rw [if_pos h3] at h
    refine Or.inr (Or.inl ⟨hlt, h3, ?_⟩)
    cases hr : evalF M toks f (st + 1) (ed - 1) <;> rw [hr] at h
    · rename_i v1 s1
      have := evalF_ret_true M toks f _ _ v1 s1 hr
      subst this
      simp only [eval_return] at h
      exact h
    all_goals exact absurd h (by simp)
  rw [if_neg h3] at h
  by_cases h4 : ¬ (find_mainop toks st ed > 0)
  · rw [if_pos h4] at h; exact absurd h (by simp)
  rw [if_neg h4] at h
  refine Or.inr (Or.inr ⟨hlt, by simpa using h3, by simpa using h4, ?_⟩)
  cases hl : evalF M toks f st (find_mainop toks st ed - 1) <;> rw [hl] at h
  · rename_i lval lexpr
    have := evalF_ret_true M toks f _ _ lval lexpr hl
    subst this
    cases hr : evalF M toks f (find_mainop toks st ed + 1) ed <;> rw [hr] at h
    · rename_i rval rexpr
      have := evalF_ret_true M toks f _ _ rval rexpr hr
      subst this
      simp only [Bool.and_self, not_true_eq_false, if_false] at h
      exact ⟨lval, rval, rfl, rfl, h⟩
    all_goals exact absurd h (by simp)
  all_goals exact absurd h (by simp)

theorem eval_binary_inv (w ty a b v : Nat) (h : eval_binary w ty a b = .ret v true) :
    ∃ op : BinOp, ty = op.token ∧ ¬ ((op = .div ∨ op = .mod) ∧ b = 0) ∧ v = op.exec w a b := by
  simp only [eval_binary, eval_return] at h
  by_cases h1 : ty = TK_ADD
  · rw [if_pos h1] at h; injection h with h _
    exact ⟨.add, h1, by simp, h.symm⟩
  rw [if_neg h1] at h
  by_cases h2 : ty = TK_SUB
  · rw [if_pos h2] at h; injection h with h _
    exact ⟨.sub, h2, by simp, h.symm⟩
  rw [if_neg h2] at h
  by_cases h3 : ty = TK_MUL
  · rw [if_pos h3] at h; injection h with h _
    exact ⟨.mul, h3, by simp, h.symm⟩
  rw [if_neg h3] at h
  by_cases h4 : ty = TK_DIV
  · rw [if_pos h4] at h
    by_cases hb : b = 0
    · rw [if_pos hb] at h; exact absurd h (by simp)
    · rw [if_neg hb] at h; injection h with h _
      exact ⟨.div, h4, by simp [hb], h.symm⟩
  rw [if_neg h4] at h
  by_cases h5 : ty = TK_MOD
  · rw [if_pos h5] at h
    by_cases hb : b = 0
    · rw [if_pos hb] at h; exact absurd h (by simp)
    · rw [if_neg hb] at h; injection h with h _
      exact ⟨.mod, h5, by simp [hb], h.symm⟩
  rw [if_neg h5] at h
  exact absurd h (by simp)


/-! ## Soundness: what `eval` accepts is a rendering -/

theorem scanWalk_index (seg : List Token) (i : Int) (s r : Int × Int × Int)
    (h : scanWalk seg i s = some r) : r.1 = s.1 ∨ (i ≤ r.1 ∧ r.1 < i + seg.length) := by
  induction seg generalizing i s with
  | nil =>
    simp only [scanWalk, Option.some.injEq] at h
    exact Or.inl (by rw [h])
  | cons t ts ih =>
    obtain ⟨mop, pr, stn⟩ := s
    simp only [scanWalk] at h
    have hlen : ((t :: ts).length : Int) = ts.length + 1 := by simp
    have key : ∀ s2 : Int × Int × Int, scanWalk ts (i + 1) s2 = some r →
        (s2.1 = mop ∨ s2.1 = i) → r.1 = mop ∨ (i ≤ r.1 ∧ r.1 < i + (t :: ts).length) := by
      intro s2 h2 hs2
      rcases ih (i + 1) s2 h2 with h3 | h3
      · rcases hs2 with h4 | h4
        · exact Or.inl (h3.trans h4)
        · exact Or.inr (by rw [h3, h4, hlen]; omega)
      · exact Or.inr (by rw [hlen]; omega)
    split at h
    · exact key _ h (Or.inl rfl)
    · split at h
      · split at h
        · exact absurd h (by simp)
        · exact key _ h (Or.inl rfl)
      · split at h
        · exact key _ h (Or.inl rfl)
        · split at h
          · exact key _ h (Or.inr rfl)
          · exact key _ h (Or.inl rfl)

theorem list_ends (seg : List Token) (h : 2 ≤ seg.length) :
    ∃ t1 x t2, seg = t1 :: (x ++ [t2]) := by
  cases seg with
  | nil => simp at h
  | cons t1 rest =>
    rcases List.eq_nil_or_concat rest with h2 | ⟨x, t2, h2⟩
    · subst h2; simp at h
    · exact ⟨t1, x, t2, by simp [h2]⟩

theorem list_split_at (seg : List Token) (k : Nat) (h : k < seg.length) :
    ∃ sl top sr, seg = sl ++ top :: sr ∧ sl.length = k := by
  refine ⟨seg.take k, seg[k], seg.drop (k + 1), ?_, ?_⟩
  · rw [← List.drop_eq_getElem_cons h, List.take_append_drop]
  · simp; omega


theorem spanLen_append_stop (p : Char → Bool) (e : List Char) (c : Char) (hc : p c = false) :
    spanLen p (e ++ [c]) = spanLen p e := by
  induction e with
  | nil => simp [spanLen, hc]
  | cons x xs ih => simp [spanLen, ih]

theorem litMatch_append_one (p c : Char) (e : List Char) (he : e ≠ []) :
    litMatch [p] (e ++ [c]) = litMatch [p] e := by
  cases e with
  | nil => exact absurd rfl he
  | cons x xs => simp [litMatch]

theorem litMatch_append_two (p q c : Char) (e : List Char) (he : e ≠ []) (hq : q ≠ c) :
    litMatch [p, q] (e ++ [c]) = litMatch [p, q] e := by
  cases e with
  | nil => exact absurd rfl he
  | cons x xs =>
    cases xs with
    | nil => simp [litMatch, hq]
    | cons y ys => simp [litMatch]

theorem litMatch_two_length (p q : Char) (e : List Char) (h : litMatch [p, q] e = true) :
    2 ≤ e.length := by
  have := litMatch_length _ _ h
  simpa using this

theorem drop_append_of_le (e : List Char) (c : Char) (k : Nat) (h : k ≤ e.length) :
    (e ++ [c]).drop k = e.drop k ++ [c] := by
  rw [List.drop_append_of_le_length h]

theorem take_append_of_le (e : List Char) (c : Char) (k : Nat) (h : k ≤ e.length) :
    (e ++ [c]).take k = e.take k := by
  rw [List.take_append_of_le_length h]

/-- A closing bracket behind a non-empty input changes no match at the front. -/
theorem regexec_append_rbra (r : Rule) (hr : r ∈ rules) (e : List Char) (he : e ≠ []) :
    regexec r.regex (e ++ [')']) = regexec r.regex e := by
  simp only [rules, List.mem_cons, List.mem_singleton, List.not_mem_nil, or_false] at hr
  rcases hr with rfl | rfl | rfl | rfl | rfl | rfl | rfl | rfl | rfl | rfl | rfl | rfl | rfl
    | rfl | rfl
  · simp only [regexec, spanLen_append_stop (fun c => c == ' ') e ')' (by decide)]
  · simp only [regexec, litMatch_append_one _ _ e he]
  · simp only [regexec, litMatch_append_one _ _ e he]
  · simp only [regexec, litMatch_append_one _ _ e he]
  · simp only [regexec, litMatch_append_one _ _ e he]
  · simp only [regexec, litMatch_append_one _ _ e he]
  · simp only [regexec, litMatch_append_one _ _ e he]
  · simp only [regexec, litMatch_append_one _ _ e he]
  · simp only [regexec, litMatch_append_two '=' '=' ')' e he (by decide)]
  · simp only [regexec, litMatch_append_two '!' '=' ')' e he (by decide)]
  · simp only [regexec, litMatch_append_two '&' '&' ')' e he (by decide)]
  · simp only [regexec, litMatch_append_two '|' '|' ')' e he (by decide)]
  · -- the decimal rule
    simp only [regexec, spanLen_append_stop Char.isDigit e ')' (by decide)]
    have hle := spanLen_le Char.isDigit e
    rw [drop_append_of_le e ')' _ hle]
    by_cases hk : spanLen Char.isDigit e < e.length
    · have : e.drop (spanLen Char.isDigit e) ≠ [] := by
        intro h
        have := congrArg List.length h
        simp only [List.length_drop, List.length_nil] at this
        omega
      obtain ⟨x, xs, hx⟩ := List.exists_cons_of_ne_nil this
      simp [hx]
    · have : e.drop (spanLen Char.isDigit e) = [] := List.drop_eq_nil_of_le (by omega)
      simp [this]
  · -- the hex rule
    simp only [regexec, litMatch_append_two '0' 'x' ')' e he (by decide)]
    split
    · rename_i hm
      have h2 := litMatch_two_length _ _ _ hm
      rw [drop_append_of_le e ')' 2 h2, spanLen_append_stop isHexDigit _ ')' (by decide)]
    · rfl
  · -- the register rule
    simp only [regexec, litMatch_append_one _ _ e he]
    split
    · rename_i hm
      have h2 := litMatch_length _ _ hm
      simp only [List.length_cons, List.length_nil] at h2
      rw [drop_append_of_le e ')' 1 (by omega), spanLen_append_stop isRegChar _ ')' (by decide)]
    · rfl

theorem regexec_nil (r : Rule) (hr : r ∈ rules) : regexec r.regex [] = none := by
  revert r
  decide

theorem tryRules_nil (n : Nat) (rs : List Rule) (hrs : ∀ r ∈ rs, r ∈ rules) :
    tryRules n rs [] = .noMatch := by
  induction rs with
  | nil => rfl
  | cons r rs ih =>
    simp only [tryRules, regexec_nil r (hrs r (by simp))]
    exact ih (fun x hx => hrs x (by simp [hx]))

theorem tryRules_append_rbra (n n2 : Nat) (rs : List Rule) (hrs : ∀ r ∈ rs, r ∈ rules)
    (e rest : List Char) (t : Token) (hn : n2 < 4096)
    (h : tryRules n rs e = .tok rest t) :
    tryRules n2 rs (e ++ [')']) = .tok (rest ++ [')']) t := by
  induction rs generalizing e with
  | nil => simp [tryRules] at h
  | cons r rs ih =>
    have hrs2 : ∀ x ∈ rs, x ∈ rules := fun x hx => hrs x (by simp [hx])
    have he : e ≠ [] := by
      rintro rfl
      rw [tryRules_nil n _ hrs] at h
      exact absurd h (by simp)
    have hreg := regexec_append_rbra r (hrs r (by simp)) e he
    simp only [tryRules, hreg] at h ⊢
    cases hm : regexec r.regex e with
    | none =>
      rw [hm] at h
      simp only at h ⊢
      exact ih hrs2 e h
    | some len =>
      rw [hm] at h
      simp only at h ⊢
      have hb := regexec_bounds r.regex (rules_ne_lit_nil r (hrs r (by simp))) e len hm
      rw [drop_append_of_le e ')' len hb.2, take_append_of_le e ')' len hb.2]
      split at h
      · rename_i hnt
        rw [if_pos hnt]
        exact ih hrs2 _ h
      · rename_i hnt
        rw [if_neg hnt, if_neg (by omega)]
        split at h
        · exact absurd h (by simp)
        · split at h
          · rename_i hty
            rw [if_pos hty]
            split at h
            · rename_i h32
              rw [if_pos h32]
              injection h with h1 h2
              rw [h1, h2]
            · exact absurd h (by simp)
          · rename_i hty
            rw [if_neg hty]
            injection h with h1 h2
            rw [h1, h2]

theorem make_tokenLoop_append_rbra (f : Nat) :
    ∀ (n n2 : Nat) (e : List Char) (toks : List Token),
      make_tokenLoop f n e = .ok toks → n2 + toks.length + 1 ≤ 4096 →
      make_tokenLoop (f + 1) n2 (e ++ [')']) = .ok (toks ++ [⟨TK_RBRA, []⟩]) := by
  induction f with
  | zero =>
    intro n n2 e toks h hn
    cases e with
    | nil =>
      simp only [make_tokenLoop, LexResult.ok.injEq] at h
      subst h
      simp only [List.nil_append, make_tokenLoop, tryRules_rbra n2 [] (by omega)]
      rfl
    | cons c cs => simp [make_tokenLoop] at h
  | succ f ih =>
    intro n n2 e toks h hn
    cases e with
    | nil =>
      simp only [make_tokenLoop, LexResult.ok.injEq] at h
      subst h
      simp only [List.nil_append, make_tokenLoop, tryRules_rbra n2 [] (by omega)]
      rfl
    | cons c cs =>
      simp only [make_tokenLoop] at h
      cases hr : tryRules n rules (c :: cs) with
      | noMatch => rw [hr] at h; exact absurd h (by simp)
      | abort => rw [hr] at h; exact absurd h (by simp)
      | overflow => rw [hr] at h; exact absurd h (by simp)
      | tok rest t0 =>
        rw [hr] at h
        simp only at h
        cases hm : make_tokenLoop f (n + 1) rest with
        | ok ts =>
          rw [hm] at h
          simp only [LexResult.cons, LexResult.ok.injEq] at h
          subst h
          simp only [List.length_cons] at hn
          have hs := tryRules_append_rbra n n2 rules (fun r hr => hr) (c :: cs) rest t0
            (by omega) hr
          have hi := ih (n + 1) (n2 + 1) rest ts hm (by omega)
          simp only [List.cons_append] at hs ⊢
          simp only [make_tokenLoop, hs, hi, LexResult.cons]
        | fail => rw [hm] at h; exact absurd h (by simp [LexResult.cons])
        | abort => rw [hm] at h; exact absurd h (by simp [LexResult.cons])
        | overflow => rw [hm] at h; exact absurd h (by simp [LexResult.cons])
        | nofuel => rw [hm] at h; exact absurd h (by simp [LexResult.cons])

/-- The tokens of `(e)` are the tokens of `e` between two brackets, as long as they fit
the array. -/
theorem make_token_wrap (e : List Char) (toks : List Token) (h : make_token e = .ok toks)
    (hn : toks.length + 2 ≤ 4096) :
    make_token ('(' :: (e ++ [')'])) = .ok (⟨TK_LBRA, []⟩ :: (toks ++ [⟨TK_RBRA, []⟩])) := by
  have h1 := make_tokenLoop_append_rbra e.length 0 1 e toks h (by omega)
  rw [make_token, make_tokenLoop_tok _ _ _ _ _ (le_refl _) (tryRules_lbra 0 _ (by omega))]
  simp only [List.length_append, List.length_cons, List.length_nil, h1, LexResult.cons]


/-! ## `eval` depends only on the tokens of its range -/

theorem check_parentheses_indep (pre seg post pre2 post2 : List Token) (st ed st2 ed2 : Int)
    (hst : st = pre.length) (hed : ed = pre.length + seg.length - 1)
    (hst2 : st2 = pre2.length) (hed2 : ed2 = pre2.length + seg.length - 1)
    (hlen : 2 ≤ seg.length) :
    check_parentheses (pre2 ++ seg ++ post2) st2 ed2 =
      check_parentheses (pre ++ seg ++ post) st ed := by
  obtain ⟨t1, x, t2, rfl⟩ := list_ends seg hlen
  have hl : ((t1 :: (x ++ [t2])).length : Int) = x.length + 2 := by simp; omega
  rw [hl] at hed hed2
  have hT : ∀ a b : List Token, a ++ t1 :: (x ++ [t2]) ++ b = a ++ t1 :: (x ++ t2 :: b) := by
    intro a b; simp
  rw [hT, hT, check_parentheses_wrap pre x post t1 t2 st ed hst (by omega),
    check_parentheses_wrap pre2 x post2 t1 t2 st2 ed2 hst2 (by omega)]

/-- The candidate of `find_mainop` moves with the range. -/
theorem scanWalk_shift (seg : List Token) (δ : Int) :
    ∀ (i m m2 p s : Int) (r : Int × Int × Int), 0 ≤ i →
      ((m = -1 ∧ m2 = -1) ∨ (0 ≤ m ∧ m2 = m + δ)) →
      scanWalk seg i (m, p, s) = some r →
      ∃ r1, scanWalk seg (i + δ) (m2, p, s) = some (r1, r.2.1, r.2.2)
        ∧ ((r.1 = -1 ∧ r1 = -1) ∨ (0 ≤ r.1 ∧ r1 = r.1 + δ)) := by
  induction seg with
  | nil =>
    intro i m m2 p s r _ hR h
    simp only [scanWalk, Option.some.injEq] at h
    subst h
    exact ⟨m2, rfl, hR⟩
  | cons t ts ih =>
    intro i m m2 p s r hi hR h
    have hi2 : i + δ + 1 = i + 1 + δ := by omega
    simp only [scanWalk, hi2] at h ⊢
    split
    · rename_i h1
      rw [if_pos h1] at h
      exact ih (i + 1) m m2 p (s + 1) r (by omega) hR h
    · rename_i h1
      rw [if_neg h1] at h
      split
      · rename_i h2
        rw [if_pos h2] at h
        split
        · rename_i h3
          rw [if_pos h3] at h
          exact absurd h (by simp)
        · rename_i h3
          rw [if_neg h3] at h
          exact ih (i + 1) m m2 p (s - 1) r (by omega) hR h
      · rename_i h2
        rw [if_neg h2] at h
        split
        · rename_i h3
          rw [if_pos h3] at h
          exact ih (i + 1) m m2 p s r (by omega) hR h
        · rename_i h3
          rw [if_neg h3] at h
          split
          · rename_i h4
            rw [if_pos h4] at h
            exact ih (i + 1) i (i + δ) _ s r (by omega) (Or.inr ⟨hi, rfl⟩) h
          · rename_i h4
            rw [if_neg h4] at h
            exact ih (i + 1) m m2 p s r (by omega) hR h

/-- A main operator that passes `Assert(mop > 0)` lies in the range and splits it. -/
theorem find_mainop_split (pre seg post : List Token) (st ed : Int) (hst : st = pre.length)
    (hed : ed = pre.length + seg.length - 1)
    (h : find_mainop (pre ++ seg ++ post) st ed > 0) :
    ∃ sl top sr, seg = sl ++ top :: sr
      ∧ find_mainop (pre ++ seg ++ post) st ed = st + sl.length
      ∧ ∃ s, scanWalk seg st (-1, 0, 0) = some s ∧ s.1 = st + sl.length := by
  have hloop : find_mainop (pre ++ seg ++ post) st ed =
      match scanWalk seg st (-1, 0, 0) with
      | some s => s.1
      | none => -1 := by
    have : (ed + 1 - st).toNat = seg.length := by omega
    rw [find_mainop, this, hst, find_mainopLoop_eq]
  cases hsw : scanWalk seg st (-1, 0, 0) with
  | none =>
    rw [hsw] at hloop
    simp only at hloop
    omega
  | some s =>
    rw [hsw] at hloop
    simp only at hloop
    have hidx := scanWalk_index seg st _ s hsw
    simp only at hidx
    have hrange : st ≤ s.1 ∧ s.1 < st + seg.length := by
      rcases hidx with hi | hi
      · omega
      · exact hi
    obtain ⟨sl, top, sr, rfl, hk⟩ := list_split_at seg (s.1 - st).toNat (by omega)
    exact ⟨sl, top, sr, rfl, by rw [hloop]; omega, s, rfl, by omega⟩

theorem find_mainop_shift (pre seg post pre2 post2 : List Token) (st ed st2 ed2 : Int)
    (hst : st = pre.length) (hed : ed = pre.length + seg.length - 1)
    (hst2 : st2 = pre2.length) (hed2 : ed2 = pre2.length + seg.length - 1)
    (h : find_mainop (pre ++ seg ++ post) st ed > 0) :
    find_mainop (pre2 ++ seg ++ post2) st2 ed2 =
      find_mainop (pre ++ seg ++ post) st ed + (st2 - st) := by
  obtain ⟨sl, top, sr, hseg, hm, s, hs1, hs2⟩ := find_mainop_split pre seg post st ed hst hed h
  obtain ⟨r1, hr1, hr2⟩ := scanWalk_shift seg (st2 - st) st (-1) (-1) 0 0 s (by omega)
    (Or.inl ⟨rfl, rfl⟩) hs1
  have h1 : (ed2 + 1 - st2).toNat = seg.length := by omega
  have h2 : st + (st2 - st) = st2 := by omega
  rw [h2] at hr1
  rw [find_mainop, h1, hst2, find_mainopLoop_eq, ← hst2, hr1, hm]
  simp only
  rcases hr2 with hr2 | hr2
  · omega
  · omega

/-- A range on which `eval` returns is balanced. -/
theorem evalF_balanced (M : Machine) (f : Nat) :
    ∀ (pre seg post : List Token) (st ed : Int) (v : Nat), st = pre.length →
      ed = pre.length + seg.length - 1 →
      evalF M (pre ++ seg ++ post) f st ed = .ret v true →
      ∀ d : Int, 0 ≤ d → depthWalk seg d = some d := by
  induction f with
  | zero =>
    intro pre seg post st ed v _ _ h
    simp [evalF] at h
  | succ f ih =>
    intro pre seg post st ed v hst hed h d hd
    rcases evalF_inv M _ f st ed v true h with
      ⟨h1, h2⟩ | ⟨h1, h2, h3⟩ | ⟨h1, h2, h3, lval, rval, h4, h5, h6⟩
    · have hlen : seg.length = 1 := by omega
      obtain ⟨t, rfl⟩ := List.length_eq_one.mp hlen
      have ht : tokenAt (pre ++ [t] ++ post) st = t := by
        rw [List.append_assoc, List.singleton_append]
        exact tokenAt_append_add _ _ _ _ hst
      rw [ht] at h2
      simp only [eval_single] at h2
      have hty : t.type = TK_DEC ∨ t.type = TK_HEX ∨ t.type = TK_REG := by
        by_contra hc
        rw [if_neg (by tauto), if_neg (by tauto)] at h2
        exact absurd h2 (by simp)
      have h1 : t.type ≠ TK_LBRA := by rcases hty with h | h | h <;> rw [h] <;> decide
      have h2 : t.type ≠ TK_RBRA := by rcases hty with h | h | h <;> rw [h] <;> decide
      simp [depthWalk, h1, h2]
    · obtain ⟨t1, x, t2, rfl⟩ := list_ends seg (by omega)
      have hT : pre ++ t1 :: (x ++ [t2]) ++ post = pre ++ t1 :: (x ++ t2 :: post) := by simp
      have hed2 : ed = pre.length + x.length + 1 := by
        simp only [List.length_cons, List.length_append, List.length_nil] at hed
        push_cast at hed
        omega
      rw [hT, check_parentheses_wrap pre x post t1 t2 st ed hst hed2] at h2
      have hb : t1.type = TK_LBRA ∧ t2.type = TK_RBRA := by
        by_contra hc
        rw [if_pos (by tauto)] at h2
        exact absurd h2 (by simp)
      have hT2 : pre ++ t1 :: (x ++ [t2]) ++ post = (pre ++ [t1]) ++ x ++ (t2 :: post) := by
        simp
      rw [hT2] at h3
      have hx := ih (pre ++ [t1]) x (t2 :: post) (st + 1) (ed - 1) v
        (by simp [hst]) (by simp; omega) h3 (d + 1) (by omega)
      have hn : ¬ (d + 1 - 1 < 0) := by omega
      have hd1 : d + 1 - 1 = d := by omega
      simp [depthWalk, depthWalk_append, hb.1, hb.2, hx, hn, hd1, hd]
    · obtain ⟨sl, top, sr, rfl, hm, -⟩ := find_mainop_split pre seg post st ed hst hed h3
      rw [hm] at h4 h5 h6
      have hT1 : pre ++ (sl ++ top :: sr) ++ post = pre ++ sl ++ (top :: (sr ++ post)) := by
        simp
      have hT2 : pre ++ (sl ++ top :: sr) ++ post = (pre ++ sl ++ [top]) ++ sr ++ post := by
        simp
      have htop : tokenAt (pre ++ (sl ++ top :: sr) ++ post) (st + sl.length) = top := by
        rw [hT1]; exact tokenAt_append_add _ _ _ _ (by simp [hst])
      rw [htop] at h6
      have hlen : ((sl ++ top :: sr).length : Int) = sl.length + 1 + sr.length := by
        simp; omega
      rw [hlen] at hed
      rw [hT1] at h4
      have hl := ih pre sl (top :: (sr ++ post)) st (st + sl.length - 1) lval hst (by omega) h4
        d hd
      rw [hT2] at h5
      have hr := ih (pre ++ sl ++ [top]) sr post (st + sl.length + 1) ed rval
        (by simp [hst]; omega) (by simp; omega) h5 d hd
      obtain ⟨op, o1, -, -⟩ := eval_binary_inv _ _ _ _ _ h6
      obtain ⟨f1, f2, -⟩ := BinOp.token_facts op
      simp [depthWalk, depthWalk_append, hl, hr, o1, f1, f2]


/-- The value of `eval` on a range does not change when the same tokens stand further
to the right in the array (and with more fuel). -/
theorem evalF_shift (M : Machine) (f : Nat) :
    ∀ (pre seg post pre2 post2 : List Token) (st ed st2 ed2 : Int) (v : Nat) (f2 : Nat),
      st = pre.length → ed = pre.length + seg.length - 1 →
      st2 = pre2.length → ed2 = pre2.length + seg.length - 1 →
      pre.length ≤ pre2.length → f ≤ f2 →
      evalF M (pre ++ seg ++ post) f st ed = .ret v true →
      evalF M (pre2 ++ seg ++ post2) f2 st2 ed2 = .ret v true := by
  induction f with
  | zero =>
    intro pre seg post pre2 post2 st ed st2 ed2 v f2 _ _ _ _ _ _ h
    simp [evalF] at h
  | succ f ih =>
    intro pre seg post pre2 post2 st ed st2 ed2 v f2 hst hed hst2 hed2 hpre hf h
    obtain ⟨g, rfl⟩ : ∃ g, f2 = g + 1 := ⟨f2 - 1, by omega⟩
    rw [evalF_succ]
    rcases evalF_inv M _ f st ed v true h with
      ⟨h1, h2⟩ | ⟨h1, h2, h3⟩ | ⟨h1, h2, h3, lval, rval, h4, h5, h6⟩
    · have hlen : seg.length = 1 := by omega
      obtain ⟨t, rfl⟩ := List.length_eq_one.mp hlen
      have ht : ∀ (a b : List Token) (i : Int), i = a.length →
          tokenAt (a ++ [t] ++ b) i = t := by
        intro a b i hi
        rw [List.append_assoc, List.singleton_append]
        exact tokenAt_append_add _ _ _ _ hi
      rw [ht pre post st hst] at h2
      have c1 : ¬ (st2 > ed2) := by simp at hed2; omega
      have c2 : st2 = ed2 := by simp at hed2; omega
      rw [if_neg c1, if_pos c2, ht pre2 post2 st2 hst2]
      exact h2
    · have hlen : 2 ≤ seg.length := by omega
      have c1 : ¬ (st2 > ed2) := by omega
      have c2 : ¬ (st2 = ed2) := by omega
      have c3 := check_parentheses_indep pre seg post pre2 post2 st ed st2 ed2 hst hed hst2
        hed2 hlen
      rw [if_neg c1, if_neg c2, c3, if_pos h2]
      obtain ⟨t1, x, t2, rfl⟩ := list_ends seg hlen
      have hT : ∀ a b : List Token,
          a ++ t1 :: (x ++ [t2]) ++ b = (a ++ [t1]) ++ x ++ (t2 :: b) := by
        intro a b; simp
      have hl : ((t1 :: (x ++ [t2])).length : Int) = x.length + 2 := by simp; omega
      rw [hl] at hed hed2
      rw [hT] at h3 ⊢
      rw [ih (pre ++ [t1]) x (t2 :: post) (pre2 ++ [t1]) (t2 :: post2) (st + 1) (ed - 1)
        (st2 + 1) (ed2 - 1) v g (by simp [hst]) (by simp; omega) (by simp [hst2])
        (by simp; omega) (by simp; omega) (by omega) h3]
      rfl
    · have hlen : 2 ≤ seg.length := by omega
      have c1 : ¬ (st2 > ed2) := by omega
      have c2 : ¬ (st2 = ed2) := by omega
      have c3 := check_parentheses_indep pre seg post pre2 post2 st ed st2 ed2 hst hed hst2
        hed2 hlen
      have c4 := find_mainop_shift pre seg post pre2 post2 st ed st2 ed2 hst hed hst2 hed2 h3
      obtain ⟨sl, top, sr, rfl, hm, -⟩ := find_mainop_split pre seg post st ed hst hed h3
      rw [hm] at h4 h5 h6 c4
      have c5 : find_mainop (pre2 ++ (sl ++ top :: sr) ++ post2) st2 ed2 = st2 + sl.length := by
        rw [c4]; omega
      have c6 : ¬ ¬ (st2 + (sl.length : Int) > 0) := by omega
      rw [if_neg c1, if_neg c2, c3, h2, c5, if_neg (by simp), if_neg c6]
      have hT1 : ∀ a b : List Token,
          a ++ (sl ++ top :: sr) ++ b = a ++ sl ++ (top :: (sr ++ b)) := by
        intro a b; simp
      have hT2 : ∀ a b : List Token,
          a ++ (sl ++ top :: sr) ++ b = (a ++ sl ++ [top]) ++ sr ++ b := by
        intro a b; simp
      have htop : ∀ (a b : List Token) (i : Int), i = a.length →
          tokenAt (a ++ (sl ++ top :: sr) ++ b) (i + sl.length) = top := by
        intro a b i hi
        rw [hT1]; exact tokenAt_append_add _ _ _ _ (by simp [hi])
      rw [htop pre post st hst] at h6
      rw [htop pre2 post2 st2 hst2]
      have hl : ((sl ++ top :: sr).length : Int) = sl.length + 1 + sr.length := by
        simp; omega
      rw [hl] at hed hed2
      have e1 : evalF M (pre2 ++ (sl ++ top :: sr) ++ post2) g st2 (st2 + sl.length - 1)
          = .ret lval true := by
        rw [hT1] at h4 ⊢
        exact ih pre sl _ pre2 _ st (st + sl.length - 1) st2 (st2 + sl.length - 1) lval g
          hst (by omega) hst2 (by omega) hpre (by omega) h4
      have e2 : evalF M (pre2 ++ (sl ++ top :: sr) ++ post2) g (st2 + sl.length + 1) ed2
          = .ret rval true := by
        rw [hT2] at h5 ⊢
        exact ih (pre ++ sl ++ [top]) sr post (pre2 ++ sl ++ [top]) post2
          (st + sl.length + 1) ed (st2 + sl.length + 1) ed2 rval g
          (by simp [hst]; omega) (by simp; omega) (by simp [hst2]; omega) (by simp; omega)
          (by simp; omega) (by omega) h5
      rw [e1, e2]
      simpa using h6

/-- Wrapping the tokens of a range on which `eval` returns in one pair of brackets gives
the same value. -/
theorem eval_wrap (M : Machine) (toks : List Token) (v : Nat)
    (h : eval M toks 0 ((toks.length : Int) - 1) = .ret v true) :
    eval M (⟨TK_LBRA, []⟩ :: (toks ++ [⟨TK_RBRA, []⟩])) 0
      (((⟨TK_LBRA, []⟩ :: (toks ++ [⟨TK_RBRA, []⟩])).length : Int) - 1) = .ret v true := by
  simp only [eval] at h ⊢
  have h0 : evalF M ([] ++ toks ++ []) (((toks.length : Int) - 1 + 1 - 0).toNat + 1) 0
      ((toks.length : Int) - 1) = .ret v true := by simpa using h
  have hb := evalF_balanced M _ [] toks [] 0 _ v rfl (by simp) h0 0 (le_refl _)
  have hl : ((⟨TK_LBRA, []⟩ :: (toks ++ [⟨TK_RBRA, []⟩]) : List Token).length : Int)
      = toks.length + 2 := by simp; omega
  have hne : 1 ≤ toks.length := by
    by_contra hc
    have : toks = [] := List.length_eq_zero.mp (by omega)
    subst this
    simp [evalF] at h
  rw [hl]
  have hfuel : ((toks.length : Int) + 2 - 1 + 1 - 0).toNat + 1 = (toks.length + 2) + 1 := by
    omega
  rw [hfuel, evalF_succ]
  have c1 : ¬ ((0 : Int) > (toks.length : Int) + 2 - 1) := by omega
  have c2 : ¬ ((0 : Int) = (toks.length : Int) + 2 - 1) := by omega
  have c3 := check_parentheses_wrap [] toks [] ⟨TK_LBRA, []⟩ ⟨TK_RBRA, []⟩ 0
    ((toks.length : Int) + 2 - 1) rfl (by simp; omega)
  simp only [List.nil_append, hb] at c3
  rw [if_neg c1, if_neg c2, c3]
  have hs := evalF_shift M _ [] toks [] [⟨TK_LBRA, []⟩] [⟨TK_RBRA, []⟩] 0
    ((toks.length : Int) - 1) (0 + 1) ((toks.length : Int) + 2 - 1 - 1) v (toks.length + 2)
    rfl (by simp) (by simp) (by simp; omega) (by simp) (by omega) h0
  simp only [List.singleton_append, List.cons_append, List.nil_append] at hs
  simp only [hs]
  simp [eval_return]


/-! ## Deeply nested brackets and the capacity of `tokens` -/

theorem tryRules_rbra_overflow (n : Nat) (rest : List Char) (hn : 4096 ≤ n) :
    tryRules n rules (')' :: rest) = .overflow := by
  simp [rules, tryRules, regexec, spanLen, litMatch, hn]

theorem make_tokenLoop_lbra_run (k : Nat) :
    ∀ (n f : Nat) (rest : List Char), n + k ≤ 4096 →
      (List.replicate k '(' ++ rest).length ≤ f →
      make_tokenLoop f n (List.replicate k '(' ++ rest) =
        (List.replicate k (⟨TK_LBRA, []⟩ : Token)).foldr LexResult.cons
          (make_tokenLoop rest.length (n + k) rest) := by
  induction k with
  | zero =>
    intro n f rest _ hf
    simp only [List.replicate_zero, List.nil_append, List.foldr_nil, Nat.add_zero] at hf ⊢
    exact make_tokenLoop_fuel2 _ _ _ _ hf (le_refl _)
  | succ k ih =>
    intro n f rest hn hf
    simp only [List.replicate_succ, List.cons_append, List.foldr_cons] at hf ⊢
    rw [make_tokenLoop_tok f n _ _ _ hf (tryRules_lbra n _ (by omega)),
      ih (n + 1) _ rest (by omega) (le_refl _)]
    have : n + 1 + k = n + (k + 1) := by omega
    rw [this]

theorem make_tokenLoop_rbra_run (k : Nat) :
    ∀ (n f : Nat), n + k ≤ 4096 → k ≤ f →
      make_tokenLoop f n (List.replicate k ')') =
        .ok (List.replicate k (⟨TK_RBRA, []⟩ : Token)) := by
  induction k with
  | zero =>
    intro n f _ _
    cases f <;> rfl
  | succ k ih =>
    intro n f hn hf
    simp only [List.replicate_succ]
    rw [make_tokenLoop_tok f n _ _ _ (by simpa using hf) (tryRules_rbra n _ (by omega)),
      ih (n + 1) _ (by omega) (by simp)]
    rfl

theorem make_tokenLoop_rbra_overflow (k : Nat) :
    ∀ (n f : Nat), n ≤ 4096 → 4096 < n + k → k ≤ f →
      make_tokenLoop f n (List.replicate k ')') = .overflow := by
  induction k with
  | zero =>
    intro n f h1 h2 _
    omega
  | succ k ih =>
    intro n f h1 h2 hf
    obtain ⟨g, rfl⟩ : ∃ g, f = g + 1 := ⟨f - 1, by omega⟩
    simp only [List.replicate_succ]
    by_cases hn : n = 4096
    · simp only [make_tokenLoop, tryRules_rbra_overflow n _ (by omega)]
    · rw [make_tokenLoop_tok (g + 1) n _ _ _ (by simpa using hf)
        (tryRules_rbra n _ (by omega)), ih (n + 1) _ (by omega) (by omega) (by simp)]
      rfl

theorem foldr_cons_ok (ts T : List Token) :
    ts.foldr LexResult.cons (.ok T) = .ok (ts ++ T) := by
  induction ts with
  | nil => rfl
  | cons t ts ih => simp [List.foldr_cons, ih, LexResult.cons]

theorem foldr_cons_overflow (ts : List Token) :
    ts.foldr LexResult.cons .overflow = .overflow := by
  induction ts with
  | nil => rfl
  | cons t ts ih => simp [List.foldr_cons, ih, LexResult.cons]

theorem tryRules_one (n k : Nat) (hn : n < 4096) :
    tryRules n rules ('1' :: List.replicate k ')') =
      .tok (List.replicate k ')') ⟨TK_DEC, ['1']⟩ := by
  have h := tryRules_dec n ['1'] (List.replicate k ')') hn (by simp) (by decide) (by decide)
    (by
      intro c hc
      cases k with
      | zero => simp at hc
      | succ k =>
        simp only [List.replicate_succ, List.head?_cons, Option.some.injEq] at hc
        subst hc
        decide)
  simpa using h

theorem make_token_nestInput (k : Nat) (hk : 2 * k + 1 ≤ 4096) :
    make_token (nestInput k) = .ok (nestTokens k) := by
  rw [make_token, nestInput, make_tokenLoop_lbra_run k 0 _ _ (by omega) (le_refl _),
    make_tokenLoop_tok _ _ _ _ _ (le_refl _) (tryRules_one (0 + k) k (by omega)),
    make_tokenLoop_rbra_run k _ _ (by omega) (by simp)]
  simp only [LexResult.cons, foldr_cons_ok, nestTokens]

theorem make_token_nestInput_overflow (k : Nat) (hk : 4096 < 2 * k + 1) (hk2 : k < 4096) :
    make_token (nestInput k) = .overflow := by
  rw [make_token, nestInput, make_tokenLoop_lbra_run k 0 _ _ (by omega) (le_refl _),
    make_tokenLoop_tok _ _ _ _ _ (le_refl _) (tryRules_one (0 + k) k (by omega)),
    make_tokenLoop_rbra_overflow k _ _ (by omega) (by omega) (by simp)]
  simp only [LexResult.cons, foldr_cons_overflow]

theorem nestInput_succ (k : Nat) : '(' :: (nestInput k ++ [')']) = nestInput (k + 1) := by
  simp only [nestInput, List.replicate_succ, List.cons_append, List.append_assoc]
  congr 2
  have : ')' :: List.replicate k ')' = List.replicate (k + 1) ')' := rfl
  rw [this, List.replicate_succ']

theorem nestRendering_tokens (k : Nat) : (nestRendering k).tokens = nestTokens k := by
  induction k with
  | zero => rfl
  | succ k ih =>
    simp only [nestRendering, PExpr.tokens, ih, nestTokens, List.replicate_succ,
      List.cons_append, List.append_assoc]
    congr 2
    have : (⟨TK_RBRA, []⟩ : Token) :: List.replicate k ⟨TK_RBRA, []⟩ =
        List.replicate (k + 1) ⟨TK_RBRA, []⟩ := rfl
    rw [this, List.replicate_succ']

theorem nestRendering_facts (k : Nat) :
    (nestRendering k).parensOK = true ∧ (nestRendering k).tree = .lit ['1'] := by
  induction k with
  | zero => exact ⟨rfl, rfl⟩
  | succ k ih => exact ih

theorem expr_nestInput (reg : List Char → Nat × Bool) (k : Nat) (hk : 2 * k + 1 ≤ 4096) :
    expr (machine32 reg) (nestInput k) = .ret 1 true := by
  obtain ⟨h1, h2⟩ := nestRendering_facts k
  have h := eval_tokens (machine32 reg) (nestRendering k)
    (by rw [h2]; simp only [machine32]; decide) h1
  rw [nestRendering_tokens, h2] at h
  simp only [expr, make_token_nestInput k hk]
  rw [h]
  simp only [machine32]
  decide

theorem expr_nestInput_overflow (M : Machine) (k : Nat) (hk : 4096 < 2 * k + 1)
    (hk2 : k < 4096) : expr M (nestInput k) = .undefined := by
  simp only [expr, make_token_nestInput_overflow k hk hk2]


/-! ## The recursion bound of the embedding is never reached -/

theorem find_mainopLoop_range (toks : List Token) (n : Nat) :
    ∀ (i mop pr stn : Int),
      find_mainopLoop toks n i mop pr stn = mop ∨ find_mainopLoop toks n i mop pr stn = -1
        ∨ (i ≤ find_mainopLoop toks n i mop pr stn
            ∧ find_mainopLoop toks n i mop pr stn < i + n) := by
  induction n with
  | zero =>
    intro i mop pr stn
    exact Or.inl rfl
  | succ n ih =>
    intro i mop pr stn
    have key : ∀ (m p s : Int), (m = mop ∨ m = i) →
        find_mainopLoop toks n (i + 1) m p s = mop ∨ find_mainopLoop toks n (i + 1) m p s = -1
          ∨ (i ≤ find_mainopLoop toks n (i + 1) m p s
              ∧ find_mainopLoop toks n (i + 1) m p s < i + (n + 1 : Nat)) := by
      intro m p s hm
      rcases ih (i + 1) m p s with h | h | h
      · rcases hm with h2 | h2
        · exact Or.inl (h.trans h2)
        · exact Or.inr (Or.inr (by rw [h, h2]; push_cast; omega))
      · exact Or.inr (Or.inl h)
      · exact Or.inr (Or.inr (by push_cast; omega))
    simp only [find_mainopLoop]
    split
    · exact key _ _ _ (Or.inl rfl)
    · split
      · split
        · exact Or.inr (Or.inl rfl)
        · exact key _ _ _ (Or.inl rfl)
      · split
        · exact key _ _ _ (Or.inl rfl)
        · split
          · exact key _ _ _ (Or.inr rfl)
          · exact key _ _ _ (Or.inl rfl)

/-- The result of `find_mainop` is -1 or an index of the range. -/
theorem find_mainop_range (toks : List Token) (st ed : Int) :
    find_mainop toks st ed = -1
      ∨ (st ≤ find_mainop toks st ed ∧ find_mainop toks st ed ≤ ed) := by
  rcases find_mainopLoop_range toks (ed + 1 - st).toNat st (-1) 0 0 with h | h | h
  · exact Or.inl h
  · exact Or.inl h
  · refine Or.inr ?_
    simp only [find_mainop]
    omega

theorem eval_single_ne_nofuel (M : Machine) (t : Token) : eval_single M t ≠ .nofuel := by
  simp only [eval_single, eval_return]
  split
  · simp
  · split <;> simp

theorem eval_binary_ne_nofuel (w ty a b : Nat) : eval_binary w ty a b ≠ .nofuel := by
  simp only [eval_binary, eval_return]
  repeat' split
  all_goals simp

/-- With fuel above the length of the range, `eval` ends without running out of fuel:
every recursive call is on a strictly shorter range. -/
theorem evalF_ne_nofuel (M : Machine) (toks : List Token) (f : Nat) :
    ∀ (st ed : Int), (ed + 1 - st).toNat + 1 ≤ f → evalF M toks f st ed ≠ .nofuel := by
  induction f with
  | zero =>
    intro st ed h
    omega
  | succ f ih =>
    intro st ed hf
    rw [evalF_succ]
    by_cases h1 : st > ed
    · rw [if_pos h1]; simp
    rw [if_neg h1]
    by_cases h2 : st = ed
    · rw [if_pos h2]; exact eval_single_ne_nofuel M _
    rw [if_neg h2]
    by_cases h3 : check_parentheses toks st ed = true
    · rw [if_pos h3]
      have := ih (st + 1) (ed - 1) (by omega)
      cases hr : evalF M toks f (st + 1) (ed - 1) with
      | ret v s => simp [eval_return]
      | abort => simp
      | undefined => simp
      | nofuel => exact absurd hr this
    rw [if_neg h3]
    by_cases h4 : ¬ (find_mainop toks st ed > 0)
    · rw [if_pos h4]; simp
    rw [if_neg h4]
    have hrange : st ≤ find_mainop toks st ed ∧ find_mainop toks st ed ≤ ed := by
      rcases find_mainop_range toks st ed with h | h
      · omega
      · exact h
    have hl := ih st (find_mainop toks st ed - 1) (by omega)
    have hr := ih (find_mainop toks st ed + 1) ed (by omega)
    cases hl2 : evalF M toks f st (find_mainop toks st ed - 1) with
    | ret lval lexpr =>
      cases hr2 : evalF M toks f (find_mainop toks st ed + 1) ed with
      | ret rval rexpr =>
        simp only
        split
        · simp
        · exact eval_binary_ne_nofuel _ _ _ _
      | abort => simp
      | undefined => simp
      | nofuel => exact absurd hr2 hr
    | abort => simp
    | undefined => simp
    | nofuel => exact absurd hl2 hl

theorem eval_ne_nofuel (M : Machine) (toks : List Token) (st ed : Int) :
    eval M toks st ed ≠ .nofuel :=
  evalF_ne_nofuel M toks _ st ed (le_refl _)

theorem expr_ne_nofuel (M : Machine) (e : List Char) : expr M e ≠ .nofuel := by
  simp only [expr]
  cases h : make_token e with
  | ok toks => exact eval_ne_nofuel M toks _ _
  | fail => simp
  | abort => simp
  | overflow => simp
  | nofuel => exact absurd h (make_tokenLoop_ne_nofuel _ _ _ (le_refl _))

/-! ## The loops read the tokens of their range, whatever the range -/

theorem slice_length (toks : List Token) (n : Nat) : ∀ i : Int, (slice toks i n).length = n := by
  induction n with
  | zero => intro i; rfl
  | succ n ih => intro i; simp [slice, ih]

theorem slice_take (toks : List Token) (n : Nat) :
    ∀ (i : Int) (k : Nat), k ≤ n → (slice toks i n).take k = slice toks i k := by
  induction n with
  | zero =>
    intro i k hk
    have : k = 0 := by omega
    subst this
    rfl
  | succ n ih =>
    intro i k hk
    cases k with
    | zero => rfl
    | succ k => simp [slice, ih (i + 1) k (by omega)]

theorem slice_getD (toks : List Token) (n : Nat) :
    ∀ (i : Int) (k : Nat), k < n → (slice toks i n).getD k default = tokenAt toks (i + k) := by
  induction n with
  | zero => intro i k hk; omega
  | succ n ih =>
    intro i k hk
    cases k with
    | zero => simp [slice]
    | succ k =>
      have := ih (i + 1) k (by omega)
      simp only [slice, List.getD_cons_succ, this]
      congr 1
      push_cast
      omega

theorem check_parenthesesLoop_slice (toks : List Token) (n : Nat) :
    ∀ (cur stn : Int), check_parenthesesLoop toks n cur stn =
      match depthWalk (slice toks cur n) stn with
      | some d => decide (d = 0)
      | none => false := by
  induction n with
  | zero => intro cur stn; simp [check_parenthesesLoop, slice, depthWalk]
  | succ n ih =>
    intro cur stn
    simp only [check_parenthesesLoop, slice, depthWalk, ih]
    split
    · rfl
    · split
      · split <;> rfl
      · rfl

theorem find_mainopLoop_slice (toks : List Token) (n : Nat) :
    ∀ (i mop pr stn : Int), find_mainopLoop toks n i mop pr stn =
      match scanWalk (slice toks i n) i (mop, pr, stn) with
      | some s => s.1
      | none => -1 := by
  induction n with
  | zero => intro i mop pr stn; simp [find_mainopLoop, slice, scanWalk]
  | succ n ih =>
    intro i mop pr stn
    simp only [find_mainopLoop, slice, scanWalk, ih]
    split
    · rfl
    · split
      · split <;> rfl
      · split
        · rfl
        · split <;> rfl

/-! ## The depth counter, in words and as a walk -/

theorem depthOf_append (x y : List Token) : depthOf (x ++ y) = depthOf x + depthOf y := by
  induction x with
  | nil => simp [depthOf]
  | cons t ts ih =>
    show bracketStep t + depthOf (ts ++ y) = bracketStep t + depthOf ts + depthOf y
    rw [ih]; omega

/-- The walk of the counter from `d` succeeds exactly when no initial part of the tokens
brings the depth below zero, and then ends at `d` plus the depth of the tokens. -/
theorem depthWalk_some_iff (ts : List Token) :
    ∀ (d r : Int), 0 ≤ d →
      (depthWalk ts d = some r ↔
        (∀ k, k ≤ ts.length → 0 ≤ d + depthOf (ts.take k)) ∧ r = d + depthOf ts) := by
  induction ts with
  | nil =>
    intro d r hd
    simp only [depthWalk, Option.some.injEq, List.length_nil, List.take_nil, depthOf]
    constructor
    · intro h; exact ⟨fun k _ => by omega, by omega⟩
    · intro h; omega
  | cons t ts ih =>
    intro d r hd
    have hsplit : (∀ k, k ≤ (t :: ts).length → 0 ≤ d + depthOf ((t :: ts).take k)) ↔
        (∀ k, k ≤ ts.length → 0 ≤ d + bracketStep t + depthOf (ts.take k)) := by
      constructor
      · intro h k hk
        have := h (k + 1) (by simp; omega)
        simp only [List.take_succ_cons, depthOf] at this
        omega
      · intro h k hk
        cases k with
        | zero => simp [depthOf]; omega
        | succ k =>
          have := h k (by simp at hk; omega)
          simp only [List.take_succ_cons, depthOf]
          omega
    rw [hsplit]
    simp only [depthWalk, depthOf]
    by_cases h1 : t.type = TK_LBRA
    · have hb : bracketStep t = 1 := by simp [bracketStep, h1]
      rw [if_pos h1, ih (d + 1) r (by omega), hb]
      constructor
      · rintro ⟨a, b⟩; exact ⟨a, by omega⟩
      · rintro ⟨a, b⟩; exact ⟨a, by omega⟩
    · rw [if_neg h1]
      by_cases h2 : t.type = TK_RBRA
      · have hb : bracketStep t = -1 := by simp [bracketStep, h1, h2]
        rw [if_pos h2, hb]
        by_cases h3 : d - 1 < 0
        · rw [if_pos h3]
          constructor
          · intro h; exact absurd h (by simp)
          · rintro ⟨a, -⟩
            have := a 0 (by omega)
            simp only [List.take_zero, depthOf] at this
            omega
        · rw [if_neg h3, ih (d - 1) r (by omega)]
          constructor
          · rintro ⟨a, b⟩
            exact ⟨fun k hk => by have := a k hk; omega, by omega⟩
          · rintro ⟨a, b⟩
            exact ⟨fun k hk => by have := a k hk; omega, by omega⟩
      · have hb : bracketStep t = 0 := by simp [bracketStep, h1, h2]
        rw [if_neg h2, ih d r hd, hb]
        constructor
        · rintro ⟨a, b⟩
          exact ⟨fun k hk => by have := a k hk; omega, by omega⟩
        · rintro ⟨a, b⟩
          exact ⟨fun k hk => by have := a k hk; omega, by omega⟩

theorem depthWalk_zero_iff (ts : List Token) :
    depthWalk ts 0 = some 0 ↔ neverNegative ts ∧ depthOf ts = 0 := by
  rw [depthWalk_some_iff ts 0 0 (le_refl _)]
  simp only [neverNegative, zero_add]
  constructor
  · rintro ⟨a, b⟩; exact ⟨a, b.symm⟩
  · rintro ⟨a, b⟩; exact ⟨a, b.symm⟩

/-! ## Outcomes of `expr` that are no success -/

theorem eval_ret_balanced (M : Machine) (toks : List Token) (v : Nat) (s : Bool)
    (h : eval M toks 0 ((toks.length : Int) - 1) = .ret v s) :
    neverNegative toks ∧ depthOf toks = 0 := by
  simp only [eval] at h
  have hs := evalF_ret_true M toks _ _ _ v s h
  subst hs
  have h0 : evalF M ([] ++ toks ++ []) (((toks.length : Int) - 1 + 1 - 0).toNat + 1) 0
      ((toks.length : Int) - 1) = .ret v true := by simpa using h
  have hb := evalF_balanced M _ [] toks [] 0 _ v rfl (by simp) h0 0 (le_refl _)
  exact (depthWalk_zero_iff toks).mp hb

/-- An outcome of `eval` that is no return is an `Assert` or undefined behaviour. -/
theorem eval_cases (M : Machine) (toks : List Token) (st ed : Int) :
    (∃ v, eval M toks st ed = .ret v true) ∨ eval M toks st ed = .abort
      ∨ eval M toks st ed = .undefined := by
  cases h : eval M toks st ed with
  | ret v s =>
    have := evalF_ret_true M toks _ st ed v s h
    subst this
    exact Or.inl ⟨v, rfl⟩
  | abort => exact Or.inr (Or.inl rfl)
  | undefined => exact Or.inr (Or.inr rfl)
  | nofuel => exact absurd h (eval_ne_nofuel M toks st ed)

theorem expr_of_tokens (M : Machine) (s : List Char) (toks : List Token)
    (h : make_token s = .ok toks) : expr M s = eval M toks 0 ((toks.length : Int) - 1) := by
  simp only [expr, h]

/-! ## A space at the end of the input -/

theorem litMatch_append_two_any (p q c : Char) (e : List Char) (he : e ≠ []) (hq : q ≠ c) :
    litMatch [p, q] (e ++ [c]) = litMatch [p, q] e := by
  cases e with
  | nil => exact absurd rfl he
  | cons x xs =>
    cases xs with
    | nil => simp [litMatch, hq]
    | cons y ys => simp [litMatch]

/-- A space behind a non-empty input changes no match of a token pattern at the front. -/
theorem regexec_append_space (r : Rule) (hr : r ∈ rules) (hty : r.token_type ≠ TK_NOTYPE)
    (e : List Char) (he : e ≠ []) :
    regexec r.regex (e ++ [' ']) = regexec r.regex e := by
  simp only [rules, List.mem_cons, List.mem_singleton, List.not_mem_nil, or_false] at hr
  rcases hr with rfl | rfl | rfl | rfl | rfl | rfl | rfl | rfl | rfl | rfl | rfl | rfl | rfl
    | rfl | rfl
  · exact absurd rfl hty
  · simp only [regexec, litMatch_append_one _ _ e he]
  · simp only [regexec, litMatch_append_one _ _ e he]
  · simp only [regexec, litMatch_append_one _ _ e he]
  · simp only [regexec, litMatch_append_one _ _ e he]
  · simp only [regexec, litMatch_append_one _ _ e he]
  · simp only [regexec, litMatch_append_one _ _ e he]
  · simp only [regexec, litMatch_append_one _ _ e he]
  · simp only [regexec, litMatch_append_two_any '=' '=' ' ' e he (by decide)]
  · simp only [regexec, litMatch_append_two_any '!' '=' ' ' e he (by decide)]
  · simp only [regexec, litMatch_append_two_any '&' '&' ' ' e he (by decide)]
  · simp only [regexec, litMatch_append_two_any '|' '|' ' ' e he (by decide)]
  · -- the decimal rule
    simp only [regexec, spanLen_append_stop Char.isDigit e ' ' (by decide)]
    have hle := spanLen_le Char.isDigit e
    rw [drop_append_of_le e ' ' _ hle]
    by_cases hk : spanLen Char.isDigit e < e.length
    · have : e.drop (spanLen Char.isDigit e) ≠ [] := by
        intro h
        have := congrArg List.length h
        simp only [List.length_drop, List.length_nil] at this
        omega
      obtain ⟨x, xs, hx⟩ := List.exists_cons_of_ne_nil this
      simp [hx]
    · have : e.drop (spanLen Char.isDigit e) = [] := List.drop_eq_nil_of_le (by omega)
      simp [this]
  · -- the hex rule
    simp only [regexec, litMatch_append_two_any '0' 'x' ' ' e he (by decide)]
    split
    · rename_i hm
      have h2 := litMatch_two_length _ _ _ hm
      rw [drop_append_of_le e ' ' 2 h2, spanLen_append_stop isHexDigit _ ' ' (by decide)]
    · rfl
  · -- the register rule
    simp only [regexec, litMatch_append_one _ _ e he]
    split
    · rename_i hm
      have h2 := litMatch_length _ _ hm
      simp only [List.length_cons, List.length_nil] at h2
      rw [drop_append_of_le e ' ' 1 (by omega), spanLen_append_stop isRegChar _ ' ' (by decide)]
    · rfl

/-- No token pattern matches a single space. -/
theorem regexec_space_only (r : Rule) (hr : r ∈ rules) (hty : r.token_type ≠ TK_NOTYPE) :
    regexec r.regex [' '] = none := by
  revert r
  decide

/-- The match of a token pattern never covers a space at the end of the input. -/
theorem regexec_space_end (r : Rule) (hr : r ∈ rules) (hty : r.token_type ≠ TK_NOTYPE)
    (e : List Char) (len : Nat) (h : regexec r.regex (e ++ [' ']) = some len) :
    len ≤ e.length := by
  by_cases he : e = []
  · subst he
    rw [List.nil_append, regexec_space_only r hr hty] at h
    exact absurd h (by simp)
  · rw [regexec_append_space r hr hty e he] at h
    exact (regexec_bounds r.regex (rules_ne_lit_nil r hr) e len h).2

/-- A token cut from an input that ends in a space leaves an input that ends in a
space. -/
theorem tryRules_space_end (n : Nat) (rs : List Rule) (hrs : ∀ r ∈ rs, r ∈ rules)
    (e rest : List Char) (t : Token) (h : tryRules n rs (e ++ [' ']) = .tok rest t) :
    ∃ r2, rest = r2 ++ [' '] := by
  induction rs generalizing e with
  | nil => simp [tryRules] at h
  | cons r rs ih =>
    have hrs2 : ∀ x ∈ rs, x ∈ rules := fun x hx => hrs x (by simp [hx])
    simp only [tryRules] at h
    cases hm : regexec r.regex (e ++ [' ']) with
    | none =>
      rw [hm] at h
      exact ih hrs2 e h
    | some len =>
      rw [hm] at h
      simp only at h
      by_cases hnt : r.token_type = TK_NOTYPE
      · rw [if_pos hnt] at h
        by_cases hl : len ≤ e.length
        · rw [drop_append_of_le e ' ' len hl] at h
          exact ih hrs2 _ h
        · have : (e ++ [' ']).drop len = [] :=
            List.drop_eq_nil_of_le (by
              simp only [List.length_append, List.length_cons, List.length_nil]
              omega)
          rw [this, tryRules_nil n rs hrs2] at h
          exact absurd h (by simp)
      · rw [if_neg hnt] at h
        have hl := regexec_space_end r (hrs r (by simp)) hnt e len hm
        rw [drop_append_of_le e ' ' len hl] at h
        split at h
        · exact absurd h (by simp)
        · split at h
          · split at h
            · injection h with h1 h2
              exact ⟨_, h1.symm⟩
            · exact absurd h (by simp)
          · injection h with h1 h2
            exact ⟨_, h1.symm⟩

theorem LexResult.cons_ok_inv (t : Token) (r : LexResult) (toks : List Token)
    (h : r.cons t = .ok toks) : ∃ ts, r = .ok ts := by
  cases r with
  | ok ts => exact ⟨ts, rfl⟩
  | fail => simp [LexResult.cons] at h
  | abort => simp [LexResult.cons] at h
  | overflow => simp [LexResult.cons] at h
  | nofuel => simp [LexResult.cons] at h

/-- An input that ends in a space is never tokenized: the space is matched by the
first rule, `continue` goes on with the second rule at the end of the input, and no
rule matches there. -/
theorem make_tokenLoop_space_end (f : Nat) :
    ∀ (n : Nat) (e : List Char) (toks : List Token),
      make_tokenLoop f n (e ++ [' ']) ≠ .ok toks := by
  induction f with
  | zero =>
    intro n e toks h
    cases e with
    | nil => simp [make_tokenLoop] at h
    | cons c cs => simp [make_tokenLoop] at h
  | succ f ih =>
    intro n e toks h
    obtain ⟨c, cs, hc⟩ : ∃ c cs, e ++ [' '] = c :: cs := by
      cases e with
      | nil => exact ⟨_, _, rfl⟩
      | cons x xs => exact ⟨_, _, rfl⟩
    rw [hc] at h
    simp only [make_tokenLoop] at h
    cases hr : tryRules n rules (c :: cs) with
    | noMatch => rw [hr] at h; exact absurd h (by simp)
    | abort => rw [hr] at h; exact absurd h (by simp)
    | overflow => rw [hr] at h; exact absurd h (by simp)
    | tok rest t0 =>
      rw [hr] at h
      simp only at h
      rw [← hc] at hr
      obtain ⟨r2, hr2⟩ := tryRules_space_end n rules (fun r hr => hr) e rest t0 hr
      obtain ⟨ts, hts⟩ := LexResult.cons_ok_inv _ _ _ h
      rw [hr2] at hts
      exact ih _ _ _ hts

/-! ## The length of the nested input -/

theorem nestInput_length (k : Nat) : (nestInput k).length = 2 * k + 1 := by
  simp only [nestInput, List.length_append, List.length_cons, List.length_replicate]
  omega

/-! ## The recursion of `eval` -/

/-- Above the length of the range the result of `eval` does not depend on the bound
on the depth of the recursion. -/
theorem evalF_fuel2 (M : Machine) (toks : List Token) (f : Nat) :
    ∀ (g : Nat) (st ed : Int), (ed + 1 - st).toNat + 1 ≤ f → (ed + 1 - st).toNat + 1 ≤ g →
      evalF M toks f st ed = evalF M toks g st ed := by
  induction f with
  | zero =>
    intro g st ed h
    omega
  | succ f ih =>
    intro g st ed hf hg
    cases g with
    | zero => omega
    | succ g =>
      rw [evalF_succ, evalF_succ]
      by_cases h1 : st > ed
      · rw [if_pos h1, if_pos h1]
      rw [if_neg h1, if_neg h1]
      by_cases h2 : st = ed
      · rw [if_pos h2, if_pos h2]
      rw [if_neg h2, if_neg h2]
      by_cases h3 : check_parentheses toks st ed = true
      · rw [if_pos h3, if_pos h3, ih g (st + 1) (ed - 1) (by omega) (by omega)]
      rw [if_neg h3, if_neg h3]
      by_cases h4 : ¬ (find_mainop toks st ed > 0)
      · rw [if_pos h4, if_pos h4]
      rw [if_neg h4, if_neg h4]
      have hrange : st ≤ find_mainop toks st ed ∧ find_mainop toks st ed ≤ ed := by
        rcases find_mainop_range toks st ed with h | h
        · omega
        · exact h
      rw [ih g st (find_mainop toks st ed - 1) (by omega) (by omega),
        ih g (find_mainop toks st ed + 1) ed (by omega) (by omega)]

/-- The function `eval` satisfies the recursive equation of the source, the recursive
calls being calls of `eval` itself. -/
theorem eval_unfold (M : Machine) (toks : List Token) (st ed : Int) :
    eval M toks st ed =
      if st > ed then .abort
      else if st = ed then eval_single M (tokenAt toks st)
      else if check_parentheses toks st ed = true then
        match eval M toks (st + 1) (ed - 1) with
        | .ret v s => eval_return v s
        | r => r
      else if ¬ (find_mainop toks st ed > 0) then .abort
      else
        match eval M toks st (find_mainop toks st ed - 1) with
        | .ret lval lexpr =>
          match eval M toks (find_mainop toks st ed + 1) ed with
          | .ret rval rexpr =>
            if ¬ (lexpr && rexpr) = true then .abort
            else eval_binary M.wordBits (tokenAt toks (find_mainop toks st ed)).type lval rval
          | r => r
        | r => r := by
  simp only [eval]
  rw [evalF_succ]
  by_cases h1 : st > ed
  · rw [if_pos h1, if_pos h1]
  rw [if_neg h1, if_neg h1]
  by_cases h2 : st = ed
  · rw [if_pos h2, if_pos h2]
  rw [if_neg h2, if_neg h2]
  by_cases h3 : check_parentheses toks st ed = true
  · rw [if_pos h3, if_pos h3,
      evalF_fuel2 M toks _ ((ed - 1 + 1 - (st + 1)).toNat + 1) (st + 1) (ed - 1) (by omega)
        (le_refl _)]
  rw [if_neg h3, if_neg h3]
  by_cases h4 : ¬ (find_mainop toks st ed > 0)
  · rw [if_pos h4, if_pos h4]
  rw [if_neg h4, if_neg h4]
  have hrange : st ≤ find_mainop toks st ed ∧ find_mainop toks st ed ≤ ed := by
    rcases find_mainop_range toks st ed with h | h
    · omega
    · exact h
  rw [evalF_fuel2 M toks _ ((find_mainop toks st ed - 1 + 1 - st).toNat + 1) st
      (find_mainop toks st ed - 1) (by omega) (le_refl _),
    evalF_fuel2 M toks _ ((ed + 1 - (find_mainop toks st ed + 1)).toNat + 1)
      (find_mainop toks st ed + 1) ed (by omega) (le_refl _)]

/-! ## The scan of `find_mainop` -/

theorem scanWalk_depth (ts : List Token) :
    ∀ (i m p d : Int), (scanWalk ts i (m, p, d)).map (fun s => s.2.2) = depthWalk ts d := by
  induction ts with
  | nil => intro i m p d; rfl
  | cons t ts ih =>
    intro i m p d
    simp only [scanWalk, depthWalk]
    split
    · exact ih _ _ _ _
    · split
      · split
        · rfl
        · exact ih _ _ _ _
      · split
        · exact ih _ _ _ _
        · split
          · exact ih _ _ _ _
          · exact ih _ _ _ _

theorem candAt_zero (t : Token) (ts : List Token) (d0 : Int) :
    candAt (t :: ts) d0 0 ↔ isOperator t = true ∧ d0 = 0 := by
  simp [candAt, depthOf]

theorem candAt_succ (t : Token) (ts : List Token) (d0 : Int) (k : Nat) :
    candAt (t :: ts) d0 (k + 1) ↔ candAt ts (d0 + bracketStep t) k := by
  simp only [candAt, List.getD_cons_succ, List.take_succ_cons, depthOf]
  constructor
  · rintro ⟨a, b⟩; exact ⟨a, by omega⟩
  · rintro ⟨a, b⟩; exact ⟨a, by omega⟩

/-- One token more in front of a scanned list. -/
theorem scanSpec_cons (t : Token) (ts : List Token) (i0 m0 p0 d0 m1 p1 m p : Int)
    (hstep : (m1 = m0 ∧ p1 = p0
          ∧ (isOperator t = true → d0 = 0 → op_priority t.type < p0))
        ∨ (m1 = i0 ∧ p1 = op_priority t.type ∧ isOperator t = true ∧ d0 = 0
          ∧ p0 ≤ op_priority t.type))
    (ih : scanSpec ts (i0 + 1) m1 p1 (d0 + bracketStep t) m p) :
    scanSpec (t :: ts) i0 m0 p0 d0 m p := by
  obtain ⟨hp, hall, halt⟩ := ih
  rcases hstep with ⟨hm1, hp1, hA⟩ | ⟨hm1, hp1, hop, hd0, hq⟩
  · subst hm1 hp1
    refine ⟨hp, ?_, ?_⟩
    · intro k hk hc
      cases k with
      | zero =>
        rw [candAt_zero] at hc
        have := hA hc.1 hc.2
        simp only [List.getD_cons_zero]
        omega
      | succ k =>
        rw [candAt_succ] at hc
        simp only [List.getD_cons_succ]
        exact hall k (by simpa using hk) hc
    · rcases halt with ⟨e1, e2, e3⟩ | ⟨k, hk, e1, e2, e3, e4⟩
      · refine Or.inl ⟨e1, e2, ?_⟩
        intro k hk hc
        cases k with
        | zero =>
          rw [candAt_zero] at hc
          simpa using hA hc.1 hc.2
        | succ k =>
          rw [candAt_succ] at hc
          simp only [List.getD_cons_succ]
          exact e3 k (by simpa using hk) hc
      · refine Or.inr ⟨k + 1, by simpa using hk, by push_cast; omega,
          (candAt_succ _ _ _ _).mpr e2, by simpa using e3, ?_⟩
        intro j hj hc hpj
        cases j with
        | zero => omega
        | succ j =>
          rw [candAt_succ] at hc
          have := e4 j (by simpa using hj) hc (by simpa using hpj)
          omega
  · subst hm1 hp1
    refine ⟨by omega, ?_, ?_⟩
    · intro k hk hc
      cases k with
      | zero => simpa using hp
      | succ k =>
        rw [candAt_succ] at hc
        simp only [List.getD_cons_succ]
        exact hall k (by simpa using hk) hc
    · rcases halt with ⟨e1, e2, e3⟩ | ⟨k, hk, e1, e2, e3, e4⟩
      · refine Or.inr ⟨0, by simp, by simpa using e1, (candAt_zero _ _ _).mpr ⟨hop, hd0⟩,
          by simpa using e2.symm, ?_⟩
        intro j hj hc hpj
        cases j with
        | zero => omega
        | succ j =>
          rw [candAt_succ] at hc
          have := e3 j (by simpa using hj) hc
          simp only [List.getD_cons_succ] at hpj
          omega
      · refine Or.inr ⟨k + 1, by simpa using hk, by push_cast; omega,
          (candAt_succ _ _ _ _).mpr e2, by simpa using e3, ?_⟩
        intro j hj hc hpj
        cases j with
        | zero => omega
        | succ j =>
          rw [candAt_succ] at hc
          have := e4 j (by simpa using hj) hc (by simpa using hpj)
          omega

/-- The scan of `find_mainop` keeps the last depth-zero operator of the largest
priority. -/
theorem scanWalk_spec (ts : List Token) :
    ∀ (i0 m0 p0 d0 m p d : Int), scanWalk ts i0 (m0, p0, d0) = some (m, p, d) →
      scanSpec ts i0 m0 p0 d0 m p := by
  induction ts with
  | nil =>
    intro i0 m0 p0 d0 m p d h
    simp only [scanWalk, Option.some.injEq, Prod.mk.injEq] at h
    obtain ⟨h1, h2, -⟩ := h
    subst h1 h2
    exact ⟨le_refl _, fun k hk => absurd hk (by simp),
      Or.inl ⟨rfl, rfl, fun k hk => absurd hk (by simp)⟩⟩
  | cons t ts ih =>
    intro i0 m0 p0 d0 m p d h
    simp only [scanWalk] at h
    by_cases h1 : t.type = TK_LBRA
    · rw [if_pos h1] at h
      have hb : bracketStep t = 1 := by simp [bracketStep, h1]
      have ho : isOperator t = false := by simp [isOperator, h1]
      refine scanSpec_cons t ts i0 m0 p0 d0 m0 p0 m p (Or.inl ⟨rfl, rfl, ?_⟩) ?_
      · intro hop; rw [ho] at hop; exact absurd hop (by simp)
      · rw [hb]; exact ih _ _ _ _ _ _ _ h
    rw [if_neg h1] at h
    by_cases h2 : t.type = TK_RBRA
    · rw [if_pos h2] at h
      have hb : bracketStep t = -1 := by simp [bracketStep, h2]
      have ho : isOperator t = false := by simp [isOperator, h2]
      split at h
      · exact absurd h (by simp)
      · refine scanSpec_cons t ts i0 m0 p0 d0 m0 p0 m p (Or.inl ⟨rfl, rfl, ?_⟩) ?_
        · intro hop; rw [ho] at hop; exact absurd hop (by simp)
        · rw [hb]; exact ih _ _ _ _ _ _ _ h
    rw [if_neg h2] at h
    have hb : bracketStep t = 0 := by simp [bracketStep, h1, h2]
    by_cases h3 : t.type = TK_HEX ∨ t.type = TK_DEC ∨ t.type = TK_REG
    · rw [if_pos h3] at h
      have ho : isOperator t = false := by
        rcases h3 with h3 | h3 | h3 <;> simp [isOperator, h3]
      refine scanSpec_cons t ts i0 m0 p0 d0 m0 p0 m p (Or.inl ⟨rfl, rfl, ?_⟩) ?_
      · intro hop; rw [ho] at hop; exact absurd hop (by simp)
      · rw [hb, add_zero]; exact ih _ _ _ _ _ _ _ h
    rw [if_neg h3] at h
    have ho : isOperator t = true := by
      simp only [not_or] at h3
      simp [isOperator, h1, h2, h3.1, h3.2.1, h3.2.2]
    by_cases h4 : d0 = 0 ∧ op_priority t.type ≥ p0
    · rw [if_pos h4] at h
      refine scanSpec_cons t ts i0 m0 p0 d0 i0 (op_priority t.type) m p
        (Or.inr ⟨rfl, rfl, ho, h4.1, h4.2⟩) ?_
      rw [hb, add_zero]; exact ih _ _ _ _ _ _ _ h
    · rw [if_neg h4] at h
      refine scanSpec_cons t ts i0 m0 p0 d0 m0 p0 m p (Or.inl ⟨rfl, rfl, ?_⟩) ?_
      · intro _ hd
        by_contra hq
        exact h4 ⟨hd, by omega⟩
      · rw [hb, add_zero]; exact ih _ _ _ _ _ _ _ h

theorem op_priority_nonneg (ty : Nat) : 0 ≤ op_priority ty := by
  simp only [op_priority]
  repeat' split
  all_goals omega

/-- A depth-zero operator of the range, as a position of the slice. -/
theorem candAt_slice (toks : List Token) (st : Int) (n k : Nat) (hk : k < n) :
    candAt (slice toks st n) 0 k ↔ depthZeroOperator toks st (st + k) := by
  have h1 : (st + (k : Int) - st).toNat = k := by omega
  simp only [candAt, depthZeroOperator, slice_getD toks n st k hk,
    slice_take toks n st k (le_of_lt hk), zero_add, h1]

theorem find_mainop_of_none (toks : List Token) (st ed : Int)
    (h : scanWalk (slice toks st (ed + 1 - st).toNat) st (-1, 0, 0) = none) :
    find_mainop toks st ed = -1 := by
  simp only [find_mainop, find_mainopLoop_slice, h]

theorem find_mainop_of_some (toks : List Token) (st ed : Int) (s : Int × Int × Int)
    (h : scanWalk (slice toks st (ed + 1 - st).toNat) st (-1, 0, 0) = some s) :
    find_mainop toks st ed = s.1 := by
  simp only [find_mainop, find_mainopLoop_slice, h]

/-! ## The token sequences on which `eval` returns -/

/-- A range on which `eval` returns holds a well-formed expression. -/
theorem evalF_wellFormed (M : Machine) (f : Nat) :
    ∀ (pre seg post : List Token) (st ed : Int) (v : Nat), st = pre.length →
      ed = pre.length + seg.length - 1 →
      evalF M (pre ++ seg ++ post) f st ed = .ret v true → WellFormed seg := by
  induction f with
  | zero =>
    intro pre seg post st ed v _ _ h
    simp [evalF] at h
  | succ f ih =>
    intro pre seg post st ed v hst hed h
    rcases evalF_inv M _ f st ed v true h with
      ⟨h1, h2⟩ | ⟨h1, h2, h3⟩ | ⟨h1, h2, h3, lval, rval, h4, h5, h6⟩
    · have hlen : seg.length = 1 := by omega
      obtain ⟨t, rfl⟩ := List.length_eq_one.mp hlen
      have ht : tokenAt (pre ++ [t] ++ post) st = t := by
        rw [List.append_assoc, List.singleton_append]
        exact tokenAt_append_add _ _ _ _ hst
      rw [ht] at h2
      simp only [eval_single] at h2
      have hty : t.type = TK_DEC ∨ t.type = TK_HEX ∨ t.type = TK_REG := by
        by_contra hc
        rw [if_neg (by tauto), if_neg (by tauto)] at h2
        exact absurd h2 (by simp)
      exact .leaf t (by rcases hty with h | h | h <;> simp [isNumber, h])
    · obtain ⟨t1, x, t2, rfl⟩ := list_ends seg (by omega)
      have hT : pre ++ t1 :: (x ++ [t2]) ++ post = pre ++ t1 :: (x ++ t2 :: post) := by simp
      have hed2 : ed = pre.length + x.length + 1 := by
        simp only [List.length_cons, List.length_append, List.length_nil] at hed
        push_cast at hed
        omega
      rw [hT, check_parentheses_wrap pre x post t1 t2 st ed hst hed2] at h2
      have hb : t1.type = TK_LBRA ∧ t2.type = TK_RBRA := by
        by_contra hc
        rw [if_pos (by tauto)] at h2
        exact absurd h2 (by simp)
      have hT2 : pre ++ t1 :: (x ++ [t2]) ++ post = (pre ++ [t1]) ++ x ++ (t2 :: post) := by
        simp
      rw [hT2] at h3
      have hx := ih (pre ++ [t1]) x (t2 :: post) (st + 1) (ed - 1) v
        (by simp [hst]) (by simp; omega) h3
      exact .paren t1 t2 x hb.1 hb.2 hx
    · obtain ⟨sl, top, sr, rfl, hm, -⟩ := find_mainop_split pre seg post st ed hst hed h3
      rw [hm] at h4 h5 h6
      have hT1 : pre ++ (sl ++ top :: sr) ++ post = pre ++ sl ++ (top :: (sr ++ post)) := by
        simp
      have hT2 : pre ++ (sl ++ top :: sr) ++ post = (pre ++ sl ++ [top]) ++ sr ++ post := by
        simp
      have htop : tokenAt (pre ++ (sl ++ top :: sr) ++ post) (st + sl.length) = top := by
        rw [hT1]; exact tokenAt_append_add _ _ _ _ (by simp [hst])
      rw [htop] at h6
      have hlen : ((sl ++ top :: sr).length : Int) = sl.length + 1 + sr.length := by
        simp; omega
      rw [hlen] at hed
      rw [hT1] at h4
      have hl := ih pre sl (top :: (sr ++ post)) st (st + sl.length - 1) lval hst (by omega) h4
      rw [hT2] at h5
      have hr := ih (pre ++ sl ++ [top]) sr post (st + sl.length + 1) ed rval
        (by simp [hst]; omega) (by simp; omega) h5
      obtain ⟨op, o1, -, -⟩ := eval_binary_inv _ _ _ _ _ h6
      refine .bin sl top sr hl ?_ hr
      cases op <;> simp [isArith, o1, BinOp.token]

theorem eval_ret_wellFormed (M : Machine) (toks : List Token) (v : Nat) (s : Bool)
    (h : eval M toks 0 ((toks.length : Int) - 1) = .ret v s) : WellFormed toks := by
  simp only [eval] at h
  have hs := evalF_ret_true M toks _ _ _ v s h
  subst hs
  have h0 : evalF M ([] ++ toks ++ []) (((toks.length : Int) - 1 + 1 - 0).toNat + 1) 0
      ((toks.length : Int) - 1) = .ret v true := by simpa using h
  exact evalF_wellFormed M _ [] toks [] 0 _ v rfl (by simp) h0

/-- A well-formed sequence starts with a token that can start an operand and ends
with one that can end an operand. -/
theorem WellFormed.ends (s : List Token) (h : WellFormed s) :
    (∃ t, s.head? = some t ∧ startsOperand t = true)
      ∧ (∃ t, s.getLast? = some t ∧ endsOperand t = true) := by
  induction h with
  | leaf t ht =>
    exact ⟨⟨t, rfl, by simp [startsOperand, ht]⟩, ⟨t, rfl, by simp [endsOperand, ht]⟩⟩
  | paren t1 t2 x h1 h2 _ _ =>
    refine ⟨⟨t1, rfl, by simp [startsOperand, h1]⟩, ⟨t2, ?_, by simp [endsOperand, h2]⟩⟩
    rw [← List.cons_append, List.getLast?_concat]
  | bin sl top sr _ _ _ ihl ihr =>
    obtain ⟨⟨a, ha1, ha2⟩, -⟩ := ihl
    obtain ⟨-, ⟨b, hb1, hb2⟩⟩ := ihr
    have hsl : sl ≠ [] := by rintro rfl; simp at ha1
    have hsr : sr ≠ [] := by rintro rfl; simp at hb1
    refine ⟨⟨a, ?_, ha2⟩, ⟨b, ?_, hb2⟩⟩
    · rw [List.head?_append_of_ne_nil _ hsl, ha1]
    · rw [List.getLast?_append_of_ne_nil _ (by simp), List.getLast?_cons,
        ← hb1]
      obtain ⟨y, ys, rfl⟩ := List.exists_cons_of_ne_nil hsr
      simp [List.getLast?_cons]

theorem isNumber_not_binary (t : Token) (h : isNumber t = true) :
    isBinaryOperator t = false := by
  simp only [isNumber, Bool.or_eq_true, beq_iff_eq] at h
  rcases h with (h | h) | h <;> simp [isBinaryOperator, isArith, h]

/-- Every binary operator of a well-formed sequence has an operand on both sides. -/
theorem WellFormed.operands (s : List Token) (h : WellFormed s) :
    ∀ (l : List Token) (op : Token) (r : List Token), s = l ++ op :: r →
      isBinaryOperator op = true →
      (∃ t, l.getLast? = some t ∧ endsOperand t = true)
        ∧ (∃ t, r.head? = some t ∧ startsOperand t = true) := by
  induction h with
  | leaf t ht =>
    intro l op r hs hop
    have hl : l = [] := by
      cases l with
      | nil => rfl
      | cons a l =>
        have := congrArg List.length hs
        simp at this
    subst hl
    simp only [List.nil_append, List.cons.injEq] at hs
    rw [← hs.1, isNumber_not_binary t ht] at hop
    exact absurd hop (by simp)
  | paren t1 t2 x h1 h2 hx ih =>
    intro l op r hs hop
    cases l with
    | nil =>
      simp only [List.nil_append, List.cons.injEq] at hs
      rw [← hs.1] at hop
      simp [isBinaryOperator, isArith, h1] at hop
    | cons a l =>
      simp only [List.cons_append, List.cons.injEq] at hs
      obtain ⟨-, hs⟩ := hs
      rcases List.eq_nil_or_concat r with hr | ⟨r2, b, hr⟩
      · subst hr
        have h3 : x ++ [t2] = l ++ [op] := hs
        have := List.append_inj_right' h3 rfl
        simp only [List.cons.injEq, and_true] at this
        rw [← this] at hop
        simp [isBinaryOperator, isArith, h2] at hop
      · have hr2 : r = r2 ++ [b] := by simpa using hr
        subst hr2
        have h3 : x ++ [t2] = (l ++ op :: r2) ++ [b] := by simpa using hs
        have h4 := List.append_inj_left' h3 rfl
        obtain ⟨⟨t, e1, e2⟩, ⟨u, e3, e4⟩⟩ := ih l op r2 h4 hop
        have hl : l ≠ [] := by rintro rfl; simp at e1
        have hr : r2 ≠ [] := by rintro rfl; simp at e3
        refine ⟨⟨t, ?_, e2⟩, ⟨u, ?_, e4⟩⟩
        · obtain ⟨y, ys, rfl⟩ := List.exists_cons_of_ne_nil hl
          rw [List.getLast?_cons_cons]; exact e1
        · rw [List.head?_append_of_ne_nil _ hr]; exact e3
  | bin sl top sr hsl htop hsr ihl ihr =>
    intro l op r hs hop
    rcases List.append_eq_append_iff.mp hs with ⟨a, e1, e2⟩ | ⟨c, e1, e2⟩
    · -- the operator is `top` or stands in `sr`
      cases a with
      | nil =>
        simp only [List.append_nil, List.nil_append, List.cons.injEq] at e1 e2
        obtain ⟨-, e3⟩ := e2
        subst e1 e3
        exact ⟨(WellFormed.ends _ hsl).2, (WellFormed.ends _ hsr).1⟩
      | cons y a =>
        simp only [List.cons_append, List.cons.injEq] at e2
        obtain ⟨-, e3⟩ := e2
        obtain ⟨⟨t, f1, f2⟩, hright⟩ := ihr a op r e3 hop
        have ha : a ≠ [] := by rintro rfl; simp at f1
        refine ⟨⟨t, ?_, f2⟩, hright⟩
        rw [e1, List.getLast?_append_of_ne_nil _ (by simp)]
        obtain ⟨z, zs, rfl⟩ := List.exists_cons_of_ne_nil ha
        rw [List.getLast?_cons_cons]; exact f1
    · -- the operator is `top` or stands in `sl`
      cases c with
      | nil =>
        simp only [List.append_nil, List.nil_append, List.cons.injEq] at e1 e2
        obtain ⟨-, e3⟩ := e2
        subst e1 e3
        exact ⟨(WellFormed.ends _ hsl).2, (WellFormed.ends _ hsr).1⟩
      | cons y c =>
        simp only [List.cons_append, List.cons.injEq] at e2
        obtain ⟨e0, e3⟩ := e2
        subst e0
        obtain ⟨hleft, ⟨u, f1, f2⟩⟩ := ihl l op c e1 hop
        have hc : c ≠ [] := by rintro rfl; simp at f1
        refine ⟨hleft, ⟨u, ?_, f2⟩⟩
        rw [e3, List.head?_append_of_ne_nil _ hc]; exact f1

theorem WellFormed.not_missingOperand (s : List Token) (h : WellFormed s) :
    ¬ missingOperand s := by
  rintro ⟨l, op, r, hs, hop, hl | hr⟩
  · obtain ⟨⟨t, e1, e2⟩, -⟩ := WellFormed.operands s h l op r hs hop
    rw [hl t e1] at e2
    exact absurd e2 (by simp)
  · obtain ⟨-, ⟨t, e1, e2⟩⟩ := WellFormed.operands s h l op r hs hop
    rw [hr t e1] at e2
    exact absurd e2 (by simp)

/-! ## Where undefined behaviour can arise in `eval` -/

theorem eval_single_ne_undefined (M : Machine) (t : Token) :
    eval_single M t ≠ .undefined := by
  simp only [eval_single, eval_return]
  split
  · simp
  · split <;> simp

theorem eval_binary_undefined (w ty a b : Nat) (h : eval_binary w ty a b = .undefined) :
    ty = TK_DIV ∨ ty = TK_MOD := by
  simp only [eval_binary, eval_return] at h
  by_cases h4 : ty = TK_DIV
  · exact Or.inl h4
  by_cases h5 : ty = TK_MOD
  · exact Or.inr h5
  rw [if_neg h4, if_neg h5] at h
  repeat' split at h
  all_goals simp at h

/-- An undefined outcome of `eval` comes from a `/` or `%` of the range. -/
theorem evalF_undefined_inv (M : Machine) (toks : List Token) (f : Nat) :
    ∀ (st ed : Int), evalF M toks f st ed = .undefined →
      ∃ i, st ≤ i ∧ i ≤ ed
        ∧ ((tokenAt toks i).type = TK_DIV ∨ (tokenAt toks i).type = TK_MOD) := by
  induction f with
  | zero =>
    intro st ed h
    simp [evalF] at h
  | succ f ih =>
    intro st ed h
    rw [evalF_succ] at h
    by_cases h1 : st > ed
    · rw [if_pos h1] at h; exact absurd h (by simp)
    rw [if_neg h1] at h
    by_cases h2 : st = ed
    · rw [if_pos h2] at h; exact absurd h (eval_single_ne_undefined M _)
    rw [if_neg h2] at h
    by_cases h3 : check_parentheses toks st ed = true
    · rw [if_pos h3] at h
      cases hr : evalF M toks f (st + 1) (ed - 1) with
      | ret v s => rw [hr] at h; simp [eval_return] at h
      | abort => rw [hr] at h; simp at h
      | undefined =>
        obtain ⟨i, i1, i2, i3⟩ := ih _ _ hr
        exact ⟨i, by omega, by omega, i3⟩
      | nofuel => rw [hr] at h; simp at h
    rw [if_neg h3] at h
    by_cases h4 : ¬ (find_mainop toks st ed > 0)
    · rw [if_pos h4] at h; exact absurd h (by simp)
    rw [if_neg h4] at h
    have hrange : st ≤ find_mainop toks st ed ∧ find_mainop toks st ed ≤ ed := by
      rcases find_mainop_range toks st ed with h | h
      · omega
      · exact h
    cases hl : evalF M toks f st (find_mainop toks st ed - 1) with
    | ret lval lexpr =>
      rw [hl] at h
      cases hr : evalF M toks f (find_mainop toks st ed + 1) ed with
      | ret rval rexpr =>
        rw [hr] at h
        simp only at h
        split at h
        · exact absurd h (by simp)
        · exact ⟨_, hrange.1, hrange.2, eval_binary_undefined _ _ _ _ h⟩
      | abort => rw [hr] at h; simp at h
      | undefined =>
        obtain ⟨i, i1, i2, i3⟩ := ih _ _ hr
        exact ⟨i, by omega, by omega, i3⟩
      | nofuel => rw [hr] at h; simp at h
    | abort => rw [hl] at h; simp at h
    | undefined =>
      obtain ⟨i, i1, i2, i3⟩ := ih _ _ hl
      exact ⟨i, by omega, by omega, i3⟩
    | nofuel => rw [hl] at h; simp at h

theorem tokenAt_mem (toks : List Token) (i : Int) (h : (tokenAt toks i).type ≠ 0) :
    tokenAt toks i ∈ toks := by
  simp only [tokenAt] at h ⊢
  split
  · rename_i hi
    rw [if_pos hi] at h
    exact absurd rfl h
  · rename_i hi
    rw [if_neg hi] at h
    by_cases hlt : i.toNat < toks.length
    · rw [List.getD_eq_getElem _ _ hlt]
      exact List.getElem_mem hlt
    · rw [List.getD_eq_default _ _ (by omega)] at h
      exact absurd rfl h

/-- Without `/` and `%` among the tokens, `eval` has no undefined outcome. -/
theorem eval_ne_undefined (M : Machine) (toks : List Token) (st ed : Int)
    (h : ∀ t ∈ toks, t.type ≠ TK_DIV ∧ t.type ≠ TK_MOD) :
    eval M toks st ed ≠ .undefined := by
  intro hu
  obtain ⟨i, -, -, hi⟩ := evalF_undefined_inv M toks _ st ed hu
  have hmem : tokenAt toks i ∈ toks := by
    apply tokenAt_mem
    rcases hi with hi | hi <;> rw [hi] <;> decide
  have := h _ hmem
  rcases hi with hi | hi
  · exact this.1 hi
  · exact this.2 hi

/-! ## The number and register rules, and the spaces before a lexeme -/

theorem regexec_dec_head (e : List Char) (len : Nat) (h : regexec .dec e = some len) :
    ∃ c cs, e = c :: cs ∧ c.isDigit = true := by
  cases e with
  | nil => simp [regexec, spanLen] at h
  | cons c cs =>
    by_cases hc : c.isDigit = true
    · exact ⟨c, cs, rfl, hc⟩
    · rw [regexec_dec_none c cs (by simpa using hc)] at h
      exact absurd h (by simp)

theorem regexec_reg_head (e : List Char) (len : Nat) (h : regexec .reg e = some len) :
    ∃ cs, e = '$' :: cs := by
  cases e with
  | nil => simp [regexec, litMatch] at h
  | cons c cs =>
    by_cases hc : c = '$'
    · exact ⟨cs, by rw [hc]⟩
    · rw [regexec_reg_none c cs hc] at h
      exact absurd h (by simp)

/-- At a digit the `for` loop reaches the rule `[0-9]+u?`: the lexeme is stored whole
when it fits, and `Assert(substr_len < 32)` fails when it does not. -/
theorem tryRules_dec_match (n : Nat) (e : List Char) (len : Nat) (hn : n < 4096)
    (h : regexec .dec e = some len) :
    tryRules n rules e =
      if len < 32 then .tok (e.drop len) ⟨TK_DEC, e.take len⟩ else .abort := by
  obtain ⟨c, cs, rfl, hc⟩ := regexec_dec_head e len h
  obtain ⟨h1, h2, h3, h4, h5, h6, h7, h8, h9, h10, h11, h12, h13, h14⟩ := digit_ne c hc
  simp only [rules, tryRules, regexec_spaces_none _ _ h1, regexec_lit_none _ _ _ _ h2,
    regexec_lit_none _ _ _ _ h3, regexec_lit_none _ _ _ _ h4, regexec_lit_none _ _ _ _ h5,
    regexec_lit_none _ _ _ _ h6, regexec_lit_none _ _ _ _ h7, regexec_lit_none _ _ _ _ h8,
    regexec_lit_none _ _ _ _ h9, regexec_lit_none _ _ _ _ h10, regexec_lit_none _ _ _ _ h11,
    regexec_lit_none _ _ _ _ h12, h]
  simp [Nat.not_le.mpr hn]

/-- At a `$` the `for` loop reaches the register rule: the lexeme is stored whole when
it fits, and `Assert(substr_len < 32)` fails when it does not. -/
theorem tryRules_reg_match (n : Nat) (e : List Char) (len : Nat) (hn : n < 4096)
    (h : regexec .reg e = some len) :
    tryRules n rules e =
      if len < 32 then .tok (e.drop len) ⟨TK_REG, e.take len⟩ else .abort := by
  obtain ⟨cs, rfl⟩ := regexec_reg_head e len h
  simp only [rules, tryRules, regexec_spaces_none '$' cs (by decide),
    regexec_lit_none '+' '$' _ cs (by decide), regexec_lit_none '-' '$' _ cs (by decide),
    regexec_lit_none '*' '$' _ cs (by decide), regexec_lit_none '/' '$' _ cs (by decide),
    regexec_lit_none '%' '$' _ cs (by decide), regexec_lit_none '(' '$' _ cs (by decide),
    regexec_lit_none ')' '$' _ cs (by decide), regexec_lit_none '=' '$' _ cs (by decide),
    regexec_lit_none '!' '$' _ cs (by decide), regexec_lit_none '&' '$' _ cs (by decide),
    regexec_lit_none '|' '$' _ cs (by decide), regexec_dec_none '$' cs (by decide),
    regexec_hex_none '$' cs (by decide), h]
  simp [Nat.not_le.mpr hn]

theorem tryRules_skip_spaces_aux (n k : Nat) (rs : List Rule) (e : List Char)
    (he : ∀ c, e.head? = some c → c ≠ ' ') :
    tryRules n (⟨.spaces, TK_NOTYPE⟩ :: rs) (List.replicate (k + 1) ' ' ++ e) =
      tryRules n (⟨.spaces, TK_NOTYPE⟩ :: rs) e := by
  have hs : regexec .spaces (List.replicate (k + 1) ' ' ++ e) = some (k + 1) := by
    have h1 : spanLen (fun c => c == ' ') (List.replicate (k + 1) ' ' ++ e) = k + 1 := by
      rw [spanLen_append_all _ _ _ (by
        intro c hc
        simp only [List.mem_replicate] at hc
        simp [hc.2]), spanLen_stop _ _ (by
        intro c hc
        simpa using he c hc)]
      simp
    simp [regexec, h1]
  have he2 : regexec .spaces e = none := by
    cases e with
    | nil => simp [regexec, spanLen]
    | cons c cs => exact regexec_spaces_none c cs (he c rfl)
  have hd : (List.replicate (k + 1) ' ' ++ e).drop (k + 1) = e := by
    simp
  simp only [tryRules, hs, he2, if_true, hd]

/-- Spaces before a character that is no space are skipped within one pass of the
`for` loop: the rules after the first are tried behind them. -/
theorem tryRules_skip_spaces (n k : Nat) (e : List Char)
    (he : ∀ c, e.head? = some c → c ≠ ' ') :
    tryRules n rules (List.replicate k ' ' ++ e) = tryRules n rules e := by
  cases k with
  | zero => simp
  | succ k => exact tryRules_skip_spaces_aux n k rules.tail e he

/-- One pass of the `while` loop on an input that is not empty. -/
theorem make_tokenLoop_step (f n : Nat) (e : List Char) (he : e ≠ []) :
    make_tokenLoop (f + 1) n e =
      match tryRules n rules e with
      | .noMatch => .fail
      | .abort => .abort
      | .overflow => .overflow
      | .tok rest t => (make_tokenLoop f (n + 1) rest).cons t := by
  obtain ⟨c, cs, rfl⟩ := List.exists_cons_of_ne_nil he
  rfl

/-! ## The round trip of the lexer -/

theorem tryRules_div (n : Nat) (rest : List Char) (hn : n < 4096) :
    tryRules n rules ('/' :: rest) = .tok rest ⟨TK_DIV, []⟩ := by
  simp [rules, tryRules, regexec, spanLen, litMatch, Nat.not_le.mpr hn]

theorem tryRules_mod (n : Nat) (rest : List Char) (hn : n < 4096) :
    tryRules n rules ('%' :: rest) = .tok rest ⟨TK_MOD, []⟩ := by
  simp [rules, tryRules, regexec, spanLen, litMatch, Nat.not_le.mpr hn]

theorem tryRules_eq (n : Nat) (rest : List Char) (hn : n < 4096) :
    tryRules n rules ('=' :: '=' :: rest) = .tok rest ⟨TK_EQ, []⟩ := by
  simp [rules, tryRules, regexec, spanLen, litMatch, Nat.not_le.mpr hn]

theorem tryRules_neq (n : Nat) (rest : List Char) (hn : n < 4096) :
    tryRules n rules ('!' :: '=' :: rest) = .tok rest ⟨TK_NEQ, []⟩ := by
  simp [rules, tryRules, regexec, spanLen, litMatch, Nat.not_le.mpr hn]

theorem tryRules_and (n : Nat) (rest : List Char) (hn : n < 4096) :
    tryRules n rules ('&' :: '&' :: rest) = .tok rest ⟨TK_AND, []⟩ := by
  simp [rules, tryRules, regexec, spanLen, litMatch, Nat.not_le.mpr hn]

theorem tryRules_or (n : Nat) (rest : List Char) (hn : n < 4096) :
    tryRules n rules ('|' :: '|' :: rest) = .tok rest ⟨TK_OR, []⟩ := by
  simp [rules, tryRules, regexec, spanLen, litMatch, Nat.not_le.mpr hn]

/-- A register name that is not followed by a character of a-z or 0-9 is one token. -/
theorem tryRules_reg (n : Nat) (r rest : List Char) (hn : n < 4096) (hr : r ≠ [])
    (hall : ∀ c ∈ r, isRegChar c = true) (hlen : r.length + 1 < 32)
    (hrest : ∀ c, rest.head? = some c → isRegChar c = false) :
    tryRules n rules ('$' :: (r ++ rest)) = .tok rest ⟨TK_REG, '$' :: r⟩ := by
  have h1 : spanLen isRegChar (r ++ rest) = r.length := by
    rw [spanLen_append_all _ _ _ hall, spanLen_stop _ _ hrest]; rfl
  have h2 : 0 < r.length := List.length_pos.mpr hr
  have hm : regexec .reg ('$' :: (r ++ rest)) = some (1 + r.length) := by
    simp [regexec, litMatch, h1, h2]
  rw [tryRules_reg_match n _ _ hn hm, if_pos (by omega)]
  have e1 : ('$' :: (r ++ rest)).drop (1 + r.length) = rest := by
    rw [Nat.add_comm, List.drop_succ_cons]; exact List.drop_left _ _
  have e2 : ('$' :: (r ++ rest)).take (1 + r.length) = '$' :: r := by
    rw [Nat.add_comm, List.take_succ_cons, List.take_left]
  rw [e1, e2]

/-- The shapes of a valid lexeme. -/
theorem Lexeme.valid_cases (t : Lexeme) (hv : t.valid = true) :
    (∃ d, d ≠ [] ∧ (∀ c ∈ d, c.isDigit = true) ∧ d.length < 32 ∧ t = ⟨TK_DEC, d⟩)
      ∨ (∃ d, d ≠ [] ∧ (∀ c ∈ d, c.isDigit = true) ∧ d.length + 1 < 32
          ∧ t = ⟨TK_DEC, d ++ ['u']⟩)
      ∨ (∃ r, r ≠ [] ∧ (∀ c ∈ r, isRegChar c = true) ∧ r.length + 1 < 32
          ∧ t = ⟨TK_REG, '$' :: r⟩)
      ∨ t ∈ operatorLexemes := by
  obtain ⟨kind, text⟩ := t
  simp only [Lexeme.valid, Bool.or_eq_true, Bool.and_eq_true, beq_iff_eq,
    decide_eq_true_eq] at hv
  rcases hv with (⟨⟨hk, ht⟩, hl⟩ | ⟨⟨hk, ht⟩, hl⟩) | hop
  · subst hk
    simp only [isDecimalText, Bool.or_eq_true, Bool.and_eq_true, beq_iff_eq] at ht
    rcases ht with ht | ⟨hu, ht⟩
    · obtain ⟨h1, h2⟩ := (isDecimalLiteral_iff text).mp ht
      exact Or.inl ⟨text, h1, h2, by omega, rfl⟩
    · obtain ⟨h1, h2⟩ := (isDecimalLiteral_iff _).mp ht
      have h3 : text.dropLast ++ ['u'] = text :=
        List.dropLast_append_getLast? 'u' (by simp [hu])
      refine Or.inr (Or.inl ⟨text.dropLast, h1, h2, ?_, by rw [h3]⟩)
      have := congrArg List.length h3
      simp only [List.length_append, List.length_cons, List.length_nil] at this
      omega
  · subst hk
    cases text with
    | nil => simp [isRegisterText] at ht
    | cons c r =>
      simp only [isRegisterText, Bool.and_eq_true, beq_iff_eq, Bool.not_eq_true',
        List.isEmpty_eq_false, List.all_eq_true] at ht
      obtain ⟨⟨hc, hr⟩, hall⟩ := ht
      subst hc
      simp only [List.length_cons] at hl
      exact Or.inr (Or.inr (Or.inl ⟨r, by simpa using hr, hall, by omega, rfl⟩))
  · exact Or.inr (Or.inr (Or.inr hop))

/-- The pass of the `for` loop at the text of a valid lexeme, followed by the end of
the input or by a space, stores the lexeme. -/
theorem tryRules_lexeme (n : Nat) (t : Lexeme) (X : List Char) (hv : t.valid = true)
    (hn : n < 4096) (hX : ∀ c, X.head? = some c → c = ' ') :
    tryRules n rules (t.text ++ X) = .tok X t.stored := by
  rcases Lexeme.valid_cases t hv with ⟨d, h1, h2, h3, rfl⟩ | ⟨d, h1, h2, h3, rfl⟩
    | ⟨r, h1, h2, h3, rfl⟩ | hop
  · simp only [Lexeme.stored, true_or, if_true]
    exact tryRules_dec n d X hn h1 h2 h3 (by
      intro c hc
      rw [hX c hc]
      exact ⟨by decide, by decide⟩)
  · simp only [Lexeme.stored, true_or, if_true, List.append_assoc, List.singleton_append]
    exact tryRules_dec_u n d X hn h1 h2 h3
  · have : (TK_REG = TK_DEC ∨ TK_REG = TK_REG) := Or.inr rfl
    simp only [Lexeme.stored, this, if_true, List.cons_append]
    exact tryRules_reg n r X hn h1 h2 h3 (by
      intro c hc
      rw [hX c hc]
      decide)
  · simp only [operatorLexemes, List.mem_cons, List.mem_singleton, List.not_mem_nil,
      or_false] at hop
    rcases hop with rfl | rfl | rfl | rfl | rfl | rfl | rfl | rfl | rfl | rfl | rfl
    · exact tryRules_add n X hn
    · exact tryRules_sub n X hn
    · exact tryRules_mul n X hn
    · exact tryRules_div n X hn
    · exact tryRules_mod n X hn
    · exact tryRules_lbra n X hn
    · exact tryRules_rbra n X hn
    · exact tryRules_eq n X hn
    · exact tryRules_neq n X hn
    · exact tryRules_and n X hn
    · exact tryRules_or n X hn

/-- The text of a valid lexeme starts with a character that is no space. -/
theorem Lexeme.text_head (t : Lexeme) (hv : t.valid = true) :
    ∃ c cs, t.text = c :: cs ∧ c ≠ ' ' := by
  rcases Lexeme.valid_cases t hv with ⟨d, h1, h2, h3, rfl⟩ | ⟨d, h1, h2, h3, rfl⟩
    | ⟨r, h1, h2, h3, rfl⟩ | hop
  · obtain ⟨c, cs, rfl⟩ := List.exists_cons_of_ne_nil h1
    exact ⟨c, cs, rfl, (digit_ne c (h2 c (by simp))).1⟩
  · obtain ⟨c, cs, rfl⟩ := List.exists_cons_of_ne_nil h1
    exact ⟨c, cs ++ ['u'], rfl, (digit_ne c (h2 c (by simp))).1⟩
  · exact ⟨'$', r, rfl, by decide⟩
  · simp only [operatorLexemes, List.mem_cons, List.mem_singleton, List.not_mem_nil,
      or_false] at hop
    rcases hop with rfl | rfl | rfl | rfl | rfl | rfl | rfl | rfl | rfl | rfl | rfl
    all_goals exact ⟨_, _, rfl, by decide⟩

/-- One space before a character that is no space is skipped by the `while` loop. -/
theorem make_tokenLoop_space (f n : Nat) (J : List Char) (hf : J.length + 1 ≤ f)
    (hJ : ∃ c cs, J = c :: cs ∧ c ≠ ' ') :
    make_tokenLoop f n (' ' :: J) = make_tokenLoop J.length n J := by
  obtain ⟨c, cs, rfl, hc⟩ := hJ
  have hskip := tryRules_skip_spaces n 1 (c :: cs) (by
    intro x hx
    simp only [List.head?_cons, Option.some.injEq] at hx
    subst hx
    exact hc)
  simp only [List.replicate_one, List.singleton_append] at hskip
  obtain ⟨g, rfl⟩ : ∃ g, f = g + 1 := ⟨f - 1, by omega⟩
  simp only [List.length_cons] at hf ⊢
  rw [make_tokenLoop_step g n _ (by simp), make_tokenLoop_step cs.length n _ (by simp), hskip]
  cases hr : tryRules n rules (c :: cs) with
  | noMatch => rfl
  | abort => rfl
  | overflow => rfl
  | tok rest t =>
    have hlt := tryRules_rest_lt n rules rules_ne_lit_nil _ _ _ hr
    simp only [List.length_cons] at hlt
    simp only
    rw [make_tokenLoop_fuel2 g cs.length (n + 1) rest (by omega) (by omega)]

theorem joinTexts_cons (t : Lexeme) (ts : List Lexeme) :
    joinTexts (t :: ts) = t.text ++ (if ts = [] then [] else ' ' :: joinTexts ts) := by
  cases ts with
  | nil => simp [joinTexts]
  | cons t2 ts => simp [joinTexts]

/-- The tokens of the texts of valid lexemes, joined by single spaces. -/
theorem make_tokenLoop_joinTexts (ts : List Lexeme) :
    ∀ n : Nat, n + ts.length ≤ 4096 → (∀ t ∈ ts, t.valid = true) →
      make_tokenLoop (joinTexts ts).length n (joinTexts ts) = .ok (ts.map Lexeme.stored) := by
  induction ts with
  | nil =>
    intro n _ _
    rfl
  | cons t ts ih =>
    intro n hn hv
    simp only [List.length_cons] at hn
    have hvt := hv t (by simp)
    rw [joinTexts_cons]
    by_cases hts : ts = []
    · subst hts
      rw [if_pos rfl]
      have hstep := tryRules_lexeme n t [] hvt (by omega) (by simp)
      rw [make_tokenLoop_tok _ n _ _ _ (le_refl _) hstep]
      rfl
    · rw [if_neg hts]
      have hstep := tryRules_lexeme n t (' ' :: joinTexts ts) hvt (by omega) (by simp)
      rw [make_tokenLoop_tok _ n _ _ _ (le_refl _) hstep]
      obtain ⟨t2, ts2, rfl⟩ := List.exists_cons_of_ne_nil hts
      have hJ : ∃ c cs, joinTexts (t2 :: ts2) = c :: cs ∧ c ≠ ' ' := by
        obtain ⟨c, cs, h1, h2⟩ := Lexeme.text_head t2 (hv t2 (by simp))
        rw [joinTexts_cons, h1]
        exact ⟨c, _, rfl, h2⟩
      rw [make_tokenLoop_space _ (n + 1) _ (by simp) hJ,
        ih (n + 1) (by simp only [List.length_cons] at hn ⊢; omega)
          (fun x hx => hv x (by simp [hx]))]
      rfl

/-! ## The claims -/

/-- C1: let `e` be a rendering of an expression tree over decimal literals without
leading zero and with value below `2 ^ wordBits`, with parentheses wherever precedence
or left-associativity requires them and possibly elsewhere, and let no `/` or `%` of the
tree have a right operand of value zero. Then `eval` over the whole token range
`(0, n-1)` returns the value of the tree in arithmetic modulo `2 ^ wordBits`, with
success. (`word_t` is no wider than `unsigned long`.) -/
theorem C1_eval_renders_tree (M : Machine) (e : PExpr) (hw : M.wordBits ≤ M.ulongBits)
    (hl : e.tree.litsOK (2 ^ M.wordBits) = true) (hp : e.parensOK = true)
    (hd : e.tree.divisorsNonzero M.wordBits = true) :
    eval M e.tokens 0 ((e.tokens.length : Int) - 1) = .ret (e.tree.value M.wordBits) true := by
  rw [eval_tokens M e (Tree.litsOK_mono _ _ (Nat.pow_le_pow_right (by decide) hw) _ hl) hp]
  simp [treeOutcome, hd]

/-- C1, witness: the theorem at the rendering `9u-3-((8)/(2u*2))` on a 32-bit guest. -/
theorem C1_eval_renders_tree_witness :
    (machine32 failingResolver).wordBits ≤ (machine32 failingResolver).ulongBits
      ∧ sampleRendering.tree.litsOK (2 ^ (machine32 failingResolver).wordBits) = true
      ∧ sampleRendering.parensOK = true
      ∧ sampleRendering.tree.divisorsNonzero (machine32 failingResolver).wordBits = true
      ∧ eval (machine32 failingResolver) sampleRendering.tokens 0
          ((sampleRendering.tokens.length : Int) - 1)
        = .ret (sampleRendering.tree.value (machine32 failingResolver).wordBits) true :=
  ⟨by decide, by decide, by decide, by decide,
    C1_eval_renders_tree (machine32 failingResolver) sampleRendering
      (by decide) (by decide) (by decide) (by decide)⟩

/-- C3, as stated, fails at the capacity of the token array: the literal `1` inside 2047
pairs of brackets has 4095 tokens and evaluates to 1; inside one more pair it needs 4097
tokens, and `make_token` stores behind the end of `tokens[4096]`. -/
theorem C3_counterexample :
    ¬ (∀ (M : Machine) (e : List Char) (v : Nat), expr M e = .ret v true →
        expr M ('(' :: (e ++ [')'])) = .ret v true) := by
  intro h
  have h1 := h (machine32 failingResolver) (nestInput 2047) 1
    (expr_nestInput failingResolver 2047 (by decide))
  rw [nestInput_succ, expr_nestInput_overflow _ 2048 (by decide) (by decide)] at h1
  exact absurd h1 (by simp)

/-- C3 (amended): if `e` evaluates successfully to `v` and its tokens together with two
brackets fit the token array (at most 4094 tokens), then `(e)` evaluates successfully
to `v`. -/
theorem C3_parentheses_wrap (M : Machine) (e : List Char) (toks : List Token) (v : Nat)
    (hm : make_token e = .ok toks) (hn : toks.length + 2 ≤ 4096)
    (h : expr M e = .ret v true) :
    expr M ('(' :: (e ++ [')'])) = .ret v true := by
  simp only [expr, hm] at h
  simp only [expr, make_token_wrap e toks hm hn]
  exact eval_wrap M toks v h

/-- C3, witness: the theorem at the input `5u-$pc` with a register file that gives 3. -/
theorem C3_parentheses_wrap_witness :
    make_token ['5', 'u', '-', '$', 'p', 'c'] =
        .ok [⟨TK_DEC, ['5', 'u']⟩, ⟨TK_SUB, []⟩, ⟨TK_REG, ['$', 'p', 'c']⟩]
      ∧ expr (machine32 (fun _ => (3, true))) ['5', 'u', '-', '$', 'p', 'c'] = .ret 2 true
      ∧ expr (machine32 (fun _ => (3, true)))
          ('(' :: (['5', 'u', '-', '$', 'p', 'c'] ++ [')'])) = .ret 2 true :=
  ⟨by decide, by decide,
    C3_parentheses_wrap (machine32 (fun _ => (3, true))) ['5', 'u', '-', '$', 'p', 'c']
      [⟨TK_DEC, ['5', 'u']⟩, ⟨TK_SUB, []⟩, ⟨TK_REG, ['$', 'p', 'c']⟩] 2
      (by decide) (by decide) (by decide)⟩



/-- C4 (the code departs from the claim): a register that the register file does not
know still gives `ok = true`. For `$bogus` the lexer stores one `TK_REG` token, `eval`
passes `success` to `isa_reg_str2val`, and the closing `*success = true` replaces
whatever was stored there; with the resolver that always fails the result is the value
0 together with success. -/
theorem C4_register_failure_overwritten (M : Machine) :
    expr M ['$', 'b', 'o', 'g', 'u', 's'] =
        .ret ((M.isa_reg_str2val ['b', 'o', 'g', 'u', 's']).1 % 2 ^ M.wordBits) true
      ∧ expr (machine32 failingResolver) ['$', 'b', 'o', 'g', 'u', 's'] = .ret 0 true := by
  constructor <;> rfl

/-- C5 (the code departs from the claim): `==`, `!=`, `&&` and `||` are lexed and
chosen as main operator, but the `switch` of `eval` has no case for them and ends in
`Assert(0)`: each of `1==1`, `1!=2`, `1&&1`, `0||1` aborts instead of giving 0 or 1. -/
theorem C5_comparison_operators_abort (M : Machine) :
    expr M ['1', '=', '=', '1'] = .abort ∧ expr M ['1', '!', '=', '2'] = .abort
      ∧ expr M ['1', '&', '&', '1'] = .abort ∧ expr M ['0', '|', '|', '1'] = .abort := by
  refine ⟨?_, ?_, ?_, ?_⟩ <;> rfl

/-- C6 (the code departs from the claim): `0x10` is not lexed as one number. The rule
`[0-9]+u?` stands before the hex rule and takes the `0`; nothing matches at `x`, so
`make_token` fails and `expr` returns 0 with `ok = false`, while `16` evaluates to 16. -/
theorem C6_hex_literal_not_lexed (M : Machine) :
    make_token ['0', 'x', '1', '0'] = .fail
      ∧ expr M ['0', 'x', '1', '0'] = .ret 0 false
      ∧ expr (machine32 M.isa_reg_str2val) ['1', '6'] = .ret 16 true := by
  refine ⟨?_, ?_, ?_⟩ <;> rfl


/-- C7, as stated, fails: `010`, `1` and `1` are decimal literals, and `010-1-1`
evaluates to 6, not to `(10 - 1) - 1 = 8`: `strtoul` with base 0 reads `010` in base 8. -/
theorem C7_counterexample :
    ¬ (∀ (M : Machine) (a b c : List Char), isDecimalLiteral a = true →
        isDecimalLiteral b = true → isDecimalLiteral c = true →
        ∃ v, expr M (a ++ '-' :: (b ++ '-' :: c)) = .ret v true
          ∧ (v : Int) = (((decimalValue a : Int) - decimalValue b) - decimalValue c)
              % 2 ^ M.wordBits) := by
  intro h
  obtain ⟨v, hv, hval⟩ := h (machine32 failingResolver) ['0', '1', '0'] ['1'] ['1']
    (by decide) (by decide) (by decide)
  have he : expr (machine32 failingResolver) (['0', '1', '0'] ++ '-' :: (['1'] ++ '-' :: ['1']))
      = .ret 6 true := by decide
  rw [he] at hv
  injection hv with hv _
  subst hv
  exact absurd hval (by decide)

/-- C7 (amended): for decimal literals `a`, `b`, `c` of at most 31 digits each (digit
strings that fit a lexeme) the input `a-b-c` evaluates successfully to `(va - vb) - vc`
reduced modulo `2 ^ wordBits`, where `va`, `vb`, `vc` are the values the three literals
evaluate to on their own; for a literal without leading zero that fits `unsigned long`
this is its base-10 value modulo `2 ^ wordBits`. The split is at the second `-`. In
particular `5-3-1` gives 1 (and not 3). -/
theorem C7_subtraction_left_assoc (M : Machine) (a b c : List Char)
    (ha : isDecimalLiteral a = true) (hb : isDecimalLiteral b = true)
    (hc : isDecimalLiteral c = true) (hla : a.length ≤ 31) (hlb : b.length ≤ 31)
    (hlc : c.length ≤ 31) :
    (∃ va vb vc v, expr M a = .ret va true ∧ expr M b = .ret vb true
        ∧ expr M c = .ret vc true
        ∧ expr M (a ++ '-' :: (b ++ '-' :: c)) = .ret v true
        ∧ v < 2 ^ M.wordBits
        ∧ (v : Int) = (((va : Int) - vb) - vc) % 2 ^ M.wordBits
        ∧ (noLeadingZero a = true → decimalValue a < 2 ^ M.ulongBits →
            va = decimalValue a % 2 ^ M.wordBits)
        ∧ (noLeadingZero b = true → decimalValue b < 2 ^ M.ulongBits →
            vb = decimalValue b % 2 ^ M.wordBits)
        ∧ (noLeadingZero c = true → decimalValue c < 2 ^ M.ulongBits →
            vc = decimalValue c % 2 ^ M.wordBits))
      ∧ expr (machine32 M.isa_reg_str2val) ['5', '-', '3', '-', '1'] = .ret 1 true
      ∧ expr (machine64 M.isa_reg_str2val) ['5', '-', '3', '-', '1'] = .ret 1 true := by
  refine ⟨?_, (expr_5_sub_3_sub_1 _).1, (expr_5_sub_3_sub_1 _).2⟩
  have hpos : 0 < 2 ^ M.wordBits := Nat.two_pow_pos _
  refine ⟨_, _, _, wsub M.wordBits (wsub M.wordBits (strtoul M.ulongBits a % 2 ^ M.wordBits)
      (strtoul M.ulongBits b % 2 ^ M.wordBits)) (strtoul M.ulongBits c % 2 ^ M.wordBits),
    expr_single_dec M a a (make_token_literal a ha hla),
    expr_single_dec M b b (make_token_literal b hb hlb),
    expr_single_dec M c c (make_token_literal c hc hlc), ?_, ?_, ?_,
    fun hz hv => by rw [strtoul_canonical _ a ha hz hv],
    fun hz hv => by rw [strtoul_canonical _ b hb hz hv],
    fun hz hv => by rw [strtoul_canonical _ c hc hz hv]⟩
  · simp only [expr, make_token_a_op_b_op_c a b c '-' '-' TK_SUB TK_SUB ha hb hc hla hlb hlc
      (by decide) (by decide) tryRules_sub tryRules_sub]
    exact eval_a_sub_b_sub_c M a b c
  · exact Nat.mod_lt _ hpos
  · rw [wsub_int _ _ _ (Nat.mod_lt _ hpos), wsub_int _ _ _ (Nat.mod_lt _ hpos)]
    rw [Int.sub_emod, Int.emod_emod, ← Int.sub_emod]

/-- C7 (amended), witness: the theorem at the literals `7`, `10` and `2`. -/
theorem C7_subtraction_left_assoc_witness :
    isDecimalLiteral ['7'] = true ∧ isDecimalLiteral ['1', '0'] = true
      ∧ isDecimalLiteral ['2'] = true
      ∧ ((∃ va vb vc v, expr (machine32 failingResolver) ['7'] = .ret va true
          ∧ expr (machine32 failingResolver) ['1', '0'] = .ret vb true
          ∧ expr (machine32 failingResolver) ['2'] = .ret vc true
          ∧ expr (machine32 failingResolver) (['7'] ++ '-' :: (['1', '0'] ++ '-' :: ['2']))
              = .ret v true
          ∧ v < 2 ^ (machine32 failingResolver).wordBits
          ∧ (v : Int) = (((va : Int) - vb) - vc) % 2 ^ (machine32 failingResolver).wordBits
          ∧ (noLeadingZero ['7'] = true →
              decimalValue ['7'] < 2 ^ (machine32 failingResolver).ulongBits →
              va = decimalValue ['7'] % 2 ^ (machine32 failingResolver).wordBits)
          ∧ (noLeadingZero ['1', '0'] = true →
              decimalValue ['1', '0'] < 2 ^ (machine32 failingResolver).ulongBits →
              vb = decimalValue ['1', '0'] % 2 ^ (machine32 failingResolver).wordBits)
          ∧ (noLeadingZero ['2'] = true →
              decimalValue ['2'] < 2 ^ (machine32 failingResolver).ulongBits →
              vc = decimalValue ['2'] % 2 ^ (machine32 failingResolver).wordBits))
        ∧ expr (machine32 (machine32 failingResolver).isa_reg_str2val)
            ['5', '-', '3', '-', '1'] = .ret 1 true
        ∧ expr (machine64 (machine32 failingResolver).isa_reg_str2val)
            ['5', '-', '3', '-', '1'] = .ret 1 true) :=
  ⟨by decide, by decide, by decide,
    C7_subtraction_left_assoc (machine32 failingResolver) ['7'] ['1', '0'] ['2']
      (by decide) (by decide) (by decide) (by decide) (by decide) (by decide)⟩

/-- C8, as stated, fails: `08`, `1` and `2` are decimal literals, and `08+1*2` evaluates
to 2, not to `8 + 1 * 2 = 10`: `strtoul` with base 0 takes the leading `0` of `08` as the
octal mark and stops at `8`, so the literal counts as 0. -/
theorem C8_counterexample :
    ¬ (∀ (M : Machine) (a b c : List Char), isDecimalLiteral a = true →
        isDecimalLiteral b = true → isDecimalLiteral c = true →
        expr M (a ++ '+' :: (b ++ '*' :: c))
            = .ret ((decimalValue a + decimalValue b * decimalValue c) % 2 ^ M.wordBits) true
          ∧ expr M ('(' :: (a ++ '+' :: (b ++ ')' :: '*' :: c)))
            = .ret (((decimalValue a + decimalValue b) * decimalValue c) % 2 ^ M.wordBits)
                true) := by
  intro h
  have h1 := (h (machine32 failingResolver) ['0', '8'] ['1'] ['2'] (by decide) (by decide)
    (by decide)).1
  have he : expr (machine32 failingResolver) (['0', '8'] ++ '+' :: (['1'] ++ '*' :: ['2']))
      = .ret 2 true := by decide
  rw [he] at h1
  exact absurd h1 (by decide)

/-- C8 (amended): for decimal literals `a`, `b`, `c` of at most 31 digits each the input
`a+b*c` evaluates to `va + vb * vc` and `(a+b)*c` to `(va + vb) * vc`, both reduced
modulo `2 ^ wordBits`, where `va`, `vb`, `vc` are the values the literals evaluate to on
their own; for a literal without leading zero that fits `unsigned long` this is its
base-10 value modulo `2 ^ wordBits`. In particular `2+3*4` gives 14 and `(2+3)*4` gives
20. -/
theorem C8_precedence (M : Machine) (a b c : List Char)
    (ha : isDecimalLiteral a = true) (hb : isDecimalLiteral b = true)
    (hc : isDecimalLiteral c = true) (hla : a.length ≤ 31) (hlb : b.length ≤ 31)
    (hlc : c.length ≤ 31) :
    (∃ va vb vc, expr M a = .ret va true ∧ expr M b = .ret vb true
        ∧ expr M c = .ret vc true
        ∧ expr M (a ++ '+' :: (b ++ '*' :: c)) = .ret ((va + vb * vc) % 2 ^ M.wordBits) true
        ∧ expr M ('(' :: (a ++ '+' :: (b ++ ')' :: '*' :: c)))
            = .ret (((va + vb) * vc) % 2 ^ M.wordBits) true
        ∧ (noLeadingZero a = true → decimalValue a < 2 ^ M.ulongBits →
            va = decimalValue a % 2 ^ M.wordBits)
        ∧ (noLeadingZero b = true → decimalValue b < 2 ^ M.ulongBits →
            vb = decimalValue b % 2 ^ M.wordBits)
        ∧ (noLeadingZero c = true → decimalValue c < 2 ^ M.ulongBits →
            vc = decimalValue c % 2 ^ M.wordBits))
      ∧ expr (machine32 M.isa_reg_str2val) ['2', '+', '3', '*', '4'] = .ret 14 true
      ∧ expr (machine32 M.isa_reg_str2val) ['(', '2', '+', '3', ')', '*', '4'] = .ret 20 true
      ∧ expr (machine64 M.isa_reg_str2val) ['2', '+', '3', '*', '4'] = .ret 14 true
      ∧ expr (machine64 M.isa_reg_str2val) ['(', '2', '+', '3', ')', '*', '4']
          = .ret 20 true := by
  refine ⟨?_, (expr_2_add_3_mul_4 _).1, (expr_p2_add_3p_mul_4 _).1, (expr_2_add_3_mul_4 _).2,
    (expr_p2_add_3p_mul_4 _).2⟩
  refine ⟨_, _, _, expr_single_dec M a a (make_token_literal a ha hla),
    expr_single_dec M b b (make_token_literal b hb hlb),
    expr_single_dec M c c (make_token_literal c hc hlc), ?_, ?_,
    fun hz hv => by rw [strtoul_canonical _ a ha hz hv],
    fun hz hv => by rw [strtoul_canonical _ b hb hz hv],
    fun hz hv => by rw [strtoul_canonical _ c hc hz hv]⟩
  · simp only [expr, make_token_a_op_b_op_c a b c '+' '*' TK_ADD TK_MUL ha hb hc hla hlb hlc
      (by decide) (by decide) tryRules_add tryRules_mul]
    rw [show (([⟨TK_DEC, a⟩, ⟨TK_ADD, []⟩, ⟨TK_DEC, b⟩, ⟨TK_MUL, []⟩, ⟨TK_DEC, c⟩] :
      List Token).length : Int) - 1 = 4 from rfl, eval_a_add_b_mul_c]
    congr 1
    rw [Nat.add_mod_mod]
  · simp only [expr, make_token_pa_add_b_mul_c a b c ha hb hc hla hlb hlc]
    rw [show (([⟨TK_LBRA, []⟩, ⟨TK_DEC, a⟩, ⟨TK_ADD, []⟩, ⟨TK_DEC, b⟩, ⟨TK_RBRA, []⟩,
      ⟨TK_MUL, []⟩, ⟨TK_DEC, c⟩] : List Token).length : Int) - 1 = 6 from rfl,
      eval_pa_add_b_mul_c]
    congr 1
    rw [Nat.mod_mul_mod]


/-- C8 (amended), witness: the theorem at the literals `7`, `10` and `2`. -/
theorem C8_precedence_witness :
    isDecimalLiteral ['7'] = true ∧ isDecimalLiteral ['1', '0'] = true
      ∧ isDecimalLiteral ['2'] = true
      ∧ ((∃ va vb vc, expr (machine32 failingResolver) ['7'] = .ret va true
          ∧ expr (machine32 failingResolver) ['1', '0'] = .ret vb true
          ∧ expr (machine32 failingResolver) ['2'] = .ret vc true
          ∧ expr (machine32 failingResolver) (['7'] ++ '+' :: (['1', '0'] ++ '*' :: ['2']))
              = .ret ((va + vb * vc) % 2 ^ (machine32 failingResolver).wordBits) true
          ∧ expr (machine32 failingResolver)
              ('(' :: (['7'] ++ '+' :: (['1', '0'] ++ ')' :: '*' :: ['2'])))
              = .ret (((va + vb) * vc) % 2 ^ (machine32 failingResolver).wordBits) true
          ∧ (noLeadingZero ['7'] = true →
              decimalValue ['7'] < 2 ^ (machine32 failingResolver).ulongBits →
              va = decimalValue ['7'] % 2 ^ (machine32 failingResolver).wordBits)
          ∧ (noLeadingZero ['1', '0'] = true →
              decimalValue ['1', '0'] < 2 ^ (machine32 failingResolver).ulongBits →
              vb = decimalValue ['1', '0'] % 2 ^ (machine32 failingResolver).wordBits)
          ∧ (noLeadingZero ['2'] = true →
              decimalValue ['2'] < 2 ^ (machine32 failingResolver).ulongBits →
              vc = decimalValue ['2'] % 2 ^ (machine32 failingResolver).wordBits))
        ∧ expr (machine32 (machine32 failingResolver).isa_reg_str2val)
            ['2', '+', '3', '*', '4'] = .ret 14 true
        ∧ expr (machine32 (machine32 failingResolver).isa_reg_str2val)
            ['(', '2', '+', '3', ')', '*', '4'] = .ret 20 true
        ∧ expr (machine64 (machine32 failingResolver).isa_reg_str2val)
            ['2', '+', '3', '*', '4'] = .ret 14 true
        ∧ expr (machine64 (machine32 failingResolver).isa_reg_str2val)
            ['(', '2', '+', '3', ')', '*', '4'] = .ret 20 true) :=
  ⟨by decide, by decide, by decide,
    C8_precedence (machine32 failingResolver) ['7'] ['1', '0'] ['2']
      (by decide) (by decide) (by decide) (by decide) (by decide) (by decide)⟩

/-- C9, as stated, fails: a literal of 31 digits evaluates on its own, but with the
suffix `u` its lexeme has 32 characters and `Assert(substr_len < 32)` ends the run. -/
theorem C9_counterexample :
    ¬ (∀ (M : Machine) (d : List Char) (v : Nat), isDecimalLiteral d = true →
        expr M d = .ret v true → expr M (d ++ ['u']) = .ret v true) := by
  intro h
  have h1 := h (machine32 failingResolver) (List.replicate 31 '1') 4294967295 (by decide)
    (by decide)
  exact absurd h1 (by decide)

/-- C9 (amended): for every decimal literal `d` of at most 30 digits, `d` and `d`
followed by `u` both evaluate successfully and to the same value; in particular `5u+3`
and `5+3` both give 8. -/
theorem C9_unsigned_suffix_inert (M : Machine) (d : List Char)
    (hd : isDecimalLiteral d = true) (hlen : d.length ≤ 30) :
    (∃ v, expr M d = .ret v true ∧ expr M (d ++ ['u']) = .ret v true)
      ∧ expr (machine32 M.isa_reg_str2val) ['5', 'u', '+', '3'] = .ret 8 true
      ∧ expr (machine32 M.isa_reg_str2val) ['5', '+', '3'] = .ret 8 true
      ∧ expr (machine64 M.isa_reg_str2val) ['5', 'u', '+', '3'] = .ret 8 true
      ∧ expr (machine64 M.isa_reg_str2val) ['5', '+', '3'] = .ret 8 true := by
  refine ⟨⟨_, expr_single_dec M d d (make_token_literal d hd (by omega)), ?_⟩,
    expr_5u_add_3 _⟩
  rw [expr_single_dec M (d ++ ['u']) (d ++ ['u']) (make_token_literal_u d hd hlen),
    strtoul_append_u _ _ hd]

/-- C9, witness: the theorem at the literal `42`. -/
theorem C9_unsigned_suffix_inert_witness :
    isDecimalLiteral ['4', '2'] = true ∧ ['4', '2'].length ≤ 30
      ∧ ((∃ v, expr (machine32 failingResolver) ['4', '2'] = .ret v true
          ∧ expr (machine32 failingResolver) (['4', '2'] ++ ['u']) = .ret v true)
        ∧ expr (machine32 (machine32 failingResolver).isa_reg_str2val) ['5', 'u', '+', '3']
            = .ret 8 true
        ∧ expr (machine32 (machine32 failingResolver).isa_reg_str2val) ['5', '+', '3']
            = .ret 8 true
        ∧ expr (machine64 (machine32 failingResolver).isa_reg_str2val) ['5', 'u', '+', '3']
            = .ret 8 true
        ∧ expr (machine64 (machine32 failingResolver).isa_reg_str2val) ['5', '+', '3']
            = .ret 8 true) :=
  ⟨by decide, by decide,
    C9_unsigned_suffix_inert (machine32 failingResolver) ['4', '2'] (by decide) (by decide)⟩

/-- C10, as stated, fails: `010` has the base-10 value 10 but is read in base 8 and
evaluates to 8. -/
theorem C10_counterexample :
    ¬ (∀ (M : Machine) (d : List Char), isDecimalLiteral d = true → d.length ≤ 31 →
        expr M d = .ret (decimalValue d % 2 ^ M.wordBits) true) := by
  intro h
  have h1 := h (machine32 failingResolver) ['0', '1', '0'] (by decide) (by decide)
  exact absurd h1 (by decide)

/-- C10 (amended): a decimal literal of at most 31 digits without a leading zero
evaluates successfully; the result is its base-10 value reduced modulo `2 ^ wordBits`
when that value fits `unsigned long`, and `ULONG_MAX` reduced modulo `2 ^ wordBits`
when it does not. -/
theorem C10_decimal_literal_value (M : Machine) (d : List Char)
    (hd : isDecimalLiteral d = true) (hlen : d.length ≤ 31) (hz : noLeadingZero d = true) :
    expr M d = .ret ((if decimalValue d < 2 ^ M.ulongBits then decimalValue d
      else 2 ^ M.ulongBits - 1) % 2 ^ M.wordBits) true := by
  rw [expr_single_dec M d d (make_token_literal d hd hlen), strtoul_decimal _ _ hd hz]
  by_cases h : decimalValue d < 2 ^ M.ulongBits
  · simp [h, Nat.not_le.mpr h]
  · simp [h, Nat.not_lt.mp h]

/-- C10, witness: the theorem at the literal `4294967297`, which wraps to 1 on a 32-bit
guest. -/
theorem C10_decimal_literal_value_witness :
    isDecimalLiteral ['4', '2', '9', '4', '9', '6', '7', '2', '9', '7'] = true
      ∧ noLeadingZero ['4', '2', '9', '4', '9', '6', '7', '2', '9', '7'] = true
      ∧ expr (machine32 failingResolver) ['4', '2', '9', '4', '9', '6', '7', '2', '9', '7'] =
        .ret ((if decimalValue ['4', '2', '9', '4', '9', '6', '7', '2', '9', '7']
            < 2 ^ (machine32 failingResolver).ulongBits
          then decimalValue ['4', '2', '9', '4', '9', '6', '7', '2', '9', '7']
          else 2 ^ (machine32 failingResolver).ulongBits - 1)
            % 2 ^ (machine32 failingResolver).wordBits) true :=
  ⟨by decide, by decide,
    C10_decimal_literal_value (machine32 failingResolver)
      ['4', '2', '9', '4', '9', '6', '7', '2', '9', '7'] (by decide) (by decide) (by decide)⟩

/-- C11, as stated, fails: for the empty input `make_token` returns success with zero
tokens, and `expr` does not return with `ok = false`; it ends in the `Assert` of `eval`
on the empty range. -/
theorem C11_counterexample :
    ¬ (∀ M : Machine, make_token [] = .fail ∧ ∃ v, expr M [] = .ret v false) := by
  intro h
  exact absurd (h (machine32 failingResolver)).1 (by decide)

/-- C11 (amended): for the empty input string `make_token` returns success with zero
tokens (the `while` loop is not entered), and `expr` calls `eval(0, -1)`, which stores
`false` in `success` and ends the run with `Assert(0)`: no value is returned, neither
with `ok = false` nor with `ok = true`. -/
theorem C11_empty_input (M : Machine) :
    make_token [] = .ok [] ∧ expr M [] = .abort ∧ (∀ v ok, expr M [] ≠ .ret v ok) := by
  refine ⟨rfl, rfl, ?_⟩
  intro v ok h
  exact absurd h (by simp [expr, make_token, make_tokenLoop, eval, evalF])

/-- C12: if the token sequence of the input has unbalanced brackets (some initial part
holds more `)` than `(`, or the totals differ), `expr` does not report success and
returns no value at all: the run ends in an `Assert` of `eval` (for a token sequence
without `/` and `%` always), or in a division by zero met before it. For `(1+2` it is the
`Assert` on the main operator. -/
theorem C12_unbalanced_never_success (M : Machine) (s : List Char) (toks : List Token)
    (hm : make_token s = .ok toks) (hu : unbalanced toks) :
    (expr M s = .abort ∨ expr M s = .undefined)
      ∧ (∀ v ok, expr M s ≠ .ret v ok)
      ∧ ((∀ t ∈ toks, t.type ≠ TK_DIV ∧ t.type ≠ TK_MOD) → expr M s = .abort)
      ∧ make_token ['(', '1', '+', '2'] =
          .ok [⟨TK_LBRA, []⟩, ⟨TK_DEC, ['1']⟩, ⟨TK_ADD, []⟩, ⟨TK_DEC, ['2']⟩]
      ∧ expr M ['(', '1', '+', '2'] = .abort := by
  have hne : ∀ v ok, expr M s ≠ .ret v ok := by
    intro v ok h
    rw [expr_of_tokens M s toks hm] at h
    obtain ⟨h1, h2⟩ := eval_ret_balanced M toks v ok h
    rcases hu with ⟨k, hk, hneg⟩ | hd
    · have := h1 k hk
      omega
    · exact hd h2
  have hcases : expr M s = .abort ∨ expr M s = .undefined := by
    rw [expr_of_tokens M s toks hm] at hne ⊢
    rcases eval_cases M toks 0 ((toks.length : Int) - 1) with ⟨v, h⟩ | h | h
    · exact absurd h (hne v true)
    · exact Or.inl h
    · exact Or.inr h
  refine ⟨hcases, hne, ?_, by decide, by rfl⟩
  intro hdiv
  rcases hcases with h | h
  · exact h
  · rw [expr_of_tokens M s toks hm] at h
    exact absurd h (eval_ne_undefined M toks _ _ hdiv)

/-- C12, witness: the theorem at the input `1+2)`, where an initial part holds more `)`
than `(`. -/
theorem C12_unbalanced_never_success_witness :
    make_token ['1', '+', '2', ')'] =
        .ok [⟨TK_DEC, ['1']⟩, ⟨TK_ADD, []⟩, ⟨TK_DEC, ['2']⟩, ⟨TK_RBRA, []⟩]
      ∧ unbalanced [⟨TK_DEC, ['1']⟩, ⟨TK_ADD, []⟩, ⟨TK_DEC, ['2']⟩, ⟨TK_RBRA, []⟩]
      ∧ ((expr (machine32 failingResolver) ['1', '+', '2', ')'] = .abort
          ∨ expr (machine32 failingResolver) ['1', '+', '2', ')'] = .undefined)
        ∧ (∀ v ok, expr (machine32 failingResolver) ['1', '+', '2', ')'] ≠ .ret v ok)
        ∧ ((∀ t ∈ [(⟨TK_DEC, ['1']⟩ : Token), ⟨TK_ADD, []⟩, ⟨TK_DEC, ['2']⟩, ⟨TK_RBRA, []⟩],
            t.type ≠ TK_DIV ∧ t.type ≠ TK_MOD) →
          expr (machine32 failingResolver) ['1', '+', '2', ')'] = .abort)
        ∧ make_token ['(', '1', '+', '2'] =
            .ok [⟨TK_LBRA, []⟩, ⟨TK_DEC, ['1']⟩, ⟨TK_ADD, []⟩, ⟨TK_DEC, ['2']⟩]
        ∧ expr (machine32 failingResolver) ['(', '1', '+', '2'] = .abort) :=
  ⟨by decide, Or.inl ⟨4, by decide, by decide⟩,
    C12_unbalanced_never_success (machine32 failingResolver) ['1', '+', '2', ')']
      [⟨TK_DEC, ['1']⟩, ⟨TK_ADD, []⟩, ⟨TK_DEC, ['2']⟩, ⟨TK_RBRA, []⟩] (by decide)
      (Or.inl ⟨4, by decide, by decide⟩)⟩

/-- C13, as stated, fails: in `1+` the operator `+` lacks its right operand, and `expr`
does not return with `ok = false`; the run ends in the `Assert(0)` of `eval` on the empty
range `(2, 1)`. -/
theorem C13_counterexample :
    ¬ (∀ (M : Machine) (s : List Char) (toks : List Token), make_token s = .ok toks →
        missingOperand toks → ∃ v, expr M s = .ret v false) := by
  intro h
  obtain ⟨v, hv⟩ := h (machine32 failingResolver) ['1', '+'] [⟨TK_DEC, ['1']⟩, ⟨TK_ADD, []⟩]
    (by decide) ⟨[⟨TK_DEC, ['1']⟩], ⟨TK_ADD, []⟩, [], rfl, by decide, Or.inr (by simp)⟩
  have ha : expr (machine32 failingResolver) ['1', '+'] = .abort := by decide
  rw [ha] at hv
  exact absurd hv (by simp)

/-- C13 (amended): for every token sequence and every range with `st > ed`, `eval` stores
`false` in `success` and ends the run with `Assert(0)`: it returns no value, neither 0 nor
any other. Every input whose tokens hold a binary operator that lacks an operand on one
side makes `expr` end without returning, with or without `ok = false`: the run ends in an
`Assert` of `eval` (for a token sequence without `/` and `%` always), or in a division by
zero met before it. So do `1+` and `+1`. -/
theorem C13_missing_operand_aborts (M : Machine) (toks : List Token) (st ed : Int)
    (s : List Char) (toks2 : List Token) (hst : st > ed) (hm : make_token s = .ok toks2)
    (hmo : missingOperand toks2) :
    eval M toks st ed = .abort
      ∧ (expr M s = .abort ∨ expr M s = .undefined)
      ∧ (∀ v ok, expr M s ≠ .ret v ok)
      ∧ ((∀ t ∈ toks2, t.type ≠ TK_DIV ∧ t.type ≠ TK_MOD) → expr M s = .abort)
      ∧ expr M ['1', '+'] = .abort
      ∧ expr M ['+', '1'] = .abort := by
  have hne : ∀ v ok, expr M s ≠ .ret v ok := by
    intro v ok h
    rw [expr_of_tokens M s toks2 hm] at h
    exact WellFormed.not_missingOperand toks2 (eval_ret_wellFormed M toks2 v ok h) hmo
  have hcases : expr M s = .abort ∨ expr M s = .undefined := by
    rw [expr_of_tokens M s toks2 hm] at hne ⊢
    rcases eval_cases M toks2 0 ((toks2.length : Int) - 1) with ⟨v, h⟩ | h | h
    · exact absurd h (hne v true)
    · exact Or.inl h
    · exact Or.inr h
  refine ⟨?_, hcases, hne, ?_, by rfl, by rfl⟩
  · simp only [eval]
    rw [evalF_succ, if_pos hst]
  · intro hdiv
    rcases hcases with h | h
    · exact h
    · rw [expr_of_tokens M s toks2 hm] at h
      exact absurd h (eval_ne_undefined M toks2 _ _ hdiv)

/-- C13 (amended), witness: the theorem at the range `(2, 1)` of the tokens of `1+` and
at the input `1+`. -/
theorem C13_missing_operand_aborts_witness :
    (2 : Int) > 1
      ∧ make_token ['1', '+'] = .ok [⟨TK_DEC, ['1']⟩, ⟨TK_ADD, []⟩]
      ∧ missingOperand [⟨TK_DEC, ['1']⟩, ⟨TK_ADD, []⟩]
      ∧ eval (machine32 failingResolver) [⟨TK_DEC, ['1']⟩, ⟨TK_ADD, []⟩] 2 1 = .abort
      ∧ (∀ v ok, expr (machine32 failingResolver) ['1', '+'] ≠ .ret v ok) :=
  ⟨by decide, by decide,
    ⟨[⟨TK_DEC, ['1']⟩], ⟨TK_ADD, []⟩, [], rfl, by decide, Or.inr (by simp)⟩,
    (C13_missing_operand_aborts (machine32 failingResolver) [⟨TK_DEC, ['1']⟩, ⟨TK_ADD, []⟩]
      2 1 ['1', '+'] [⟨TK_DEC, ['1']⟩, ⟨TK_ADD, []⟩] (by decide) (by decide)
      ⟨[⟨TK_DEC, ['1']⟩], ⟨TK_ADD, []⟩, [], rfl, by decide, Or.inr (by simp)⟩).1,
    (C13_missing_operand_aborts (machine32 failingResolver) [⟨TK_DEC, ['1']⟩, ⟨TK_ADD, []⟩]
      2 1 ['1', '+'] [⟨TK_DEC, ['1']⟩, ⟨TK_ADD, []⟩] (by decide) (by decide)
      ⟨[⟨TK_DEC, ['1']⟩], ⟨TK_ADD, []⟩, [], rfl, by decide, Or.inr (by simp)⟩).2.2.1⟩

/-- C14 (the code departs from the claim): a space at the end of the input makes
`make_token` fail. After the whitespace rule has matched, `continue` resumes the `for`
loop at the second rule; at the end of the input no rule matches and the loop runs out
(`i == NR_REGEX`). So no input followed by one or more spaces is tokenized, whatever the
input: `1` gives one token and the value 1, `1 ` gives `ok = false`, and so does the
text `( 1u ) ` that the expression generator writes for a bracketed number. -/
theorem C14_trailing_space_fails (M : Machine) (s : List Char) (k : Nat) :
    (∀ toks, make_token (s ++ List.replicate (k + 1) ' ') ≠ .ok toks)
      ∧ make_token ['1'] = .ok [⟨TK_DEC, ['1']⟩]
      ∧ make_token ['1', ' '] = .fail
      ∧ expr (machine32 failingResolver) ['1'] = .ret 1 true
      ∧ expr M ['1', ' '] = .ret 0 false
      ∧ make_token [' ', '(', ' ', '1', 'u', ' ', ')'] =
          .ok [⟨TK_LBRA, []⟩, ⟨TK_DEC, ['1', 'u']⟩, ⟨TK_RBRA, []⟩]
      ∧ make_token [' ', '(', ' ', '1', 'u', ' ', ')', ' '] = .fail
      ∧ expr M [' ', '(', ' ', '1', 'u', ' ', ')', ' '] = .ret 0 false := by
  refine ⟨?_, by decide, by decide, by decide, by rfl, by decide, by decide, by rfl⟩
  intro toks
  rw [List.replicate_succ', ← List.append_assoc]
  exact make_tokenLoop_space_end _ _ _ _

/-- C15: `check_parentheses(st, ed)` returns true if and only if the token at `st` is
`(`, the token at `ed` is `)`, and the depth counter walked over the tokens strictly
between them (plus one on `(`, minus one on `)`) never becomes negative and ends at
zero; this holds for every token sequence and every range, in particular for
`st < ed`. On the tokens of `(1+2)+(3+4)` and of `(1)+(2)` it returns false. -/
theorem C15_check_parentheses_iff (toks : List Token) (st ed : Int) :
    (check_parentheses toks st ed = true ↔
      (tokenAt toks st).type = TK_LBRA ∧ (tokenAt toks ed).type = TK_RBRA
        ∧ neverNegative (slice toks (st + 1) (ed - (st + 1)).toNat)
        ∧ depthOf (slice toks (st + 1) (ed - (st + 1)).toNat) = 0)
    ∧ make_token ['(', '1', '+', '2', ')', '+', '(', '3', '+', '4', ')'] =
        .ok [⟨TK_LBRA, []⟩, ⟨TK_DEC, ['1']⟩, ⟨TK_ADD, []⟩, ⟨TK_DEC, ['2']⟩, ⟨TK_RBRA, []⟩,
          ⟨TK_ADD, []⟩, ⟨TK_LBRA, []⟩, ⟨TK_DEC, ['3']⟩, ⟨TK_ADD, []⟩, ⟨TK_DEC, ['4']⟩,
          ⟨TK_RBRA, []⟩]
    ∧ check_parentheses [⟨TK_LBRA, []⟩, ⟨TK_DEC, ['1']⟩, ⟨TK_ADD, []⟩, ⟨TK_DEC, ['2']⟩,
        ⟨TK_RBRA, []⟩, ⟨TK_ADD, []⟩, ⟨TK_LBRA, []⟩, ⟨TK_DEC, ['3']⟩, ⟨TK_ADD, []⟩,
        ⟨TK_DEC, ['4']⟩, ⟨TK_RBRA, []⟩] 0 10 = false
    ∧ make_token ['(', '1', ')', '+', '(', '2', ')'] =
        .ok [⟨TK_LBRA, []⟩, ⟨TK_DEC, ['1']⟩, ⟨TK_RBRA, []⟩, ⟨TK_ADD, []⟩, ⟨TK_LBRA, []⟩,
          ⟨TK_DEC, ['2']⟩, ⟨TK_RBRA, []⟩]
    ∧ check_parentheses [⟨TK_LBRA, []⟩, ⟨TK_DEC, ['1']⟩, ⟨TK_RBRA, []⟩, ⟨TK_ADD, []⟩,
        ⟨TK_LBRA, []⟩, ⟨TK_DEC, ['2']⟩, ⟨TK_RBRA, []⟩] 0 6 = false := by
  refine ⟨?_, by decide, by decide, by decide, by decide⟩
  simp only [check_parentheses, check_parenthesesLoop_slice]
  by_cases h1 : (tokenAt toks st).type = TK_LBRA
  · by_cases h2 : (tokenAt toks ed).type = TK_RBRA
    · simp only [h1, h2, ne_eq, not_true_eq_false, or_self, if_false, true_and]
      rw [← depthWalk_zero_iff]
      cases hw : depthWalk (slice toks (st + 1) (ed - (st + 1)).toNat) 0 with
      | none => simp
      | some d => simp
    · simp [h1, h2]
  · simp [h1]

/-- C16: for every token sequence and range `(st, ed)`, `find_mainop` returns -1 when
the bracket depth becomes negative during the scan from `st` to `ed`, and returns -1
when no operator token of the range is at depth zero; otherwise (the depth never
negative, some operator at depth zero) it returns an index `m` of the range whose token
is an operator at depth zero, whose `op_priority` is the largest among the depth-zero
operators of the range, and which is the last index among those of that priority. -/
theorem C16_find_mainop_spec (toks : List Token) (st ed : Int) :
    (¬ neverNegative (slice toks st (ed + 1 - st).toNat) → find_mainop toks st ed = -1)
      ∧ ((∀ i, st ≤ i → i ≤ ed → ¬ depthZeroOperator toks st i) →
          find_mainop toks st ed = -1)
      ∧ (neverNegative (slice toks st (ed + 1 - st).toNat) →
          (∃ i, st ≤ i ∧ i ≤ ed ∧ depthZeroOperator toks st i) →
          st ≤ find_mainop toks st ed ∧ find_mainop toks st ed ≤ ed
            ∧ depthZeroOperator toks st (find_mainop toks st ed)
            ∧ ∀ i, st ≤ i → i ≤ ed → depthZeroOperator toks st i →
                op_priority (tokenAt toks i).type
                    ≤ op_priority (tokenAt toks (find_mainop toks st ed)).type
                  ∧ (op_priority (tokenAt toks i).type
                      = op_priority (tokenAt toks (find_mainop toks st ed)).type →
                    i ≤ find_mainop toks st ed)) := by
  have hlen := slice_length toks (ed + 1 - st).toNat st
  have hpos : ∀ i, st ≤ i → i ≤ ed →
      (i - st).toNat < (ed + 1 - st).toNat ∧ st + ((i - st).toNat : Int) = i := by
    intro i h1 h2
    omega
  have hcand : ∀ i, st ≤ i → i ≤ ed → depthZeroOperator toks st i →
      candAt (slice toks st (ed + 1 - st).toNat) 0 (i - st).toNat := by
    intro i h1 h2 hc
    rw [candAt_slice toks st _ _ (hpos i h1 h2).1, (hpos i h1 h2).2]
    exact hc
  have hget : ∀ i, st ≤ i → i ≤ ed →
      (slice toks st (ed + 1 - st).toNat).getD (i - st).toNat default = tokenAt toks i := by
    intro i h1 h2
    rw [slice_getD toks _ st _ (hpos i h1 h2).1, (hpos i h1 h2).2]
  cases hw : scanWalk (slice toks st (ed + 1 - st).toNat) st (-1, 0, 0) with
  | none =>
    have hm := find_mainop_of_none toks st ed hw
    have hd := scanWalk_depth (slice toks st (ed + 1 - st).toNat) st (-1) 0 0
    rw [hw] at hd
    refine ⟨fun _ => hm, fun _ => hm, fun hnn _ => ?_⟩
    have := (depthWalk_some_iff (slice toks st (ed + 1 - st).toNat) 0
      (0 + depthOf (slice toks st (ed + 1 - st).toNat)) (le_refl _)).mpr
      ⟨fun k hk => by simpa using hnn k hk, rfl⟩
    rw [this] at hd
    exact absurd hd (by simp)
  | some s =>
    obtain ⟨m, p, d⟩ := s
    have hm := find_mainop_of_some toks st ed _ hw
    simp only at hm
    have hd := scanWalk_depth (slice toks st (ed + 1 - st).toNat) st (-1) 0 0
    rw [hw] at hd
    simp only [Option.map_some'] at hd
    have hnn : neverNegative (slice toks st (ed + 1 - st).toNat) := by
      have := (depthWalk_some_iff _ 0 d (le_refl _)).mp hd.symm
      intro k hk
      simpa using this.1 k hk
    obtain ⟨-, hall, halt⟩ := scanWalk_spec _ _ _ _ _ _ _ _ hw
    rw [hlen] at hall halt
    refine ⟨fun h => absurd hnn h, ?_, ?_⟩
    · intro hno
      rcases halt with ⟨e1, -, -⟩ | ⟨k, hk, e1, e2, -, -⟩
      · rw [hm, e1]
      · rw [candAt_slice toks st _ k hk] at e2
        exact absurd e2 (hno _ (by omega) (by omega))
    · rintro - ⟨i, hi1, hi2, hic⟩
      rcases halt with ⟨-, -, e3⟩ | ⟨k, hk, e1, e2, e3, e4⟩
      · have := e3 _ (hpos i hi1 hi2).1 (hcand i hi1 hi2 hic)
        have h0 := op_priority_nonneg
          ((slice toks st (ed + 1 - st).toNat).getD (i - st).toNat default).type
        omega
      · rw [hm, e1]
        have hgk : (slice toks st (ed + 1 - st).toNat).getD k default
            = tokenAt toks (st + k) := slice_getD toks _ st k hk
        rw [hgk] at e3
        refine ⟨by omega, by omega, (candAt_slice toks st _ k hk).mp e2, ?_⟩
        intro j hj1 hj2 hjc
        have h1 := hall _ (hpos j hj1 hj2).1 (hcand j hj1 hj2 hjc)
        have h2 := e4 _ (hpos j hj1 hj2).1 (hcand j hj1 hj2 hjc)
        rw [hget j hj1 hj2] at h1 h2
        rw [e3]
        refine ⟨h1, fun h => ?_⟩
        have := h2 h
        have := (hpos j hj1 hj2).2
        omega

/-- C16, witness: the theorem at the tokens of `1+(2*3)-4` on the whole range; the
depth-zero operators are `+` at index 1 and `-` at index 7, of the same priority, and
the result is the later one. -/
theorem C16_find_mainop_spec_witness :
    neverNegative (slice [⟨TK_DEC, ['1']⟩, ⟨TK_ADD, []⟩, ⟨TK_LBRA, []⟩, ⟨TK_DEC, ['2']⟩,
        ⟨TK_MUL, []⟩, ⟨TK_DEC, ['3']⟩, ⟨TK_RBRA, []⟩, ⟨TK_SUB, []⟩, ⟨TK_DEC, ['4']⟩] 0
        ((8 : Int) + 1 - 0).toNat)
      ∧ depthZeroOperator [⟨TK_DEC, ['1']⟩, ⟨TK_ADD, []⟩, ⟨TK_LBRA, []⟩, ⟨TK_DEC, ['2']⟩,
        ⟨TK_MUL, []⟩, ⟨TK_DEC, ['3']⟩, ⟨TK_RBRA, []⟩, ⟨TK_SUB, []⟩, ⟨TK_DEC, ['4']⟩] 0 1
      ∧ find_mainop [⟨TK_DEC, ['1']⟩, ⟨TK_ADD, []⟩, ⟨TK_LBRA, []⟩, ⟨TK_DEC, ['2']⟩,
        ⟨TK_MUL, []⟩, ⟨TK_DEC, ['3']⟩, ⟨TK_RBRA, []⟩, ⟨TK_SUB, []⟩, ⟨TK_DEC, ['4']⟩] 0 8 = 7
      ∧ depthZeroOperator [⟨TK_DEC, ['1']⟩, ⟨TK_ADD, []⟩, ⟨TK_LBRA, []⟩, ⟨TK_DEC, ['2']⟩,
        ⟨TK_MUL, []⟩, ⟨TK_DEC, ['3']⟩, ⟨TK_RBRA, []⟩, ⟨TK_SUB, []⟩, ⟨TK_DEC, ['4']⟩] 0
        (find_mainop [⟨TK_DEC, ['1']⟩, ⟨TK_ADD, []⟩, ⟨TK_LBRA, []⟩, ⟨TK_DEC, ['2']⟩,
        ⟨TK_MUL, []⟩, ⟨TK_DEC, ['3']⟩, ⟨TK_RBRA, []⟩, ⟨TK_SUB, []⟩, ⟨TK_DEC, ['4']⟩] 0 8) := by
  have hnn : neverNegative (slice [⟨TK_DEC, ['1']⟩, ⟨TK_ADD, []⟩, ⟨TK_LBRA, []⟩,
      ⟨TK_DEC, ['2']⟩, ⟨TK_MUL, []⟩, ⟨TK_DEC, ['3']⟩, ⟨TK_RBRA, []⟩, ⟨TK_SUB, []⟩,
      ⟨TK_DEC, ['4']⟩] 0 ((8 : Int) + 1 - 0).toNat) := by
    intro k hk
    have hk9 : k ≤ 9 := hk
    interval_cases k <;> decide
  have hc : depthZeroOperator [⟨TK_DEC, ['1']⟩, ⟨TK_ADD, []⟩, ⟨TK_LBRA, []⟩,
      ⟨TK_DEC, ['2']⟩, ⟨TK_MUL, []⟩, ⟨TK_DEC, ['3']⟩, ⟨TK_RBRA, []⟩, ⟨TK_SUB, []⟩,
      ⟨TK_DEC, ['4']⟩] 0 1 := ⟨by decide, by decide⟩
  exact ⟨hnn, hc, by decide,
    ((C16_find_mainop_spec [⟨TK_DEC, ['1']⟩, ⟨TK_ADD, []⟩, ⟨TK_LBRA, []⟩, ⟨TK_DEC, ['2']⟩,
      ⟨TK_MUL, []⟩, ⟨TK_DEC, ['3']⟩, ⟨TK_RBRA, []⟩, ⟨TK_SUB, []⟩, ⟨TK_DEC, ['4']⟩] 0 8).2.2
      hnn ⟨1, by decide, by decide, hc⟩).2.2.1⟩

/-- C17: let the pattern of a decimal literal or of a register match `len` characters
at some place of the input, after any number of spaces, with room in the token array.
If `len` is at most 31, that pass of the loop stores a token of kind `TK_DEC` or `TK_REG`
whose string is the `len` matched characters in order, and goes on behind them. If
`len` exceeds 31, `Assert(substr_len < 32)` fails: tokenization ends there, and nothing
is stored truncated. So 31 digits give one token with all 31 digits, and 32 digits, or
`$` with 31 letters, end the run. -/
theorem C17_lexeme_whole_or_abort (n k f : Nat) (e : List Char) (len : Nat) (hn : n < 4096)
    (hmatch : regexec .dec e = some len ∨ regexec .reg e = some len) :
    (len ≤ 31 → ∃ ty, (ty = TK_DEC ∨ ty = TK_REG)
        ∧ tryRules n rules (List.replicate k ' ' ++ e) = .tok (e.drop len) ⟨ty, e.take len⟩
        ∧ make_tokenLoop (f + 1) n (List.replicate k ' ' ++ e) =
            (make_tokenLoop f (n + 1) (e.drop len)).cons ⟨ty, e.take len⟩
        ∧ (e.take len).length = len)
      ∧ (31 < len → tryRules n rules (List.replicate k ' ' ++ e) = .abort
        ∧ make_tokenLoop (f + 1) n (List.replicate k ' ' ++ e) = .abort)
      ∧ make_token (List.replicate 31 '7') = .ok [⟨TK_DEC, List.replicate 31 '7'⟩]
      ∧ make_token (List.replicate 32 '7') = .abort
      ∧ make_token ('$' :: List.replicate 30 'a') = .ok [⟨TK_REG, '$' :: List.replicate 30 'a'⟩]
      ∧ make_token ('$' :: List.replicate 31 'a') = .abort := by
  have hne : e ≠ [] := by
    rcases hmatch with h | h
    · obtain ⟨c, cs, rfl, -⟩ := regexec_dec_head e len h
      simp
    · obtain ⟨cs, rfl⟩ := regexec_reg_head e len h
      simp
  have hne2 : List.replicate k ' ' ++ e ≠ [] := by simp [hne]
  have hhead : ∀ c, e.head? = some c → c ≠ ' ' := by
    intro c hc
    rcases hmatch with h | h
    · obtain ⟨c2, cs, rfl, hd⟩ := regexec_dec_head e len h
      simp only [List.head?_cons, Option.some.injEq] at hc
      subst hc
      exact (digit_ne _ hd).1
    · obtain ⟨cs, rfl⟩ := regexec_reg_head e len h
      simp only [List.head?_cons, Option.some.injEq] at hc
      subst hc
      decide
  have hlen : len ≤ e.length := by
    rcases hmatch with h | h
    · exact (regexec_bounds _ (by simp) e len h).2
    · exact (regexec_bounds _ (by simp) e len h).2
  have hskip := tryRules_skip_spaces n k e hhead
  refine ⟨?_, ?_, by decide, by decide, by decide, by decide⟩
  · intro h31
    rcases hmatch with h | h
    · have ht := tryRules_dec_match n e len hn h
      rw [if_pos (by omega)] at ht
      refine ⟨TK_DEC, Or.inl rfl, by rw [hskip, ht], ?_, by simp [hlen]⟩
      rw [make_tokenLoop_step f n _ hne2, hskip, ht]
    · have ht := tryRules_reg_match n e len hn h
      rw [if_pos (by omega)] at ht
      refine ⟨TK_REG, Or.inr rfl, by rw [hskip, ht], ?_, by simp [hlen]⟩
      rw [make_tokenLoop_step f n _ hne2, hskip, ht]
  · intro h31
    rcases hmatch with h | h
    · have ht := tryRules_dec_match n e len hn h
      rw [if_neg (by omega)] at ht
      refine ⟨by rw [hskip, ht], ?_⟩
      rw [make_tokenLoop_step f n _ hne2, hskip, ht]
    · have ht := tryRules_reg_match n e len hn h
      rw [if_neg (by omega)] at ht
      refine ⟨by rw [hskip, ht], ?_⟩
      rw [make_tokenLoop_step f n _ hne2, hskip, ht]

/-- C17, witness: the theorem at the input ` 12+3` (one space, then the lexeme `12`),
with no token stored yet. -/
theorem C17_lexeme_whole_or_abort_witness :
    (0 : Nat) < 4096
      ∧ regexec .dec ['1', '2', '+', '3'] = some 2
      ∧ tryRules 0 rules [' ', '1', '2', '+', '3'] = .tok ['+', '3'] ⟨TK_DEC, ['1', '2']⟩
      ∧ (∃ ty, (ty = TK_DEC ∨ ty = TK_REG)
        ∧ tryRules 0 rules (List.replicate 1 ' ' ++ ['1', '2', '+', '3'])
            = .tok (['1', '2', '+', '3'].drop 2) ⟨ty, ['1', '2', '+', '3'].take 2⟩
        ∧ make_tokenLoop (5 + 1) 0 (List.replicate 1 ' ' ++ ['1', '2', '+', '3']) =
            (make_tokenLoop 5 (0 + 1) (['1', '2', '+', '3'].drop 2)).cons
              ⟨ty, ['1', '2', '+', '3'].take 2⟩
        ∧ (['1', '2', '+', '3'].take 2).length = 2) :=
  ⟨by decide, by decide, by decide,
    (C17_lexeme_whole_or_abort 0 1 5 ['1', '2', '+', '3'] 2 (by decide)
      (Or.inl (by decide))).1 (by decide)⟩

/-- C18 (the code departs from the claim): `make_token` never compares `nr_token` with
the 4096 entries of `tokens`. The literal `1` inside 2048 pairs of brackets is an input
of 4097 characters that needs 4097 tokens; it is not rejected: the loop stores its last
token into `tokens[4096]`, behind the end of the array, and the behaviour of `expr` is
undefined from there. With 4096 tokens stored, the next bracket is stored all the same. -/
theorem C18_no_capacity_check (M : Machine) (rest : List Char) (n : Nat) :
    (nestInput 2048).length = 4097
      ∧ make_token (nestInput 2048) = .overflow
      ∧ expr M (nestInput 2048) = .undefined
      ∧ tryRules (4096 + n) rules (')' :: rest) = .overflow := by
  refine ⟨nestInput_length 2048, make_token_nestInput_overflow 2048 (by decide) (by decide),
    ?_, tryRules_rbra_overflow _ _ (by omega)⟩
  simp only [expr, make_token_nestInput_overflow 2048 (by decide) (by decide)]

/-- C19: `eval` terminates on every token sequence and every range `(st, ed)`. The
recursion never reaches the bound on its depth; with any larger bound `f` the result
is the same; `eval` satisfies the recursive equation of the source, its recursive calls
being calls of `eval` itself; and these calls are on strictly shorter ranges: the
interior `(st+1, ed-1)` of a range with `st < ed` is shorter by two, and a main operator
index `m` used for splitting (`m > 0`) satisfies `st <= m <= ed`, so that `(st, m-1)`
and `(m+1, ed)` are strictly shorter than `(st, ed)`. -/
theorem C19_eval_terminates (M : Machine) (toks : List Token) (st ed : Int) (f : Nat)
    (hf : (ed + 1 - st).toNat + 1 ≤ f) :
    eval M toks st ed ≠ .nofuel
      ∧ evalF M toks f st ed = eval M toks st ed
      ∧ (eval M toks st ed =
          if st > ed then .abort
          else if st = ed then eval_single M (tokenAt toks st)
          else if check_parentheses toks st ed = true then
            match eval M toks (st + 1) (ed - 1) with
            | .ret v s => eval_return v s
            | r => r
          else if ¬ (find_mainop toks st ed > 0) then .abort
          else
            match eval M toks st (find_mainop toks st ed - 1) with
            | .ret lval lexpr =>
              match eval M toks (find_mainop toks st ed + 1) ed with
              | .ret rval rexpr =>
                if ¬ (lexpr && rexpr) = true then .abort
                else eval_binary M.wordBits (tokenAt toks (find_mainop toks st ed)).type
                  lval rval
              | r => r
            | r => r)
      ∧ (st < ed → ((ed - 1) + 1 - (st + 1)).toNat + 2 = (ed + 1 - st).toNat)
      ∧ (find_mainop toks st ed > 0 →
          st ≤ find_mainop toks st ed ∧ find_mainop toks st ed ≤ ed
            ∧ ((find_mainop toks st ed - 1) + 1 - st).toNat < (ed + 1 - st).toNat
            ∧ (ed + 1 - (find_mainop toks st ed + 1)).toNat < (ed + 1 - st).toNat) := by
  refine ⟨eval_ne_nofuel M toks st ed, evalF_fuel2 M toks f _ st ed hf (le_refl _),
    eval_unfold M toks st ed, fun h => by omega, fun h => ?_⟩
  rcases find_mainop_range toks st ed with h2 | h2
  · omega
  · refine ⟨h2.1, h2.2, by omega, by omega⟩

/-- C19, witness: the theorem at the tokens of `(1+2)*3`, on the whole range, with the
bound 100. -/
theorem C19_eval_terminates_witness :
    ((6 : Int) + 1 - 0).toNat + 1 ≤ 100
      ∧ find_mainop [⟨TK_LBRA, []⟩, ⟨TK_DEC, ['1']⟩, ⟨TK_ADD, []⟩, ⟨TK_DEC, ['2']⟩,
          ⟨TK_RBRA, []⟩, ⟨TK_MUL, []⟩, ⟨TK_DEC, ['3']⟩] 0 6 = 5
      ∧ evalF (machine32 failingResolver) [⟨TK_LBRA, []⟩, ⟨TK_DEC, ['1']⟩, ⟨TK_ADD, []⟩,
          ⟨TK_DEC, ['2']⟩, ⟨TK_RBRA, []⟩, ⟨TK_MUL, []⟩, ⟨TK_DEC, ['3']⟩] 100 0 6 = .ret 9 true
      ∧ eval (machine32 failingResolver) [⟨TK_LBRA, []⟩, ⟨TK_DEC, ['1']⟩, ⟨TK_ADD, []⟩,
          ⟨TK_DEC, ['2']⟩, ⟨TK_RBRA, []⟩, ⟨TK_MUL, []⟩, ⟨TK_DEC, ['3']⟩] 0 6 ≠ .nofuel :=
  ⟨by decide, by decide, by decide,
    (C19_eval_terminates (machine32 failingResolver) [⟨TK_LBRA, []⟩, ⟨TK_DEC, ['1']⟩,
      ⟨TK_ADD, []⟩, ⟨TK_DEC, ['2']⟩, ⟨TK_RBRA, []⟩, ⟨TK_MUL, []⟩, ⟨TK_DEC, ['3']⟩] 0 6 100
      (by decide)).1⟩

/-- C20: round trip of the lexer. For every sequence of at most 4096 lexemes, each a
decimal literal (digits with an optional `u` suffix, at most 31 characters), a register
reference (`$` followed by one or more characters of a-z or 0-9, at most 31 characters)
or one of `+ - * / % ( ) == != && ||`, `make_token` succeeds on the texts joined by
single spaces and stores exactly one token per lexeme, in order: the kind is the kind of
the lexeme, and the string of a number or register token is the text of the lexeme. -/
theorem C20_lexer_round_trip (ts : List Lexeme) (hlen : ts.length ≤ 4096)
    (hv : ∀ t ∈ ts, t.valid = true) :
    make_token (joinTexts ts) = .ok (ts.map Lexeme.stored)
      ∧ (ts.map Lexeme.stored).map Token.type = ts.map Lexeme.kind
      ∧ ∀ t ∈ ts, t.kind = TK_DEC ∨ t.kind = TK_REG → t.stored.str = t.text := by
  refine ⟨make_tokenLoop_joinTexts ts 0 (by omega) hv, ?_, ?_⟩
  · simp [Lexeme.stored]
  · intro t _ hk
    simp [Lexeme.stored, hk]

/-- C20, witness: the theorem at the lexemes `12u`, `+`, `$a0`, `==`, `(`, `7`, `)`,
whose joined text is `12u + $a0 == ( 7 )`. -/
theorem C20_lexer_round_trip_witness :
    joinTexts [⟨TK_DEC, ['1', '2', 'u']⟩, ⟨TK_ADD, ['+']⟩, ⟨TK_REG, ['$', 'a', '0']⟩,
        ⟨TK_EQ, ['=', '=']⟩, ⟨TK_LBRA, ['(']⟩, ⟨TK_DEC, ['7']⟩, ⟨TK_RBRA, [')']⟩]
      = ['1', '2', 'u', ' ', '+', ' ', '$', 'a', '0', ' ', '=', '=', ' ', '(', ' ', '7', ' ',
          ')']
      ∧ make_token (joinTexts [⟨TK_DEC, ['1', '2', 'u']⟩, ⟨TK_ADD, ['+']⟩,
        ⟨TK_REG, ['$', 'a', '0']⟩, ⟨TK_EQ, ['=', '=']⟩, ⟨TK_LBRA, ['(']⟩, ⟨TK_DEC, ['7']⟩,
        ⟨TK_RBRA, [')']⟩])
      = .ok [⟨TK_DEC, ['1', '2', 'u']⟩, ⟨TK_ADD, []⟩, ⟨TK_REG, ['$', 'a', '0']⟩, ⟨TK_EQ, []⟩,
          ⟨TK_LBRA, []⟩, ⟨TK_DEC, ['7']⟩, ⟨TK_RBRA, []⟩] :=
  ⟨by decide,
    (C20_lexer_round_trip [⟨TK_DEC, ['1', '2', 'u']⟩, ⟨TK_ADD, ['+']⟩,
      ⟨TK_REG, ['$', 'a', '0']⟩, ⟨TK_EQ, ['=', '=']⟩, ⟨TK_LBRA, ['(']⟩, ⟨TK_DEC, ['7']⟩,
      ⟨TK_RBRA, [')']⟩] (by decide) (by decide)).1⟩

end Nemu
